import Mathlib

set_option linter.unusedSectionVars false

/-!
Verification of the Robin Hood hash dictionary from this repository.

The repository ships two implementations of the same algorithm:
a generic, macro-generated one (`DICT_DEFINE` in the single header that
produces `NAME##_create_with_capacity`, `NAME##_set`, `NAME##_get`,
`NAME##_contains`, `NAME##_remove`, `NAME##_resize`, `NAME##_clear`,
`NAME##_iter` / `NAME##_next`), and a concrete `Dict<string,int>` one
(`dict_create_with_capacity`, `dict_set`, `dict_get`, `dict_get_ptr`,
`dict_contains`, `dict_remove`, `dict_resize`, `dict_reserve`,
`dict_clear`, `dict_iter` / `dict_next`).  Apart from allocation
behaviour (eager versus lazy key copy, resize rebuilding in place versus
re-inserting through `dict_set`) the two compute identical states, so the
state-level embedding below is shared and parameterized over the key
type, the value type and the hash capability, exactly as `DICT_DEFINE`
is parameterized over `KEY_TYPE`, `VALUE_TYPE` and `HASH_FN`.  The
equality capability `EQ_FN` is modelled by decidable equality on the key
type (the shipped instantiations use `strcmp`/`==`).

Modelling conventions:
* machine integers become `Nat`/`Int`; the `uint32_t` hash value is the
  number produced by the hash capability (the concrete DJB2 hash takes
  `% 2^32` at every step, mirroring `uint32_t` wrap-around);
* the C load-factor test `(double)(size + 1) / capacity > 0.75` is the
  exact rational comparison `4 * (size + 1) > 3 * capacity`; for the
  capacities and sizes the program can reach the double division is far
  from the rounding boundary, and at the boundary itself the quotient
  `3/4` is exactly representable, so the two tests agree;
* `hash % capacity` with `capacity == 0` is undefined behaviour in C
  (division by zero); the public probing operations therefore go through
  `modIdx`, which returns `none` for a zero divisor, and an operation
  that would perform the division by zero returns `none`;
* `dict_reserve`'s doubling loop `while (new_cap < required)` never
  terminates when `capacity == 0`; the fuelled `growCap` returns `none`
  in exactly that case;
* allocation is assumed to succeed in the shared embedding; separately
  instrumented variants (`setEagerCopy` for the generic header's
  unchecked eager copy, `set01From`/`set01Go`/`dict_set01`/
  `dict_resize01` for `dict_set`/`dict_resize` with an allocation oracle
  and a count of the `strdup` calls) model the key-copy capability
  failing and count key allocations, for the error-handling claims.

The array of entries is a `List` whose length is the `capacity` field;
`entries[i]` becomes `List.getD i default`, and `entries[i] = x` becomes
`List.set i x`.  Every slot access performed by the code is in bounds,
so the `getD` default is never consulted on the executions the theorems
speak about.
-/

namespace DictRH

/-- One slot of the table: `{KEY_TYPE key; VALUE_TYPE value; uint32_t hash;
int psl;}`.  `psl = -1` is the sentinel for an empty slot. -/
structure Entry (K V : Type) where
  key : K
  value : V
  hash : Nat
  psl : Int
deriving DecidableEq

/-- The dictionary header: `{Entry *entries; size_t capacity; size_t size;}`. -/
structure Dict (K V : Type) where
  entries : List (Entry K V)
  capacity : Nat
  size : Nat
deriving DecidableEq

/-- The iterator: `{NAME *dict; size_t index;}` (the cursor state is the
index; the dictionary is passed alongside). -/
structure Iter (K V : Type) where
  dict : Dict K V
  index : Nat
deriving DecidableEq

variable {K V : Type} [DecidableEq K] [Inhabited K] [Inhabited V]

instance : Inhabited (Entry K V) := ⟨⟨default, default, 0, 0⟩⟩

/-- Read of `entries[i]` (always in bounds in the modelled executions). -/
def eAt (es : List (Entry K V)) (i : Nat) : Entry K V := es.getD i default

/-- The stored probe-sequence length of slot `i`. -/
def pslOf (es : List (Entry K V)) (i : Nat) : Int := (eAt es i).psl

/-- Occupancy test `entries[i].psl >= 0`, as a `Bool`. -/
def occB (e : Entry K V) : Bool := decide (0 ≤ e.psl)

/-- The C expression `hash % capacity`: division by zero is undefined
behaviour, so a zero divisor yields `none`. -/
def modIdx (h cap : Nat) : Option Nat := if cap = 0 then none else some (h % cap)

/-- `NAME##_create_with_capacity` / `dict_create_with_capacity`: calloc the
slot array and set every `psl` to `-1` (allocation is assumed to succeed;
there is no validation of `capacity`). -/
def create (cap : Nat) : Dict K V :=
  { entries := List.replicate cap ⟨default, default, 0, -1⟩
    capacity := cap
    size := 0 }

/-- The probing loop of `NAME##_set` / `dict_set`, for `i` from the current
position while `steps` iterations remain (the loop runs `capacity` times).
`probe = (idx + i) % capacity`; an empty slot receives the carried entry
(return `true` = Inserted), a slot with matching cached hash and key gets
its value overwritten in place (return `false` = Updated), and a richer
carried entry evicts a poorer resident (Robin Hood swap), the carried
`psl` growing by one each iteration.  Falling out of the loop returns
`false` without inserting. -/
def setFrom (cap idx h : Nat) (k : K) (v : V) :
    Nat → Nat → List (Entry K V) → Entry K V → List (Entry K V) × Bool
  | _, 0, es, _ => (es, false)
  | i, steps+1, es, e =>
    let probe := (idx + i) % cap
    let r := eAt es probe
    if r.psl < 0 then (es.set probe e, true)
    else if r.hash = h ∧ r.key = k then (es.set probe { r with value := v }, false)
    else if r.psl < e.psl then
      setFrom cap idx h k v (i+1) steps (es.set probe e) { r with psl := r.psl + 1 }
    else
      setFrom cap idx h k v (i+1) steps es { e with psl := e.psl + 1 }

/-- The re-insertion loop inside `NAME##_resize`: identical to the `set`
loop but with no update branch (`break` on placement maps to returning
`true`; entry dropped if the loop exhausts, returning `false`). -/
def insFrom (cap idx : Nat) :
    Nat → Nat → List (Entry K V) → Entry K V → List (Entry K V) × Bool
  | _, 0, es, _ => (es, false)
  | i, steps+1, es, e =>
    let probe := (idx + i) % cap
    let r := eAt es probe
    if r.psl < 0 then (es.set probe e, true)
    else if r.psl < e.psl then
      insFrom cap idx (i+1) steps (es.set probe e) { r with psl := r.psl + 1 }
    else
      insFrom cap idx (i+1) steps es { e with psl := e.psl + 1 }

/-- `NAME##_resize`: allocate a fresh all-empty array of `new_capacity`
(installed in the header immediately, as in the source), reset `size`,
then walk the old array in physical order and re-insert every occupied
entry with its `psl` reset to `0`, bumping `size` on every placement.
Keys and cached hashes are moved, not recomputed. -/
def resize (d : Dict K V) (n : Nat) : Dict K V :=
  d.entries.foldl
    (fun nd old =>
      if old.psl < 0 then nd
      else
        let idx := old.hash % nd.capacity
        let p := insFrom nd.capacity idx 0 nd.capacity nd.entries { old with psl := 0 }
        { entries := p.1, capacity := nd.capacity
          size := if p.2 then nd.size + 1 else nd.size })
    { entries := List.replicate n ⟨default, default, 0, -1⟩, capacity := n, size := 0 }

/-- `NAME##_set` / `dict_set`: grow by doubling when
`(size + 1) / capacity > 0.75`, then probe.  Returns the new state and
the Inserted/Updated flag; `none` models the division by zero on a
zero-capacity table. -/
def setOpt (hashF : K → Nat) (d : Dict K V) (k : K) (v : V) :
    Option (Dict K V × Bool) :=
  let d1 := if 3 * d.capacity < 4 * (d.size + 1) then resize d (2 * d.capacity) else d
  match modIdx (hashF k) d1.capacity with
  | none => none
  | some idx =>
    let h := hashF k
    let p := setFrom d1.capacity idx h k v 0 d1.capacity d1.entries ⟨k, v, h, 0⟩
    some ({ entries := p.1, capacity := d1.capacity
            size := if p.2 then d1.size + 1 else d1.size }, p.2)

/-- The shared search loop of `NAME##_get` / `NAME##_get_ptr` /
`NAME##_contains` / `NAME##_remove` (all four walk the identical probe
sequence): stop with `none` on an empty slot or on a resident strictly
poorer than the query (`entries[probe].psl < psl`), answer the probe
index on a cached-hash and key match, otherwise continue. -/
def searchFrom (cap idx h : Nat) (k : K) (es : List (Entry K V)) :
    Nat → Nat → Option Nat
  | _, 0 => none
  | t, steps+1 =>
    let probe := (idx + t) % cap
    let r := eAt es probe
    if r.psl < 0 ∨ r.psl < (t : Int) then none
    else if r.hash = h ∧ r.key = k then some probe
    else searchFrom cap idx h k es (t+1) steps

/-- `NAME##_get` / `dict_get`: the found value, or `default_val`. -/
def getOpt (hashF : K → Nat) (d : Dict K V) (k : K) (dflt : V) : Option V :=
  match modIdx (hashF k) d.capacity with
  | none => none
  | some idx =>
    match searchFrom d.capacity idx (hashF k) k d.entries 0 d.capacity with
    | some p => some (eAt d.entries p).value
    | none => some dflt

/-- `NAME##_get_ptr` / `dict_get_ptr`: the aliased value, or NULL
(inner `none`). -/
def getPtrOpt (hashF : K → Nat) (d : Dict K V) (k : K) : Option (Option V) :=
  match modIdx (hashF k) d.capacity with
  | none => none
  | some idx =>
    some ((searchFrom d.capacity idx (hashF k) k d.entries 0 d.capacity).map
      (fun p => (eAt d.entries p).value))

/-- `NAME##_contains` / `dict_contains`. -/
def containsOpt (hashF : K → Nat) (d : Dict K V) (k : K) : Option Bool :=
  match modIdx (hashF k) d.capacity with
  | none => none
  | some idx =>
    some (searchFrom d.capacity idx (hashF k) k d.entries 0 d.capacity).isSome

/-- The backward-shift loop of `NAME##_remove`: starting at the vacated
slot, as long as the next physical slot holds an entry displaced from
its ideal bucket (`psl > 0`), move it one slot back with its `psl`
decremented and vacate the slot it came from.  `j` runs from `1` below
`capacity`. -/
def shiftFrom (cap probe : Nat) :
    Nat → Nat → Nat → List (Entry K V) → List (Entry K V)
  | _, _, 0, es => es
  | emp, j, steps+1, es =>
    let nxt := (probe + j) % cap
    let r := eAt es nxt
    if r.psl ≤ 0 then es
    else
      shiftFrom cap probe nxt (j+1) steps
        ((es.set emp { r with psl := r.psl - 1 }).set nxt { r with psl := -1 })

/-- `NAME##_remove` / `dict_remove`: search; on a match free the key,
mark the slot empty, decrement `size` and backward-shift the cluster;
otherwise return `false` with the state untouched. -/
def removeOpt (hashF : K → Nat) (d : Dict K V) (k : K) :
    Option (Dict K V × Bool) :=
  match modIdx (hashF k) d.capacity with
  | none => none
  | some idx =>
    match searchFrom d.capacity idx (hashF k) k d.entries 0 d.capacity with
    | none => some (d, false)
    | some p =>
      let r := eAt d.entries p
      let es1 := d.entries.set p { r with psl := -1 }
      let es2 := shiftFrom d.capacity p p 1 (d.capacity - 1) es1
      some ({ entries := es2, capacity := d.capacity, size := d.size - 1 }, true)

/-- `NAME##_clear` / `dict_clear`: free every occupied key, set its slot
to the sentinel, reset `size`; the capacity is retained. -/
def clear (d : Dict K V) : Dict K V :=
  { entries := d.entries.map (fun e => if e.psl < 0 then e else { e with psl := -1 })
    capacity := d.capacity
    size := 0 }

/-- `NAME##_size` (NULL is not modelled: the dictionary argument is the
structure itself). -/
def sizeOf (d : Dict K V) : Nat := d.size

/-- `NAME##_capacity`. -/
def capacityOf (d : Dict K V) : Nat := d.capacity

/-- `NAME##_empty`. -/
def emptyOf (d : Dict K V) : Bool := decide (d.size = 0)

/-- `NAME##_iter` / `dict_iter`: a fresh cursor at index `0`. -/
def iterOf (d : Dict K V) : Iter K V := ⟨d, 0⟩

/-- The scan inside `NAME##_next` / `dict_next`: advance past empty slots
while `index < capacity`; on an occupied slot yield its key and value and
leave the cursor just past it.  `steps` is the fuel `capacity - index`. -/
def nextFrom (d : Dict K V) : Nat → Nat → Option (K × V × Nat)
  | _, 0 => none
  | i, steps+1 =>
    let e := eAt d.entries i
    if 0 ≤ e.psl then some (e.key, e.value, i + 1)
    else nextFrom d (i+1) steps

/-- `NAME##_next` / `dict_next` on a cursor: `none` is exhaustion
(`false` in C), otherwise the yielded pair and the advanced cursor. -/
def nextOpt (it : Iter K V) : Option ((K × V) × Iter K V) :=
  (nextFrom it.dict it.index (it.dict.capacity - it.index)).map
    (fun r => ((r.1, r.2.1), ⟨it.dict, r.2.2⟩))

/-- Repeatedly calling `next` from a cursor until it reports exhaustion,
collecting the yielded pairs.  The fuel `capacity` bounds the number of
yields. -/
def runIterFrom (d : Dict K V) : Nat → Nat → List (K × V)
  | _, 0 => []
  | i, f+1 =>
    match nextFrom d i (d.capacity - i) with
    | none => []
    | some (k, v, i2) => (k, v) :: runIterFrom d i2 f

/-- The full trace of a fresh `iter()` cursor driven by `next()` to
exhaustion. -/
def runIter (d : Dict K V) : List (K × V) := runIterFrom d 0 d.capacity

/-- The doubling loop of `dict_reserve`: `while (new_cap < required)
new_cap *= 2`.  With `new_cap = 0` the loop never terminates, which the
fuel exhaustion models as `none`. -/
def growCap : Nat → Nat → Nat → Option Nat
  | 0, c, r => if c < r then none else some c
  | f+1, c, r => if c < r then growCap f (2 * c) r else some c

/-- `dict_reserve`: `required = (size_t)(n / 0.75) + 1` (the double
division truncated, i.e. `4 * n / 3 + 1` exactly for every
representable `n`); grow to the first doubling of `capacity` at or above
`required`, and resize; nothing happens when `required <= capacity`. -/
def reserveOpt (d : Dict K V) (n : Nat) : Option (Dict K V) :=
  let required := n * 4 / 3 + 1
  if d.capacity < required then
    (growCap required d.capacity required).map (fun nc => resize d nc)
  else some d

/-- DJB2, `dict_hash_str` / `dict_hash`: `hash = hash * 33 + c` on a
`uint32_t` accumulator seeded with `5381`; the `% 2^32` mirrors the
`uint32_t` wrap-around (key strings are ASCII in every use in the
repository, so `Char.toNat` agrees with the C `char` read). -/
def djb2 (s : String) : Nat :=
  s.foldl (fun h c => (h * 33 + c.toNat) % 4294967296) 5381

end DictRH

/-! ## Basic facts about slot reads, slot writes and the occupied contents -/

namespace DictRH

variable {K V : Type} [DecidableEq K] [Inhabited K] [Inhabited V]

theorem getD_set_self {α : Type} (d : α) :
    ∀ (es : List α) (i : Nat) (a : α), i < es.length → (es.set i a).getD i d = a
  | [], _, _, h => absurd h (by simp)
  | _ :: _, 0, _, _ => rfl
  | _ :: xs, i+1, a, h => getD_set_self d xs i a (by simpa using h)

theorem getD_set_other {α : Type} (d : α) :
    ∀ (es : List α) (i j : Nat) (a : α), i ≠ j → (es.set i a).getD j d = es.getD j d
  | [], _, _, _, _ => rfl
  | _ :: _, 0, 0, _, h => absurd rfl h
  | _ :: _, 0, _+1, _, _ => rfl
  | _ :: _, _+1, 0, _, _ => rfl
  | _ :: xs, i+1, j+1, a, h => getD_set_other d xs i j a (fun hh => h (by omega))

theorem getD_replicate {α : Type} (d x : α) :
    ∀ (n i : Nat), i < n → (List.replicate n x).getD i d = x
  | 0, _, h => absurd h (by omega)
  | _+1, 0, _ => rfl
  | n+1, i+1, h => getD_replicate d x n i (by omega)

theorem eAt_set_self (es : List (Entry K V)) (i : Nat) (a : Entry K V)
    (h : i < es.length) : eAt (es.set i a) i = a := getD_set_self default es i a h

theorem eAt_set_other (es : List (Entry K V)) (i j : Nat) (a : Entry K V)
    (h : i ≠ j) : eAt (es.set i a) j = eAt es j := getD_set_other default es i j a h

theorem eAt_replicate (n i : Nat) (x : Entry K V) (h : i < n) :
    eAt (List.replicate n x) i = x := getD_replicate default x n i h

theorem set_eq_take_drop {α : Type} :
    ∀ (es : List α) (i : Nat) (a : α), i < es.length →
      es.set i a = es.take i ++ a :: es.drop (i+1)
  | [], _, _, h => absurd h (by simp)
  | _ :: _, 0, _, _ => rfl
  | x :: xs, i+1, a, h => by
      show x :: xs.set i a = x :: (xs.take i ++ a :: xs.drop (i+1))
      exact congrArg (List.cons x) (set_eq_take_drop xs i a (by simpa using h))

theorem self_eq_take_drop {α : Type} (d : α) :
    ∀ (es : List α) (i : Nat), i < es.length →
      es = es.take i ++ es.getD i d :: es.drop (i+1)
  | [], _, h => absurd h (by simp)
  | _ :: _, 0, _ => rfl
  | x :: xs, i+1, h => by
      show x :: xs = x :: (xs.take i ++ xs.getD i d :: xs.drop (i+1))
      exact congrArg (List.cons x) (self_eq_take_drop d xs i (by simpa using h))

/-- The key and value stored in a slot, as the pair the iterator and the
contents-abstraction speak about. -/
def pairOf (e : Entry K V) : K × V := (e.key, e.value)

/-- The pairs held in occupied slots, in physical slot order. -/
def occPairsL (es : List (Entry K V)) : List (K × V) := (es.filter occB).map pairOf

/-- The keys held in occupied slots, in physical slot order. -/
def occKeysL (es : List (Entry K V)) : List K := (es.filter occB).map Entry.key

/-- The number of occupied slots. -/
def countOcc (es : List (Entry K V)) : Nat := (es.filter occB).length

/-- The contribution of one slot to the multiset of stored pairs. -/
def pm (e : Entry K V) : Multiset (K × V) := if occB e then {pairOf e} else 0

theorem occPairsL_append (l1 l2 : List (Entry K V)) :
    occPairsL (l1 ++ l2) = occPairsL l1 ++ occPairsL l2 := by
  simp [occPairsL]

theorem coe_ite_pm (e : Entry K V) :
    (((if occB e = true then [pairOf e] else []) : List (K × V)) : Multiset (K × V)) = pm e := by
  by_cases h : occB e <;> simp [pm, h]

theorem occPairsL_cons (e : Entry K V) (l : List (Entry K V)) :
    occPairsL (e :: l) = (if occB e = true then [pairOf e] else []) ++ occPairsL l := by
  by_cases h : occB e <;> simp [occPairsL, List.filter_cons, h]

theorem occKeysL_eq_map_fst (es : List (Entry K V)) :
    occKeysL es = (occPairsL es).map Prod.fst := by
  simp only [occKeysL, occPairsL, List.map_map]
  rfl

theorem countOcc_eq_length (es : List (Entry K V)) :
    countOcc es = (occPairsL es).length := by
  simp [countOcc, occPairsL]

theorem occPairs_set (es : List (Entry K V)) (i : Nat) (a : Entry K V)
    (h : i < es.length) :
    (occPairsL (es.set i a) : Multiset (K × V)) + pm (eAt es i) =
      (occPairsL es : Multiset (K × V)) + pm a := by
  rw [set_eq_take_drop es i a h]
  conv_rhs => rw [self_eq_take_drop default es i h]
  show (occPairsL (es.take i ++ a :: es.drop (i+1)) : Multiset (K × V)) + pm (eAt es i) =
    (occPairsL (es.take i ++ eAt es i :: es.drop (i+1)) : Multiset (K × V)) + pm a
  rw [occPairsL_append, occPairsL_append, occPairsL_cons, occPairsL_cons]
  have hca : ∀ (l1 l2 : List (K × V)),
      ((l1 ++ l2 : List (K × V)) : Multiset (K × V)) = (l1 : Multiset (K × V)) + l2 := by
    intro l1 l2
    simp
  rw [hca, hca, hca, hca, coe_ite_pm, coe_ite_pm]
  abel

end DictRH

/-! ## Modular arithmetic of the probe sequence -/

namespace DictRH

theorem probe_lt (cap idx t : Nat) (h : 0 < cap) : (idx + t) % cap < cap :=
  Nat.mod_lt _ h

theorem probe_inj (cap idx t1 t2 : Nat) (h1 : t1 < cap) (h2 : t2 < cap)
    (he : (idx + t1) % cap = (idx + t2) % cap) : t1 = t2 := by
  have h3 : t1 % cap = t2 % cap := Nat.ModEq.add_left_cancel' idx he
  rwa [Nat.mod_eq_of_lt h1, Nat.mod_eq_of_lt h2] at h3

theorem pred_probe (cap idx t : Nat) (h : 0 < cap) :
    ((idx + (t+1)) % cap + cap - 1) % cap = (idx + t) % cap := by
  have h1 : (idx + (t+1)) % cap + cap - 1 = (idx + (t+1)) % cap + (cap - 1) := by omega
  rw [h1, Nat.mod_add_mod]
  have h2 : idx + (t+1) + (cap - 1) = (idx + t) + cap := by omega
  rw [h2, Nat.add_mod_right]

theorem pred_self (cap p : Nat) (hp : p < cap) : ((p+1) % cap + cap - 1) % cap = p := by
  have h0 : 0 < cap := by omega
  have h1 : (p+1) % cap + cap - 1 = (p+1) % cap + (cap - 1) := by omega
  rw [h1, Nat.mod_add_mod]
  have h2 : p + 1 + (cap - 1) = p + cap := by omega
  rw [h2, Nat.add_mod_right, Nat.mod_eq_of_lt hp]

theorem succ_of_pred (cap j probe : Nat) (hj : j < cap) (hpr : probe < cap)
    (h : (j + cap - 1) % cap = probe) : j = (probe + 1) % cap := by
  have h0 : 0 < cap := by omega
  have h1 : (j + cap - 1) % cap = probe % cap := by rw [h, Nat.mod_eq_of_lt hpr]
  have h2 : (j + cap - 1 + 1) % cap = (probe + 1) % cap := Nat.ModEq.add_right 1 h1
  have h3 : j + cap - 1 + 1 = j + cap := by omega
  rw [h3, Nat.add_mod_right] at h2
  rwa [Nat.mod_eq_of_lt hj] at h2

theorem sent_formula (cap b a p : Nat) (hcap : 0 < cap) (ha : a < cap)
    (h : (b % cap + a) % cap = p) : (p + cap - b % cap) % cap = a := by
  have hb : b % cap < cap := Nat.mod_lt _ hcap
  have h1 : p + cap - b % cap = p + (cap - b % cap) := by
    subst h
    have := Nat.mod_lt (b % cap + a) hcap
    omega
  rw [h1, ← h, Nat.mod_add_mod]
  have h2 : b % cap + a + (cap - b % cap) = a + cap := by omega
  rw [h2, Nat.add_mod_right, Nat.mod_eq_of_lt ha]

theorem sent_inv (cap b p : Nat) (hcap : 0 < cap) (hp : p < cap) :
    (b % cap + (p + cap - b % cap) % cap) % cap = p := by
  have hb : b % cap < cap := Nat.mod_lt _ hcap
  rw [Nat.add_mod_mod]
  have h2 : b % cap + (p + cap - b % cap) = p + cap := by omega
  rw [h2, Nat.add_mod_right, Nat.mod_eq_of_lt hp]

end DictRH

/-! ## The table invariants -/

namespace DictRH

variable {K V : Type} [DecidableEq K] [Inhabited K] [Inhabited V]

/-- Slot arithmetic invariant: an occupied slot at physical index `i`
stores `psl = (i - hash % capacity) mod capacity`, and an empty slot
stores exactly the sentinel `-1`. -/
def SentA (cap : Nat) (es : List (Entry K V)) : Prop :=
  ∀ i, i < cap →
    (0 ≤ pslOf es i →
      pslOf es i = (((i + cap - (eAt es i).hash % cap) % cap : Nat) : Int)) ∧
    (pslOf es i < 0 → pslOf es i = -1)

/-- Cluster-continuity invariant: a displaced entry (psl at least 1) has
an occupied predecessor slot whose psl is at least one smaller.  This is
what makes the early-termination test of the lookup loops sound. -/
def Bprev (cap : Nat) (es : List (Entry K V)) : Prop :=
  ∀ i, i < cap → 1 ≤ pslOf es i →
    0 ≤ pslOf es ((i + cap - 1) % cap) ∧
    pslOf es i - 1 ≤ pslOf es ((i + cap - 1) % cap)

/-- Cached-hash invariant: every occupied slot caches the hash of its key. -/
def HashOK (hashF : K → Nat) (cap : Nat) (es : List (Entry K V)) : Prop :=
  ∀ i, i < cap → 0 ≤ pslOf es i → (eAt es i).hash = hashF (eAt es i).key

theorem occB_iff (e : Entry K V) : occB e = true ↔ 0 ≤ e.psl := by simp [occB]

theorem pm_occ (e : Entry K V) (h : 0 ≤ e.psl) : pm e = {pairOf e} := by
  simp [pm, occB, h]

theorem pm_empty (e : Entry K V) (h : e.psl < 0) : pm e = 0 := by
  simp [pm, occB]
  omega

/-- Invariant carried through one run of the probing loop: the array
satisfies the table invariants, the carried entry is consistent with the
current probe position, the slot just visited is occupied and rich
enough, and an empty slot is still ahead. -/
structure LoopInv (hashF : K → Nat) (cap idx : Nat)
    (es : List (Entry K V)) (e : Entry K V) (i : Nat) : Prop where
  hcap : 0 < cap
  hidx : idx < cap
  hlen : es.length = cap
  hsent : SentA cap es
  hb : Bprev cap es
  hhok : HashOK hashF cap es
  he0 : 0 ≤ e.psl
  hei : e.psl ≤ (i : Int)
  hcong : (e.hash % cap + e.psl.toNat) % cap = (idx + i) % cap
  heF : e.hash = hashF e.key
  hprev : 1 ≤ i → 0 ≤ pslOf es ((idx + (i-1)) % cap) ∧
    e.psl - 1 ≤ pslOf es ((idx + (i-1)) % cap)
  hfree : ∃ t, i ≤ t ∧ t < cap ∧ pslOf es ((idx + t) % cap) < 0

/-- What one run of the probing loop guarantees: the entry is placed, the
invariants survive, the stored pairs gain exactly the carried pair, and
occupied slots stay occupied. -/
structure LoopOut (hashF : K → Nat) (cap : Nat) (es0 : List (Entry K V))
    (e : Entry K V) (out : List (Entry K V) × Bool) : Prop where
  placed : out.2 = true
  hlen : out.1.length = cap
  hsent : SentA cap out.1
  hb : Bprev cap out.1
  hhok : HashOK hashF cap out.1
  hpairs : (occPairsL out.1 : Multiset (K × V)) =
    (occPairsL es0 : Multiset (K × V)) + {pairOf e}
  hocc : ∀ j, j < cap → 0 ≤ pslOf es0 j → 0 ≤ pslOf out.1 j

end DictRH

namespace DictRH

variable {K V : Type} [DecidableEq K] [Inhabited K] [Inhabited V]

theorem pslOf_set_self (es : List (Entry K V)) (i : Nat) (a : Entry K V)
    (h : i < es.length) : pslOf (es.set i a) i = a.psl := by
  rw [pslOf, eAt_set_self es i a h]

theorem pslOf_set_other (es : List (Entry K V)) (i j : Nat) (a : Entry K V)
    (h : i ≠ j) : pslOf (es.set i a) j = pslOf es j := by
  rw [pslOf, eAt_set_other es i j a h, pslOf]

/-- Writing the carried entry into the current probe slot preserves the
three per-slot invariants, provided the displaced resident was no richer
than the carried entry. -/
theorem invs_after_place (hashF : K → Nat) (cap idx i : Nat)
    (es : List (Entry K V)) (e : Entry K V)
    (hinv : LoopInv hashF cap idx es e i) (hicap : i < cap)
    (hge : pslOf es ((idx + i) % cap) ≤ e.psl) :
    SentA cap (es.set ((idx + i) % cap) e) ∧
    Bprev cap (es.set ((idx + i) % cap) e) ∧
    HashOK hashF cap (es.set ((idx + i) % cap) e) := by
  obtain ⟨hcap, hidx, hlen, hsent, hb, hhok, he0, hei, hcong, heF, hprev, hfree⟩ := hinv
  have hprobe : (idx + i) % cap < cap := probe_lt cap idx i hcap
  have hproblen : (idx + i) % cap < es.length := by rw [hlen]; exact hprobe
  have hatp : eAt (es.set ((idx + i) % cap) e) ((idx + i) % cap) = e :=
    eAt_set_self es _ e hproblen
  have hato : ∀ j, j ≠ (idx + i) % cap →
      eAt (es.set ((idx + i) % cap) e) j = eAt es j :=
    fun j hj => eAt_set_other es _ j e (fun hh => hj hh.symm)
  have hte : e.psl.toNat < cap := by omega
  have hsf : (((idx + i) % cap) + cap - e.hash % cap) % cap = e.psl.toNat :=
    sent_formula cap e.hash e.psl.toNat ((idx + i) % cap) hcap hte hcong
  refine ⟨?_, ?_, ?_⟩
  · -- SentA
    intro j hj
    by_cases hjp : j = (idx + i) % cap
    · subst hjp
      constructor
      · intro _
        rw [pslOf, hatp] at *
        rw [hatp, hsf]
        omega
      · intro hlt
        rw [pslOf, hatp] at hlt
        omega
    · rw [pslOf, hato j hjp, ← pslOf]
      exact hsent j hj
  · -- Bprev
    intro j hj hj1
    by_cases hjp : j = (idx + i) % cap
    · subst hjp
      rw [pslOf_set_self es _ e hproblen] at hj1
      have hi1 : 1 ≤ i := by omega
      have hpred : (((idx + i) % cap) + cap - 1) % cap = (idx + (i-1)) % cap := by
        have h2 := pred_probe cap idx (i-1) hcap
        have h3 : (i - 1) + 1 = i := by omega
        rw [h3] at h2
        exact h2
      have hpp : (idx + (i-1)) % cap ≠ (idx + i) % cap := by
        intro hh
        have := probe_inj cap idx (i-1) i (by omega) hicap hh
        omega
      rw [pslOf_set_self es _ e hproblen, hpred,
        pslOf_set_other es _ _ e (fun hh => hpp hh.symm)]
      exact hprev hi1
    · rw [pslOf_set_other es _ j e (fun hh => hjp hh.symm)] at hj1
      by_cases hpj : (j + cap - 1) % cap = (idx + i) % cap
    -- predecessor of j is the written slot
      · have hjs : j = ((idx + i) % cap + 1) % cap :=
          succ_of_pred cap j ((idx + i) % cap) hj hprobe hpj
        have hbj := hb j hj hj1
        rw [pslOf_set_other es _ j e (fun hh => hjp hh.symm), hpj,
          pslOf_set_self es _ e hproblen]
        constructor
        · exact he0
        · have := hbj.2
          rw [hpj] at this
          omega
      · rw [pslOf_set_other es _ j e (fun hh => hjp hh.symm),
          pslOf_set_other es _ _ e (fun hh => hpj hh.symm)]
        exact hb j hj hj1
  · -- HashOK
    intro j hj
    by_cases hjp : j = (idx + i) % cap
    · subst hjp
      rw [pslOf, hatp]
      intro _
      exact heF
    · rw [pslOf, hato j hjp, ← pslOf]
      exact hhok j hj

end DictRH

namespace DictRH

variable {K V : Type} [DecidableEq K] [Inhabited K] [Inhabited V]

/-- Main loop lemma: started anywhere with a consistent carried entry and
an empty slot still ahead, the resize re-insertion loop places the entry
and preserves every table invariant, adding exactly the carried pair to
the stored contents. -/
theorem insFrom_spec (hashF : K → Nat) (cap idx : Nat) :
    ∀ (steps i : Nat) (es : List (Entry K V)) (e : Entry K V),
      i + steps = cap → LoopInv hashF cap idx es e i →
      LoopOut hashF cap es e (insFrom cap idx i steps es e) := by
  intro steps
  induction steps with
  | zero =>
    intro i es e hsum hinv
    obtain ⟨t, ht1, ht2, _⟩ := hinv.hfree
    omega
  | succ steps ih =>
    intro i es e hsum hinv
    have hicap : i < cap := by omega
    have hcap := hinv.hcap
    have he0 := hinv.he0
    have hei := hinv.hei
    have hprobe : (idx + i) % cap < cap := probe_lt cap idx i hcap
    have hproblen : (idx + i) % cap < es.length := by rw [hinv.hlen]; exact hprobe
    by_cases hr : (eAt es ((idx + i) % cap)).psl < 0
    · -- empty slot: place and stop
      have heq : insFrom cap idx i (steps+1) es e = (es.set ((idx + i) % cap) e, true) := by
        simp only [insFrom]
        rw [if_pos hr]
      rw [heq]
      have hge : pslOf es ((idx + i) % cap) ≤ e.psl := by
        rw [pslOf]
        omega
      obtain ⟨hs, hbp, hh⟩ := invs_after_place hashF cap idx i es e hinv hicap hge
      refine ⟨rfl, ?_, hs, hbp, hh, ?_, ?_⟩
      · simp [List.length_set, hinv.hlen]
      · have hps := occPairs_set es ((idx + i) % cap) e hproblen
        rw [pm_empty _ hr, pm_occ e he0] at hps
        simpa using hps
      · intro j hj hocc
        by_cases hjp : j = (idx + i) % cap
        · subst hjp
          rw [pslOf_set_self es _ e hproblen]
          exact he0
        · rw [pslOf_set_other es _ j e (fun hh2 => hjp hh2.symm)]
          exact hocc
    · -- occupied slot
      have hr0 : 0 ≤ (eAt es ((idx + i) % cap)).psl := by omega
      have hrpsl : (eAt es ((idx + i) % cap)).psl.toNat =
          ((idx + i) % cap + cap - (eAt es ((idx + i) % cap)).hash % cap) % cap := by
        have hs := (hinv.hsent ((idx + i) % cap) hprobe).1
        rw [pslOf] at hs
        have := hs hr0
        omega
      by_cases hsw : (eAt es ((idx + i) % cap)).psl < e.psl
      · -- Robin Hood swap: the resident is evicted and carried on
        have heq : insFrom cap idx i (steps+1) es e =
            insFrom cap idx (i+1) steps (es.set ((idx + i) % cap) e)
              { eAt es ((idx + i) % cap) with
                psl := (eAt es ((idx + i) % cap)).psl + 1 } := by
          simp only [insFrom]
          rw [if_neg hr, if_pos hsw]
        rw [heq]
        have hinv1 : LoopInv hashF cap idx (es.set ((idx + i) % cap) e)
            { eAt es ((idx + i) % cap) with
              psl := (eAt es ((idx + i) % cap)).psl + 1 } (i+1) := by
          obtain ⟨hs, hbp, hh⟩ := invs_after_place hashF cap idx i es e hinv hicap
            (by rw [pslOf]; omega)
          refine ⟨hcap, hinv.hidx, ?_, hs, hbp, hh, ?_, ?_, ?_, ?_, ?_, ?_⟩
          · simp [List.length_set, hinv.hlen]
          · show (0:Int) ≤ (eAt es ((idx + i) % cap)).psl + 1
            omega
          · show (eAt es ((idx + i) % cap)).psl + 1 ≤ ((i+1 : Nat) : Int)
            push_cast
            omega
          · -- carried-entry congruence
            show ((eAt es ((idx + i) % cap)).hash % cap +
              ((eAt es ((idx + i) % cap)).psl + 1).toNat) % cap = (idx + (i+1)) % cap
            have ht1 : ((eAt es ((idx + i) % cap)).psl + 1).toNat =
                (eAt es ((idx + i) % cap)).psl.toNat + 1 := by omega
            have hsi := sent_inv cap (eAt es ((idx + i) % cap)).hash ((idx + i) % cap)
              hcap hprobe
            rw [ht1, hrpsl]
            have hstep : (eAt es ((idx + i) % cap)).hash % cap +
                (((idx + i) % cap + cap - (eAt es ((idx + i) % cap)).hash % cap) % cap + 1) =
                ((eAt es ((idx + i) % cap)).hash % cap +
                  ((idx + i) % cap + cap - (eAt es ((idx + i) % cap)).hash % cap) % cap) + 1 := by
              omega
            rw [hstep, ← Nat.mod_add_mod, hsi]
            have hrhs : (idx + (i+1)) % cap = ((idx + i) % cap + 1) % cap := by
              rw [← Nat.add_assoc, ← Nat.mod_add_mod]
            rw [hrhs]
          · -- cached hash of the evicted resident
            show (eAt es ((idx + i) % cap)).hash = hashF (eAt es ((idx + i) % cap)).key
            have := hinv.hhok ((idx + i) % cap) hprobe
            rw [pslOf] at this
            exact this hr0
          · -- the slot just written is rich enough
            intro _
            have hpredeq : (idx + (i + 1 - 1)) % cap = (idx + i) % cap := by
              have : i + 1 - 1 = i := by omega
              rw [this]
            rw [hpredeq, pslOf_set_self es _ e hproblen]
            constructor
            · exact he0
            · show (eAt es ((idx + i) % cap)).psl + 1 - 1 ≤ e.psl
              omega
          · -- the empty slot is still ahead
            obtain ⟨t, ht1, ht2, ht3⟩ := hinv.hfree
            have htne : t ≠ i := by
              intro hh
              subst hh
              rw [pslOf] at ht3
              omega
            refine ⟨t, by omega, ht2, ?_⟩
            have : (idx + t) % cap ≠ (idx + i) % cap := by
              intro hh
              exact htne (probe_inj cap idx t i ht2 hicap hh)
            rw [pslOf_set_other es _ _ e (fun hh => this hh.symm)]
            exact ht3
        have hrec := ih (i+1) (es.set ((idx + i) % cap) e)
          { eAt es ((idx + i) % cap) with
            psl := (eAt es ((idx + i) % cap)).psl + 1 } (by omega) hinv1
        refine ⟨hrec.placed, hrec.hlen, hrec.hsent, hrec.hb, hrec.hhok, ?_, ?_⟩
        · -- contents accounting through the swap
          have hps := occPairs_set es ((idx + i) % cap) e hproblen
          rw [pm_occ _ hr0, pm_occ e he0] at hps
          have hpair1 : pairOf { eAt es ((idx + i) % cap) with
              psl := (eAt es ((idx + i) % cap)).psl + 1 } =
              pairOf (eAt es ((idx + i) % cap)) := rfl
          rw [hrec.hpairs, hpair1]
          exact hps
        · intro j hj hocc
          refine hrec.hocc j hj ?_
          by_cases hjp : j = (idx + i) % cap
          · subst hjp
            rw [pslOf_set_self es _ e hproblen]
            exact he0
          · rw [pslOf_set_other es _ j e (fun hh => hjp hh.symm)]
            exact hocc
      · -- the carried entry is not richer: continue probing
        have heq : insFrom cap idx i (steps+1) es e =
            insFrom cap idx (i+1) steps es { e with psl := e.psl + 1 } := by
          simp only [insFrom]
          rw [if_neg hr, if_neg hsw]
        rw [heq]
        have hinv2 : LoopInv hashF cap idx es { e with psl := e.psl + 1 } (i+1) := by
          refine ⟨hcap, hinv.hidx, hinv.hlen, hinv.hsent, hinv.hb, hinv.hhok,
            ?_, ?_, ?_, hinv.heF, ?_, ?_⟩
          · show (0:Int) ≤ e.psl + 1
            omega
          · show e.psl + 1 ≤ ((i+1 : Nat) : Int)
            push_cast
            omega
          · show (e.hash % cap + (e.psl + 1).toNat) % cap = (idx + (i+1)) % cap
            have ht1 : (e.psl + 1).toNat = e.psl.toNat + 1 := by omega
            have hstep : e.hash % cap + (e.psl.toNat + 1) =
                (e.hash % cap + e.psl.toNat) + 1 := by omega
            rw [ht1, hstep, ← Nat.mod_add_mod, hinv.hcong]
            have hrhs : (idx + (i+1)) % cap = ((idx + i) % cap + 1) % cap := by
              rw [← Nat.add_assoc, ← Nat.mod_add_mod]
            rw [hrhs]
          · intro _
            have hpredeq : (idx + (i + 1 - 1)) % cap = (idx + i) % cap := by
              have : i + 1 - 1 = i := by omega
              rw [this]
            rw [hpredeq, pslOf]
            constructor
            · exact hr0
            · show e.psl + 1 - 1 ≤ (eAt es ((idx + i) % cap)).psl
              omega
          · obtain ⟨t, ht1, ht2, ht3⟩ := hinv.hfree
            have htne : t ≠ i := by
              intro hh
              subst hh
              rw [pslOf] at ht3
              omega
            exact ⟨t, by omega, ht2, ht3⟩
        have hrec := ih (i+1) es { e with psl := e.psl + 1 } (by omega) hinv2
        refine ⟨hrec.placed, hrec.hlen, hrec.hsent, hrec.hb, hrec.hhok, ?_, hrec.hocc⟩
        have hpair2 : pairOf { e with psl := e.psl + 1 } = pairOf e := rfl
        rw [hrec.hpairs, hpair2]

end DictRH

namespace DictRH

variable {K V : Type} [DecidableEq K] [Inhabited K] [Inhabited V]

/-- When no slot the loop can still visit holds the probed key, the `set`
loop never takes its update branch and behaves exactly like the resize
re-insertion loop. -/
theorem setFrom_eq_insFrom (cap idx h : Nat) (k : K) (v : V) :
    ∀ (steps i : Nat) (es : List (Entry K V)) (e : Entry K V),
      i + steps ≤ cap → 0 < cap →
      (∀ t, i ≤ t → t < i + steps → 0 ≤ pslOf es ((idx + t) % cap) →
        (eAt es ((idx + t) % cap)).key ≠ k) →
      setFrom cap idx h k v i steps es e = insFrom cap idx i steps es e := by
  intro steps
  induction steps with
  | zero =>
    intro i es e _ _ _
    rfl
  | succ steps ih =>
    intro i es e hle hcap hkey
    have hicap : i < cap := by omega
    simp only [setFrom, insFrom]
    by_cases hr : (eAt es ((idx + i) % cap)).psl < 0
    · rw [if_pos hr, if_pos hr]
    · rw [if_neg hr, if_neg hr]
      have hne : ¬((eAt es ((idx + i) % cap)).hash = h ∧
          (eAt es ((idx + i) % cap)).key = k) := by
        rintro ⟨_, h2⟩
        exact hkey i (le_refl i) (by omega) (by rw [pslOf]; omega) h2
      rw [if_neg hne]
      by_cases hsw : (eAt es ((idx + i) % cap)).psl < e.psl
      · rw [if_pos hsw, if_pos hsw]
        apply ih (i+1) _ _ (by omega) hcap
        intro t ht1 ht2 hocc
        have hne2 : (idx + t) % cap ≠ (idx + i) % cap := by
          intro hh
          have := probe_inj cap idx t i (by omega) hicap hh
          omega
        rw [pslOf_set_other es _ _ e (fun hh => hne2 hh.symm)] at hocc
        rw [eAt_set_other es _ _ e (fun hh => hne2 hh.symm)]
        exact hkey t (by omega) (by omega) hocc
      · rw [if_neg hsw, if_neg hsw]
        apply ih (i+1) es _ (by omega) hcap
        intro t ht1 ht2 hocc
        exact hkey t (by omega) (by omega) hocc

/-- Walking backwards from an occupied slot whose psl is at least `dd`,
every earlier slot of the probe sequence is occupied and displaced at
least as far as its probe position. -/
theorem chain_occ (cap : Nat) (es : List (Entry K V)) (hcap : 0 < cap)
    (hb : Bprev cap es) (idx dd : Nat)
    (hocc : 0 ≤ pslOf es ((idx + dd) % cap))
    (hpsl : (dd : Int) ≤ pslOf es ((idx + dd) % cap)) :
    ∀ t, t ≤ dd → 0 ≤ pslOf es ((idx + t) % cap) ∧
      (t : Int) ≤ pslOf es ((idx + t) % cap) := by
  have main : ∀ s t, t + s = dd → 0 ≤ pslOf es ((idx + t) % cap) ∧
      (t : Int) ≤ pslOf es ((idx + t) % cap) := by
    intro s
    induction s with
    | zero =>
      intro t ht
      have : t = dd := by omega
      subst this
      exact ⟨hocc, hpsl⟩
    | succ s ih =>
      intro t ht
      obtain ⟨ho1, ho2⟩ := ih (t+1) (by omega)
      have hj : (idx + (t+1)) % cap < cap := probe_lt cap idx (t+1) hcap
      have hb1 := hb ((idx + (t+1)) % cap) hj (by omega)
      rw [pred_probe cap idx t hcap] at hb1
      refine ⟨hb1.1, ?_⟩
      have := hb1.2
      push_cast at *
      omega
  intro t ht
  exact main (dd - t) t (by omega)

/-- When the probed key is stored at slot `jj`, the `set` loop walks to it
without displacing anything and overwrites the value in place, returning
`false` (Updated). -/
theorem setFrom_update (hashF : K → Nat) (cap : Nat) (es : List (Entry K V))
    (k : K) (v : V) (hcap : 0 < cap)
    (hsent : SentA cap es) (hb : Bprev cap es) (hhok : HashOK hashF cap es)
    (jj : Nat) (hjj : jj < cap) (hjocc : 0 ≤ pslOf es jj)
    (hjkey : (eAt es jj).key = k)
    (huniq : ∀ j, j < cap → 0 ≤ pslOf es j → (eAt es j).key = k → j = jj) :
    setFrom cap (hashF k % cap) (hashF k) k v 0 cap es ⟨k, v, hashF k, 0⟩ =
      (es.set jj { eAt es jj with value := v }, false) := by
  have hjhash : (eAt es jj).hash = hashF k := by
    have := hhok jj hjj hjocc
    rw [this, hjkey]
  have hjpsl : pslOf es jj = (((jj + cap - hashF k % cap) % cap : Nat) : Int) := by
    have := (hsent jj hjj).1 hjocc
    rw [pslOf] at this ⊢
    rw [this, hjhash]
  have hddlt : (jj + cap - hashF k % cap) % cap < cap := Nat.mod_lt _ hcap
  have hjeq : (hashF k % cap + (jj + cap - hashF k % cap) % cap) % cap = jj :=
    sent_inv cap (hashF k) jj hcap hjj
  -- write dd for the distance of jj from the ideal slot
  have hchain := chain_occ cap es hcap hb (hashF k % cap)
    ((jj + cap - hashF k % cap) % cap)
    (by rw [hjeq]; exact hjocc)
    (by rw [hjeq, hjpsl])
  have main : ∀ s t, t + s = (jj + cap - hashF k % cap) % cap →
      setFrom cap (hashF k % cap) (hashF k) k v t (cap - t) es
        ⟨k, v, hashF k, (t : Int)⟩ =
      (es.set jj { eAt es jj with value := v }, false) := by
    intro s
    induction s with
    | zero =>
      intro t ht
      have htjj : (hashF k % cap + t) % cap = jj := by
        have ht2 : t = (jj + cap - hashF k % cap) % cap := by omega
        rw [ht2]
        exact hjeq
      have htlt : t < cap := by omega
      have hfuel : cap - t = (cap - (t+1)) + 1 := by omega
      rw [hfuel]
      simp only [setFrom]
      rw [htjj]
      have hnotmt : ¬(eAt es jj).psl < 0 := by
        rw [pslOf] at hjocc
        omega
      rw [if_neg hnotmt, if_pos ⟨hjhash, hjkey⟩]
    | succ s ih =>
      intro t ht
      have htlt : t < cap := by omega
      have hfuel : cap - t = (cap - (t+1)) + 1 := by omega
      rw [hfuel]
      simp only [setFrom]
      obtain ⟨hc1, hc2⟩ := hchain t (by omega)
      have hnotmt : ¬(eAt es ((hashF k % cap + t) % cap)).psl < 0 := by
        rw [pslOf] at hc1
        omega
      rw [if_neg hnotmt]
      have hnk : ¬((eAt es ((hashF k % cap + t) % cap)).hash = hashF k ∧
          (eAt es ((hashF k % cap + t) % cap)).key = k) := by
        rintro ⟨_, h2⟩
        have hpe : (hashF k % cap + t) % cap < cap := probe_lt cap _ t hcap
        have := huniq ((hashF k % cap + t) % cap) hpe hc1 h2
        -- then t and the distance of jj coincide, contradiction with t < dd
        have h3 : (hashF k % cap + t) % cap = (hashF k % cap +
            (jj + cap - hashF k % cap) % cap) % cap := this.trans hjeq.symm
        have := probe_inj cap (hashF k % cap) t
          ((jj + cap - hashF k % cap) % cap) htlt hddlt h3
        omega
      rw [if_neg hnk]
      have hnsw : ¬(eAt es ((hashF k % cap + t) % cap)).psl <
          (Entry.mk k v (hashF k) (t : Int)).psl := by
        rw [pslOf] at hc2
        simp only
        omega
      rw [if_neg hnsw]
      have hstep : (Entry.mk k v (hashF k) ((t : Nat) : Int)).psl + 1 =
          (((t+1 : Nat) : Int)) := by
        push_cast
        simp
      have hres := ih (t+1) (by omega)
      simp only at hstep ⊢
      rw [show ({ key := k, value := v, hash := hashF k, psl := (t : Int) + 1 } : Entry K V) =
        { key := k, value := v, hash := hashF k, psl := ((t+1 : Nat) : Int) } from by
          rw [show ((t+1 : Nat) : Int) = (t : Int) + 1 from by push_cast; rfl]]
      exact hres
  have h0 := main ((jj + cap - hashF k % cap) % cap) 0 (by omega)
  have : cap - 0 = cap := by omega
  rw [this] at h0
  exact h0

end DictRH

namespace DictRH

variable {K V : Type} [DecidableEq K] [Inhabited K] [Inhabited V]

/-- Well-formedness of a dictionary state: array length matches the
capacity field, the three per-slot invariants hold, stored keys are
pairwise distinct, the `size` field counts the occupied slots, and the
load factor is at most 3/4. -/
structure WF (hashF : K → Nat) (d : Dict K V) : Prop where
  hlen : d.entries.length = d.capacity
  hsent : SentA d.capacity d.entries
  hb : Bprev d.capacity d.entries
  hhok : HashOK hashF d.capacity d.entries
  huniq : (occKeysL d.entries).Nodup
  hsize : d.size = countOcc d.entries
  hload : 4 * d.size ≤ 3 * d.capacity

theorem eAt_eq_get (es : List (Entry K V)) (i : Nat) (h : i < es.length) :
    eAt es i = es.get ⟨i, h⟩ := List.getD_eq_getElem es default h

theorem countOcc_coe (es : List (Entry K V)) :
    (occPairsL es : Multiset (K × V)).card = countOcc es := by
  rw [Multiset.coe_card, countOcc_eq_length]

theorem occKeys_coe (es : List (Entry K V)) :
    (occKeysL es : Multiset K) = (occPairsL es : Multiset (K × V)).map Prod.fst := by
  rw [occKeysL_eq_map_fst]
  exact (Multiset.map_coe Prod.fst (occPairsL es)).symm

theorem occPairs_cons_coe (e : Entry K V) (l : List (Entry K V)) :
    (occPairsL (e :: l) : Multiset (K × V)) = pm e + (occPairsL l : Multiset (K × V)) := by
  rw [occPairsL_cons]
  rw [show (((if occB e = true then [pairOf e] else []) ++ occPairsL l :
      List (K × V)) : Multiset (K × V)) =
      ((if occB e = true then [pairOf e] else []) : List (K × V)) +
        (occPairsL l : Multiset (K × V)) from by simp]
  rw [coe_ite_pm]

theorem countOcc_cons (e : Entry K V) (l : List (Entry K V)) :
    countOcc (e :: l) = (if occB e then 1 else 0) + countOcc l := by
  by_cases h : occB e <;> simp [countOcc, List.filter_cons, h, Nat.add_comm]

theorem countOcc_lt_of_not_all (cap : Nat) (es : List (Entry K V))
    (hlen : es.length = cap) (hcnt : countOcc es < cap) :
    ∃ j, j < cap ∧ pslOf es j < 0 := by
  by_contra hno
  push_neg at hno
  have hall : ∀ e ∈ es, occB e := by
    intro e he
    obtain ⟨i, hi⟩ := List.mem_iff_get.mp he
    have h2 := hno i.1 (by rw [← hlen]; exact i.2)
    rw [pslOf, eAt_eq_get es i.1 i.2, hi] at h2
    rw [occB_iff]
    exact h2
  have : countOcc es = cap := by
    rw [countOcc, List.filter_length_eq_length.mpr hall, hlen]
  omega

theorem exists_empty_probe (cap idx : Nat) (hcap : 0 < cap) (hidx : idx < cap)
    (es : List (Entry K V)) (hlen : es.length = cap) (hcnt : countOcc es < cap) :
    ∃ t, t < cap ∧ pslOf es ((idx + t) % cap) < 0 := by
  obtain ⟨j, hj, hjpsl⟩ := countOcc_lt_of_not_all cap es hlen hcnt
  refine ⟨(j + cap - idx) % cap, Nat.mod_lt _ hcap, ?_⟩
  have h1 := sent_inv cap idx j hcap hj
  rw [Nat.mod_eq_of_lt hidx] at h1
  rw [h1]
  exact hjpsl

theorem hashOK_elem (hashF : K → Nat) (cap : Nat) (es : List (Entry K V))
    (hlen : es.length = cap) (hhok : HashOK hashF cap es) :
    ∀ e ∈ es, 0 ≤ e.psl → e.hash = hashF e.key := by
  intro e he hocc
  obtain ⟨i, hi⟩ := List.mem_iff_get.mp he
  have h2 := hhok i.1 (by rw [← hlen]; exact i.2)
  rw [pslOf, eAt_eq_get es i.1 i.2, hi] at h2
  exact h2 hocc


/-- What the `resize` re-insertion fold guarantees about its result. -/
structure ROut (hashF : K → Nat) (n : Nat) (M0 : Multiset (K × V))
    (olds : List (Entry K V)) (out : Dict K V) : Prop where
  hcap : out.capacity = n
  hlen : out.entries.length = n
  hsent : SentA n out.entries
  hb : Bprev n out.entries
  hhok : HashOK hashF n out.entries
  hpairs : (occPairsL out.entries : Multiset (K × V)) =
    M0 + (occPairsL olds : Multiset (K × V))
  hsize : out.size = countOcc out.entries

/-- The re-insertion fold of `resize`: starting from a well-formed
accumulator with room for every occupied entry still to come, folding the
per-entry re-insert step preserves the invariants and adds exactly the
occupied pairs, processed in physical order with psl reset to zero. -/
theorem resize_fold (hashF : K → Nat) (n : Nat) (hn : 0 < n) :
    ∀ (olds : List (Entry K V)) (nd : Dict K V),
      nd.capacity = n → nd.entries.length = n →
      SentA n nd.entries → Bprev n nd.entries → HashOK hashF n nd.entries →
      nd.size = countOcc nd.entries →
      countOcc nd.entries + countOcc olds ≤ n →
      (∀ e ∈ olds, 0 ≤ e.psl → e.hash = hashF e.key) →
      ROut hashF n (occPairsL nd.entries) olds
        (olds.foldl (fun nd old =>
          if old.psl < 0 then nd
          else
            let idx := old.hash % nd.capacity
            let p := insFrom nd.capacity idx 0 nd.capacity nd.entries
              { old with psl := 0 }
            { entries := p.1, capacity := nd.capacity
              size := if p.2 then nd.size + 1 else nd.size }) nd) := by
  intro olds
  induction olds with
  | nil =>
    intro nd hc hl hs hb2 hh hsz hcnt helem
    refine ⟨hc, hl, hs, hb2, hh, ?_, hsz⟩
    simp [occPairsL]
  | cons old rest ih =>
    intro nd hc hl hs hb2 hh hsz hcnt helem
    by_cases ho : old.psl < 0
    · -- empty source slot: skipped by the fold
      have hob : occB old = false := by
        simp [occB]
        omega
      have hcnt2 : countOcc nd.entries + countOcc rest ≤ n := by
        rw [countOcc_cons, hob] at hcnt
        simpa using hcnt
      simp only [List.foldl_cons, if_pos ho]
      have hres := ih nd hc hl hs hb2 hh hsz hcnt2
        (fun e he hp => helem e (List.mem_cons_of_mem _ he) hp)
      refine ⟨hres.hcap, hres.hlen, hres.hsent, hres.hb, hres.hhok, ?_, hres.hsize⟩
      rw [hres.hpairs, occPairs_cons_coe, pm_empty old ho]
      rw [zero_add]
    · -- occupied source slot: re-insert it with psl reset to 0
      have ho0 : (0:Int) ≤ old.psl := by omega
      have hob : occB old = true := by
        rw [occB_iff]
        exact ho0
      have hcnt2 : countOcc nd.entries + (1 + countOcc rest) ≤ n := by
        rw [countOcc_cons, hob] at hcnt
        simpa using hcnt
      simp only [List.foldl_cons, if_neg ho]
      rw [hc]
      have hidx : old.hash % n < n := Nat.mod_lt _ hn
      have hcnt3 : countOcc nd.entries < n := by omega
      have hinv : LoopInv hashF n (old.hash % n) nd.entries { old with psl := 0 } 0 := by
        refine ⟨hn, hidx, hl, hs, hb2, hh, le_refl 0, ?_, ?_, ?_, ?_, ?_⟩
        · show (0:Int) ≤ ((0:Nat):Int)
          simp
        · show (old.hash % n + (0:Int).toNat) % n = (old.hash % n + 0) % n
          rfl
        · show old.hash = hashF old.key
          exact helem old (List.mem_cons_self old rest) ho0
        · intro h1
          omega
        · obtain ⟨t, ht1, ht2⟩ := exists_empty_probe n (old.hash % n) hn hidx
            nd.entries hl hcnt3
          exact ⟨t, Nat.zero_le t, ht1, ht2⟩
      have hout := insFrom_spec hashF n (old.hash % n) n 0 nd.entries
        { old with psl := 0 } (by omega) hinv
      have hstepsz : (if (insFrom n (old.hash % n) 0 n nd.entries
            { old with psl := 0 }).2 = true then nd.size + 1 else nd.size) =
          nd.size + 1 := by
        rw [hout.placed]
        simp
      rw [hstepsz]
      have hsz1 : nd.size + 1 =
          countOcc (insFrom n (old.hash % n) 0 n nd.entries { old with psl := 0 }).1 := by
        have h1 := congrArg Multiset.card hout.hpairs
        rw [Multiset.card_add, Multiset.card_singleton, countOcc_coe, countOcc_coe] at h1
        omega
      have hres := ih
        ⟨(insFrom n (old.hash % n) 0 n nd.entries { old with psl := 0 }).1, n, nd.size + 1⟩
        rfl hout.hlen hout.hsent hout.hb hout.hhok hsz1 (by
          show countOcc (insFrom n (old.hash % n) 0 n nd.entries
            { old with psl := 0 }).1 + countOcc rest ≤ n
          omega)
        (fun e he hp => helem e (List.mem_cons_of_mem _ he) hp)
      refine ⟨hres.hcap, hres.hlen, hres.hsent, hres.hb, hres.hhok, ?_, hres.hsize⟩
      rw [hres.hpairs]
      show (occPairsL (insFrom n (old.hash % n) 0 n nd.entries
          { old with psl := 0 }).1 : Multiset (K × V)) +
          (occPairsL rest : Multiset (K × V)) =
        (occPairsL nd.entries : Multiset (K × V)) +
          (occPairsL (old :: rest) : Multiset (K × V))
      rw [hout.hpairs, occPairs_cons_coe, pm_occ old ho0]
      have hpo : pairOf { old with psl := (0:Int) } = pairOf old := rfl
      rw [hpo]
      abel

end DictRH

namespace DictRH

variable {K V : Type} [DecidableEq K] [Inhabited K] [Inhabited V]

theorem occPairsL_replicate (n : Nat) :
    occPairsL (List.replicate n (⟨default, default, 0, -1⟩ : Entry K V)) = [] := by
  induction n with
  | zero => rfl
  | succ n ih =>
    rw [List.replicate_succ, occPairsL_cons]
    have hocc : occB (⟨default, default, 0, -1⟩ : Entry K V) = false := by
      simp [occB]
    rw [hocc]
    simpa using ih

theorem countOcc_replicate (n : Nat) :
    countOcc (List.replicate n (⟨default, default, 0, -1⟩ : Entry K V) :
      List (Entry K V)) = 0 := by
  rw [countOcc_eq_length, occPairsL_replicate]
  rfl

theorem sent_replicate (n : Nat) :
    SentA n (List.replicate n (⟨default, default, 0, -1⟩ : Entry K V)) := by
  intro i hi
  constructor
  · intro h
    rw [pslOf, eAt_replicate n i _ hi] at h
    exact absurd h (by norm_num)
  · intro _
    rw [pslOf, eAt_replicate n i _ hi]

theorem bprev_replicate (n : Nat) :
    Bprev n (List.replicate n (⟨default, default, 0, -1⟩ : Entry K V)) := by
  intro i hi h1
  exfalso
  rw [pslOf, eAt_replicate n i _ hi] at h1
  exact absurd h1 (by norm_num)

theorem hok_replicate (hashF : K → Nat) (n : Nat) :
    HashOK hashF n (List.replicate n (⟨default, default, 0, -1⟩ : Entry K V)) := by
  intro i hi h
  exfalso
  rw [pslOf, eAt_replicate n i _ hi] at h
  exact absurd h (by norm_num)

/-- `NAME##_resize` from a table with valid length, cached hashes and at
most `n` occupied entries: the result is a well-formed `n`-slot table
holding exactly the same pairs. -/
theorem resize_spec (hashF : K → Nat) (d : Dict K V) (n : Nat) (hn : 0 < n)
    (hlen : d.entries.length = d.capacity)
    (hhok : HashOK hashF d.capacity d.entries)
    (hcnt : countOcc d.entries ≤ n) :
    ROut hashF n 0 d.entries (resize d n) := by
  have h0 := resize_fold hashF n hn d.entries
    ⟨List.replicate n ⟨default, default, 0, -1⟩, n, 0⟩
    rfl (by simp) (sent_replicate n) (bprev_replicate n)
    (hok_replicate hashF n) (by rw [countOcc_replicate])
    (by rw [countOcc_replicate]; omega)
    (hashOK_elem hashF d.capacity d.entries hlen hhok)
  have hM : (occPairsL (List.replicate n
      (⟨default, default, 0, -1⟩ : Entry K V)) : Multiset (K × V)) = 0 := by
    rw [occPairsL_replicate]
    rfl
  rw [← hM]
  exact h0

/-- Dictionary-level statement: resizing a well-formed dictionary to a
positive capacity able to hold it preserves well-formedness, the size
and the stored pairs. -/
theorem resize_WF (hashF : K → Nat) (d : Dict K V) (n : Nat) (hn : 0 < n)
    (hwf : WF hashF d) (hcnt : d.size ≤ n) (hload2 : 4 * d.size ≤ 3 * n) :
    WF hashF (resize d n) ∧ (resize d n).capacity = n ∧
    (resize d n).size = d.size ∧
    (occPairsL (resize d n).entries : Multiset (K × V)) = occPairsL d.entries := by
  have h0 := resize_spec hashF d n hn hwf.hlen hwf.hhok (by rw [← hwf.hsize]; exact hcnt)
  have hpairs : (occPairsL (resize d n).entries : Multiset (K × V)) =
      occPairsL d.entries := by
    rw [h0.hpairs, zero_add]
  have hsz : (resize d n).size = d.size := by
    rw [h0.hsize, ← countOcc_coe, hpairs, countOcc_coe, ← hwf.hsize]
  refine ⟨⟨?_, ?_, ?_, ?_, ?_, h0.hsize, ?_⟩, h0.hcap, hsz, hpairs⟩
  · rw [h0.hcap]
    exact h0.hlen
  · rw [h0.hcap]
    exact h0.hsent
  · rw [h0.hcap]
    exact h0.hb
  · rw [h0.hcap]
    exact h0.hhok
  · have hk : (occKeysL (resize d n).entries : Multiset K) =
        (occKeysL d.entries : Multiset K) := by
      rw [occKeys_coe, occKeys_coe, hpairs]
    rw [← Multiset.coe_nodup, hk, Multiset.coe_nodup]
    exact hwf.huniq
  · rw [hsz, h0.hcap]
    exact hload2

theorem key_mem_occKeys (es : List (Entry K V)) (j : Nat) (hj : j < es.length)
    (ho : 0 ≤ pslOf es j) : (eAt es j).key ∈ occKeysL es := by
  have hmem : eAt es j ∈ es := by
    rw [eAt_eq_get es j hj]
    exact es.get_mem j hj
  have hocc : occB (eAt es j) = true := by
    rw [occB_iff]
    exact ho
  have : eAt es j ∈ es.filter occB := List.mem_filter.mpr ⟨hmem, hocc⟩
  exact List.mem_map.mpr ⟨eAt es j, this, rfl⟩

theorem pair_mem_occPairs (es : List (Entry K V)) (j : Nat) (hj : j < es.length)
    (ho : 0 ≤ pslOf es j) : pairOf (eAt es j) ∈ occPairsL es := by
  have hmem : eAt es j ∈ es := by
    rw [eAt_eq_get es j hj]
    exact es.get_mem j hj
  have hocc : occB (eAt es j) = true := by
    rw [occB_iff]
    exact ho
  have : eAt es j ∈ es.filter occB := List.mem_filter.mpr ⟨hmem, hocc⟩
  exact List.mem_map.mpr ⟨eAt es j, this, rfl⟩

theorem eAt_take (es : List (Entry K V)) :
    ∀ (i j : Nat), j < i → eAt (es.take i) j = eAt es j := by
  induction es with
  | nil =>
    intro i j _
    simp [eAt]
  | cons x xs ih =>
    intro i j hji
    match i, j with
    | i+1, 0 => rfl
    | i+1, j+1 => exact ih i j (by omega)

/-- Membership in the occupied keys produces a witnessing slot. -/
theorem occKey_slot (es : List (Entry K V)) (k : K) (hk : k ∈ occKeysL es) :
    ∃ j, j < es.length ∧ 0 ≤ pslOf es j ∧ (eAt es j).key = k := by
  obtain ⟨e, hef, hek⟩ := List.mem_map.mp hk
  obtain ⟨hee, heb⟩ := List.mem_filter.mp hef
  obtain ⟨i, hi⟩ := List.mem_iff_get.mp hee
  refine ⟨i.1, i.2, ?_, ?_⟩
  · rw [pslOf, eAt_eq_get es i.1 i.2, hi, ← occB_iff]
    exact heb
  · rw [eAt_eq_get es i.1 i.2, hi, hek]

/-- With pairwise distinct stored keys, at most one occupied slot holds a
given key. -/
theorem nodup_unique_slot (es : List (Entry K V))
    (hnd : (occKeysL es).Nodup) (j1 j2 : Nat)
    (h1 : j1 < es.length) (h2 : j2 < es.length)
    (ho1 : 0 ≤ pslOf es j1) (ho2 : 0 ≤ pslOf es j2)
    (hk : (eAt es j1).key = (eAt es j2).key) : j1 = j2 := by
  by_contra hne
  -- reduce to the case j1 < j2
  wlog hlt : j1 < j2 generalizing j1 j2
  · exact this j2 j1 h2 h1 ho2 ho1 hk.symm (fun hh => hne hh.symm) (by omega)
  -- decompose at j2
  have hdec := self_eq_take_drop default es j2 h2
  have hkey1 : (eAt es j1).key ∈ occKeysL (es.take j2) := by
    have hj1t : j1 < (es.take j2).length := by
      rw [List.length_take]
      omega
    have he : eAt (es.take j2) j1 = eAt es j1 := eAt_take es j2 j1 hlt
    have := key_mem_occKeys (es.take j2) j1 hj1t (by rw [pslOf, he, ← pslOf]; exact ho1)
    rwa [he] at this
  have hocc2 : occB (eAt es j2) = true := by
    rw [occB_iff]
    exact ho2
  have hnd2 : (occKeysL (es.take j2) ++ occKeysL (eAt es j2 :: es.drop (j2+1))).Nodup := by
    have : occKeysL es = occKeysL (es.take j2) ++
        occKeysL (eAt es j2 :: es.drop (j2+1)) := by
      conv_lhs => rw [hdec]
      rw [occKeysL, occKeysL, occKeysL, ← List.map_append, ← List.filter_append]
      rfl
    rwa [this] at hnd
  have hkey2 : (eAt es j2).key ∈ occKeysL (eAt es j2 :: es.drop (j2+1)) := by
    rw [occKeysL, List.filter_cons, hocc2]
    exact List.mem_cons_self _ _
  have hdisj := (List.nodup_append.mp hnd2).2.2
  exact hdisj hkey1 (by rw [hk]; exact hkey2)

end DictRH

namespace DictRH

variable {K V : Type} [DecidableEq K] [DecidableEq V] [Inhabited K] [Inhabited V]

/-- Overwriting only the value of an occupied slot touches none of the
per-slot invariants. -/
theorem invs_value_update (hashF : K → Nat) (cap : Nat) (es : List (Entry K V))
    (jj : Nat) (v : V) (hlen : es.length = cap) (hjj : jj < cap)
    (hsent : SentA cap es) (hb : Bprev cap es) (hhok : HashOK hashF cap es) :
    SentA cap (es.set jj { eAt es jj with value := v }) ∧
    Bprev cap (es.set jj { eAt es jj with value := v }) ∧
    HashOK hashF cap (es.set jj { eAt es jj with value := v }) := by
  have hjl : jj < es.length := by omega
  have hpsl : ∀ j, pslOf (es.set jj { eAt es jj with value := v }) j = pslOf es j := by
    intro j
    by_cases hj : j = jj
    · subst hj
      rw [pslOf_set_self es j _ hjl, pslOf]
    · rw [pslOf_set_other es jj j _ (fun hh => hj hh.symm)]
  have hhash : ∀ j, (eAt (es.set jj { eAt es jj with value := v }) j).hash =
      (eAt es j).hash := by
    intro j
    by_cases hj : j = jj
    · subst hj
      rw [eAt_set_self es j _ hjl]
    · rw [eAt_set_other es jj j _ (fun hh => hj hh.symm)]
  have hkey : ∀ j, (eAt (es.set jj { eAt es jj with value := v }) j).key =
      (eAt es j).key := by
    intro j
    by_cases hj : j = jj
    · subst hj
      rw [eAt_set_self es j _ hjl]
    · rw [eAt_set_other es jj j _ (fun hh => hj hh.symm)]
  refine ⟨?_, ?_, ?_⟩
  · intro j hj
    constructor
    · intro h
      rw [hpsl] at h ⊢
      rw [hhash]
      exact (hsent j hj).1 h
    · intro h
      rw [hpsl] at h ⊢
      exact (hsent j hj).2 h
  · intro j hj h1
    rw [hpsl] at h1
    rw [hpsl, hpsl]
    exact hb j hj h1
  · intro j hj h
    rw [hpsl] at h
    rw [hhash, hkey]
    exact hhok j hj h

/-- Complete behaviour of the probing loop of `set`, run on a well-formed
table with room: Inserted exactly when the key is absent, with the
contents updated accordingly. -/
theorem setCore_spec (hashF : K → Nat) (d1 : Dict K V) (k : K) (v : V)
    (hwf : WF hashF d1) (hcap : 0 < d1.capacity)
    (hslack : 4 * (d1.size + 1) ≤ 3 * d1.capacity) :
    ∃ es2 b, setFrom d1.capacity (hashF k % d1.capacity) (hashF k) k v 0
        d1.capacity d1.entries ⟨k, v, hashF k, 0⟩ = (es2, b) ∧
      es2.length = d1.capacity ∧ SentA d1.capacity es2 ∧ Bprev d1.capacity es2 ∧
      HashOK hashF d1.capacity es2 ∧
      (b = true ↔ k ∉ occKeysL d1.entries) ∧
      (b = true → (occPairsL es2 : Multiset (K × V)) =
          (occPairsL d1.entries : Multiset (K × V)) + {(k, v)} ∧
        (occKeysL es2 : Multiset K) = (occKeysL d1.entries : Multiset K) + {k}) ∧
      (b = false → ∃ vold, ((k, vold) : K × V) ∈ occPairsL d1.entries ∧
        (occPairsL es2 : Multiset (K × V)) =
          ((occPairsL d1.entries : Multiset (K × V)).erase (k, vold)) + {(k, v)} ∧
        (occKeysL es2 : Multiset K) = (occKeysL d1.entries : Multiset K)) := by
  have hcnt : countOcc d1.entries < d1.capacity := by
    have := hwf.hsize
    omega
  by_cases hk : k ∈ occKeysL d1.entries
  · -- present: pure value update at the unique slot jj
    obtain ⟨jj, hjl, hjocc, hjkey⟩ := occKey_slot d1.entries k hk
    have hjj : jj < d1.capacity := by
      rw [← hwf.hlen]
      exact hjl
    have huniq : ∀ j, j < d1.capacity → 0 ≤ pslOf d1.entries j →
        (eAt d1.entries j).key = k → j = jj := by
      intro j hjc hjo hjk
      exact nodup_unique_slot d1.entries hwf.huniq j jj
        (by rw [hwf.hlen]; exact hjc) hjl hjo hjocc (by rw [hjk, hjkey])
    have hupd := setFrom_update hashF d1.capacity d1.entries k v hcap
      hwf.hsent hwf.hb hwf.hhok jj hjj hjocc hjkey huniq
    refine ⟨d1.entries.set jj { eAt d1.entries jj with value := v }, false,
      hupd, ?_, ?_, ?_, ?_, ?_, ?_, ?_⟩
    · rw [List.length_set, hwf.hlen]
    · exact (invs_value_update hashF d1.capacity d1.entries jj v hwf.hlen hjj
        hwf.hsent hwf.hb hwf.hhok).1
    · exact (invs_value_update hashF d1.capacity d1.entries jj v hwf.hlen hjj
        hwf.hsent hwf.hb hwf.hhok).2.1
    · exact (invs_value_update hashF d1.capacity d1.entries jj v hwf.hlen hjj
        hwf.hsent hwf.hb hwf.hhok).2.2
    · constructor
      · intro hfalse
        exact absurd hfalse (by simp)
      · intro habs
        exact absurd hk habs
    · intro hfalse
      exact absurd hfalse (by simp)
    · intro _
      refine ⟨(eAt d1.entries jj).value, ?_, ?_, ?_⟩
      · have := pair_mem_occPairs d1.entries jj hjl hjocc
        rwa [pairOf, hjkey] at this
      · have hps := occPairs_set d1.entries jj
          { eAt d1.entries jj with value := v } hjl
        rw [pm_occ _ hjocc, pm_occ _ (by show (0:Int) ≤ (eAt d1.entries jj).psl; exact hjocc)] at hps
        have hpold : pairOf (eAt d1.entries jj) = (k, (eAt d1.entries jj).value) := by
          rw [pairOf, hjkey]
        have hpnew : pairOf { eAt d1.entries jj with value := v } = (k, v) := by
          rw [pairOf]
          show ((eAt d1.entries jj).key, v) = (k, v)
          rw [hjkey]
        rw [hpold, hpnew] at hps
        have hmem : ((k, (eAt d1.entries jj).value) : K × V) ∈
            (occPairsL d1.entries : Multiset (K × V)) := by
          have := pair_mem_occPairs d1.entries jj hjl hjocc
          rw [pairOf, hjkey] at this
          exact Multiset.mem_coe.mpr this
        have hY : (occPairsL d1.entries : Multiset (K × V)) =
            ((occPairsL d1.entries : Multiset (K × V)).erase
              (k, (eAt d1.entries jj).value)) + {(k, (eAt d1.entries jj).value)} := by
          rw [add_comm, Multiset.singleton_add, Multiset.cons_erase hmem]
        rw [hY] at hps
        have hps2 : (occPairsL (d1.entries.set jj
              { eAt d1.entries jj with value := v }) : Multiset (K × V)) +
              {(k, (eAt d1.entries jj).value)} =
            (((occPairsL d1.entries : Multiset (K × V)).erase
              (k, (eAt d1.entries jj).value)) + {(k, v)}) +
              {(k, (eAt d1.entries jj).value)} := by
          rw [hps]
          abel
        exact add_right_cancel hps2
      · have hps := occPairs_set d1.entries jj
          { eAt d1.entries jj with value := v } hjl
        rw [pm_occ _ hjocc, pm_occ _ (by show (0:Int) ≤ (eAt d1.entries jj).psl; exact hjocc)] at hps
        have hkk := congrArg (Multiset.map Prod.fst) hps
        rw [Multiset.map_add, Multiset.map_add, Multiset.map_singleton,
          Multiset.map_singleton] at hkk
        have hfst : Prod.fst (pairOf (eAt d1.entries jj)) =
            Prod.fst (pairOf { eAt d1.entries jj with value := v }) := rfl
        rw [occKeys_coe, occKeys_coe]
        rw [hfst] at hkk
        exact add_right_cancel hkk
  · -- absent: the loop reduces to the re-insertion loop and places (k, v)
    have heq := setFrom_eq_insFrom d1.capacity (hashF k % d1.capacity) (hashF k)
      k v d1.capacity 0 d1.entries ⟨k, v, hashF k, 0⟩ (by omega) hcap
      (by
        intro t _ ht2 hocc hkey
        refine hk ?_
        rw [← hkey]
        exact key_mem_occKeys d1.entries ((hashF k % d1.capacity + t) % d1.capacity)
          (by rw [hwf.hlen]; exact probe_lt d1.capacity _ t hcap) hocc)
    have hidx : hashF k % d1.capacity < d1.capacity := Nat.mod_lt _ hcap
    have hinv : LoopInv hashF d1.capacity (hashF k % d1.capacity) d1.entries
        ⟨k, v, hashF k, 0⟩ 0 := by
      refine ⟨hcap, hidx, hwf.hlen, hwf.hsent, hwf.hb, hwf.hhok, le_refl 0, ?_, ?_,
        rfl, ?_, ?_⟩
      · show (0:Int) ≤ ((0:Nat):Int)
        simp
      · show (hashF k % d1.capacity + (0:Int).toNat) % d1.capacity =
          (hashF k % d1.capacity + 0) % d1.capacity
        rfl
      · intro h1
        omega
      · obtain ⟨t, ht1, ht2⟩ := exists_empty_probe d1.capacity
          (hashF k % d1.capacity) hcap hidx d1.entries hwf.hlen hcnt
        exact ⟨t, Nat.zero_le t, ht1, ht2⟩
    have hout := insFrom_spec hashF d1.capacity (hashF k % d1.capacity)
      d1.capacity 0 d1.entries ⟨k, v, hashF k, 0⟩ (by omega) hinv
    refine ⟨(insFrom d1.capacity (hashF k % d1.capacity) 0 d1.capacity
        d1.entries ⟨k, v, hashF k, 0⟩).1, true, ?_, hout.hlen, hout.hsent,
      hout.hb, hout.hhok, ?_, ?_, ?_⟩
    · rw [heq]
      have hp := hout.placed
      rw [show (insFrom d1.capacity (hashF k % d1.capacity) 0 d1.capacity
          d1.entries ⟨k, v, hashF k, 0⟩) = ((insFrom d1.capacity
          (hashF k % d1.capacity) 0 d1.capacity d1.entries
          ⟨k, v, hashF k, 0⟩).1, (insFrom d1.capacity (hashF k % d1.capacity)
          0 d1.capacity d1.entries ⟨k, v, hashF k, 0⟩).2) from rfl, hp]
    · simp [hk]
    · intro _
      constructor
      · rw [hout.hpairs]
        rfl
      · have hkk := congrArg (Multiset.map Prod.fst) hout.hpairs
        rw [Multiset.map_add, Multiset.map_singleton] at hkk
        rw [occKeys_coe, occKeys_coe]
        exact hkk
    · intro hfalse
      exact absurd hfalse (by simp)

end DictRH

namespace DictRH

variable {K V : Type} [DecidableEq K] [DecidableEq V] [Inhabited K] [Inhabited V]

/-- Complete behaviour of `NAME##_set` / `dict_set` on a well-formed
dictionary: the call succeeds, preserves well-formedness, grows exactly
when the load-factor test fires, returns Inserted precisely for an
absent key, and updates the stored pairs accordingly. -/
theorem setOpt_spec (hashF : K → Nat) (d : Dict K V) (k : K) (v : V)
    (hwf : WF hashF d) (hcap : 0 < d.capacity) :
    ∃ d2 b, setOpt hashF d k v = some (d2, b) ∧ WF hashF d2 ∧
      d2.capacity = (if 3 * d.capacity < 4 * (d.size + 1) then 2 * d.capacity
        else d.capacity) ∧
      (b = true ↔ k ∉ occKeysL d.entries) ∧
      (b = true → d2.size = d.size + 1 ∧
        (occPairsL d2.entries : Multiset (K × V)) =
          (occPairsL d.entries : Multiset (K × V)) + {(k, v)}) ∧
      (b = false → d2.size = d.size ∧ ∃ vold, ((k, vold) : K × V) ∈ occPairsL d.entries ∧
        (occPairsL d2.entries : Multiset (K × V)) =
          ((occPairsL d.entries : Multiset (K × V)).erase (k, vold)) + {(k, v)}) := by
  obtain ⟨d1, hd1eq, hwf1, hcap1eq, hsz1, hpairs1, hslack⟩ :
      ∃ d1 : Dict K V, (if 3 * d.capacity < 4 * (d.size + 1) then
          resize d (2 * d.capacity) else d) = d1 ∧ WF hashF d1 ∧
        d1.capacity = (if 3 * d.capacity < 4 * (d.size + 1) then 2 * d.capacity
          else d.capacity) ∧ d1.size = d.size ∧
        (occPairsL d1.entries : Multiset (K × V)) = occPairsL d.entries ∧
        4 * (d1.size + 1) ≤ 3 * d1.capacity := by
    by_cases hgrow : 3 * d.capacity < 4 * (d.size + 1)
    · have hr := resize_WF hashF d (2 * d.capacity) (by omega) hwf
        (by have := hwf.hload; omega) (by have := hwf.hload; omega)
      refine ⟨resize d (2 * d.capacity), if_pos hgrow, hr.1, ?_, hr.2.2.1,
        hr.2.2.2, ?_⟩
      · rw [if_pos hgrow]
        exact hr.2.1
      · rw [hr.2.2.1, hr.2.1]
        have := hwf.hload
        omega
    · exact ⟨d, if_neg hgrow, hwf, by rw [if_neg hgrow], rfl, rfl, by omega⟩
  have hcap1 : 0 < d1.capacity := by
    rw [hcap1eq]
    split <;> omega
  obtain ⟨es2, b, hset, hlen2, hsent2, hbp2, hhok2, hbiff, htrue, hfalse⟩ :=
    setCore_spec hashF d1 k v hwf1 hcap1 hslack
  have hkeys1 : (occKeysL d1.entries : Multiset K) = occKeysL d.entries := by
    rw [occKeys_coe, occKeys_coe, hpairs1]
  have hmemk : k ∈ occKeysL d1.entries ↔ k ∈ occKeysL d.entries := by
    rw [← Multiset.mem_coe, hkeys1, Multiset.mem_coe]
  have hrun : setOpt hashF d k v = some
      (⟨es2, d1.capacity, if b then d1.size + 1 else d1.size⟩, b) := by
    simp only [setOpt, hd1eq, modIdx, if_neg (show ¬ d1.capacity = 0 by omega)]
    rw [hset]
  refine ⟨⟨es2, d1.capacity, if b then d1.size + 1 else d1.size⟩, b, hrun, ?_, ?_,
    ?_, ?_, ?_⟩
  · -- well-formedness of the result
    cases b with
    | true =>
      obtain ⟨hpr, hkr⟩ := htrue rfl
      have hknot : k ∉ occKeysL d1.entries := hbiff.mp rfl
      refine ⟨hlen2, hsent2, hbp2, hhok2, ?_, ?_, ?_⟩
      · rw [← Multiset.coe_nodup, hkr, add_comm, Multiset.singleton_add,
          Multiset.nodup_cons]
        exact ⟨fun hc => hknot (Multiset.mem_coe.mp hc),
          Multiset.coe_nodup.mpr hwf1.huniq⟩
      · show (if true = true then d1.size + 1 else d1.size) = countOcc es2
        have hc := congrArg Multiset.card hpr
        rw [Multiset.card_add, Multiset.card_singleton, countOcc_coe,
          countOcc_coe] at hc
        have := hwf1.hsize
        simp
        omega
      · show 4 * (if true = true then d1.size + 1 else d1.size) ≤ 3 * d1.capacity
        simp
        omega
    | false =>
      obtain ⟨vold, hvmem, hpr, hkr⟩ := hfalse rfl
      have hvmem1 : ((k, vold) : K × V) ∈ (occPairsL d1.entries : Multiset (K × V)) :=
        Multiset.mem_coe.mpr hvmem
      refine ⟨hlen2, hsent2, hbp2, hhok2, ?_, ?_, ?_⟩
      · rw [← Multiset.coe_nodup, hkr, Multiset.coe_nodup]
        exact hwf1.huniq
      · show (if false = true then d1.size + 1 else d1.size) = countOcc es2
        have hc := congrArg Multiset.card hpr
        rw [Multiset.card_add, Multiset.card_singleton, countOcc_coe,
          Multiset.card_erase_of_mem hvmem1, countOcc_coe] at hc
        have h1 : 1 ≤ (occPairsL d1.entries : Multiset (K × V)).card :=
          Multiset.card_pos_iff_exists_mem.mpr ⟨_, hvmem1⟩
        rw [countOcc_coe] at h1
        rw [Nat.pred_eq_sub_one] at hc
        have := hwf1.hsize
        simp only [if_neg (by simp : ¬ false = true)]
        omega
      · show 4 * (if false = true then d1.size + 1 else d1.size) ≤ 3 * d1.capacity
        simp only [if_neg (by simp : ¬ false = true)]
        have := hwf1.hload
        omega
  · show d1.capacity = _
    exact hcap1eq
  · rw [hbiff]
    rw [hmemk]
  · intro hb
    subst hb
    obtain ⟨hpr, _⟩ := htrue rfl
    constructor
    · show (if true = true then d1.size + 1 else d1.size) = d.size + 1
      simp
      omega
    · show (occPairsL es2 : Multiset (K × V)) = _
      rw [hpr, hpairs1]
  · intro hb
    subst hb
    obtain ⟨vold, hvmem, hpr, _⟩ := hfalse rfl
    constructor
    · show (if false = true then d1.size + 1 else d1.size) = d.size
      simp only [if_neg (by simp : ¬ false = true)]
      omega
    · refine ⟨vold, ?_, ?_⟩
      · have : ((k, vold) : K × V) ∈ (occPairsL d.entries : Multiset (K × V)) := by
          rw [← hpairs1]
          exact Multiset.mem_coe.mpr hvmem
        exact Multiset.mem_coe.mp this
      · show (occPairsL es2 : Multiset (K × V)) = _
        rw [hpr, hpairs1]

end DictRH

namespace DictRH

variable {K V : Type} [DecidableEq K] [DecidableEq V] [Inhabited K] [Inhabited V]

/-- A key held by no occupied slot is never reported found: every return
path of the search loop other than a key match yields `none`. -/
theorem searchFrom_none (cap idx h : Nat) (k : K) (es : List (Entry K V))
    (hcap : 0 < cap)
    (habs : ∀ j, j < cap → 0 ≤ pslOf es j → (eAt es j).key ≠ k) :
    ∀ (steps t : Nat), searchFrom cap idx h k es t steps = none := by
  intro steps
  induction steps with
  | zero =>
    intro t
    rfl
  | succ steps ih =>
    intro t
    simp only [searchFrom]
    by_cases hstop : (eAt es ((idx + t) % cap)).psl < 0 ∨
        (eAt es ((idx + t) % cap)).psl < (t : Int)
    · rw [if_pos hstop]
    · rw [if_neg hstop]
      have hocc : 0 ≤ pslOf es ((idx + t) % cap) := by
        rw [pslOf]
        push_neg at hstop
        exact hstop.1
      have hnk : ¬((eAt es ((idx + t) % cap)).hash = h ∧
          (eAt es ((idx + t) % cap)).key = k) := by
        rintro ⟨_, h2⟩
        exact habs ((idx + t) % cap) (probe_lt cap idx t hcap) hocc h2
      rw [if_neg hnk]
      exact ih (t+1)

/-- On a well-formed table storing `k` at slot `jj`, the search loop
stops exactly there. -/
theorem searchFrom_found (hashF : K → Nat) (cap : Nat) (es : List (Entry K V))
    (k : K) (hcap : 0 < cap)
    (hsent : SentA cap es) (hb : Bprev cap es) (hhok : HashOK hashF cap es)
    (jj : Nat) (hjj : jj < cap) (hjocc : 0 ≤ pslOf es jj)
    (hjkey : (eAt es jj).key = k)
    (huniq : ∀ j, j < cap → 0 ≤ pslOf es j → (eAt es j).key = k → j = jj) :
    searchFrom cap (hashF k % cap) (hashF k) k es 0 cap = some jj := by
  have hjhash : (eAt es jj).hash = hashF k := by
    have := hhok jj hjj hjocc
    rw [this, hjkey]
  have hjpsl : pslOf es jj = (((jj + cap - hashF k % cap) % cap : Nat) : Int) := by
    have := (hsent jj hjj).1 hjocc
    rw [pslOf] at this ⊢
    rw [this, hjhash]
  have hddlt : (jj + cap - hashF k % cap) % cap < cap := Nat.mod_lt _ hcap
  have hjeq : (hashF k % cap + (jj + cap - hashF k % cap) % cap) % cap = jj :=
    sent_inv cap (hashF k) jj hcap hjj
  have hchain := chain_occ cap es hcap hb (hashF k % cap)
    ((jj + cap - hashF k % cap) % cap)
    (by rw [hjeq]; exact hjocc)
    (by rw [hjeq, hjpsl])
  have main : ∀ s t, t + s = (jj + cap - hashF k % cap) % cap →
      searchFrom cap (hashF k % cap) (hashF k) k es t (cap - t) = some jj := by
    intro s
    induction s with
    | zero =>
      intro t ht
      have htjj : (hashF k % cap + t) % cap = jj := by
        have ht2 : t = (jj + cap - hashF k % cap) % cap := by omega
        rw [ht2]
        exact hjeq
      have htlt : t < cap := by omega
      have hfuel : cap - t = (cap - (t+1)) + 1 := by omega
      rw [hfuel]
      simp only [searchFrom]
      rw [htjj]
      have hnostop : ¬((eAt es jj).psl < 0 ∨ (eAt es jj).psl < (t : Int)) := by
        push_neg
        rw [pslOf] at hjocc hjpsl
        constructor
        · omega
        · rw [hjpsl]
          have ht2 : t = (jj + cap - hashF k % cap) % cap := by omega
          omega
      rw [if_neg hnostop, if_pos ⟨hjhash, hjkey⟩]
    | succ s ih =>
      intro t ht
      have htlt : t < cap := by omega
      have hfuel : cap - t = (cap - (t+1)) + 1 := by omega
      rw [hfuel]
      simp only [searchFrom]
      obtain ⟨hc1, hc2⟩ := hchain t (by omega)
      have hnostop : ¬((eAt es ((hashF k % cap + t) % cap)).psl < 0 ∨
          (eAt es ((hashF k % cap + t) % cap)).psl < (t : Int)) := by
        push_neg
        rw [pslOf] at hc1 hc2
        exact ⟨by omega, hc2⟩
      rw [if_neg hnostop]
      have hnk : ¬((eAt es ((hashF k % cap + t) % cap)).hash = hashF k ∧
          (eAt es ((hashF k % cap + t) % cap)).key = k) := by
        rintro ⟨_, h2⟩
        have hpe : (hashF k % cap + t) % cap < cap := probe_lt cap _ t hcap
        have := huniq ((hashF k % cap + t) % cap) hpe hc1 h2
        have h3 : (hashF k % cap + t) % cap = (hashF k % cap +
            (jj + cap - hashF k % cap) % cap) % cap := this.trans hjeq.symm
        have := probe_inj cap (hashF k % cap) t
          ((jj + cap - hashF k % cap) % cap) htlt hddlt h3
        omega
      rw [if_neg hnk]
      exact ih (t+1) (by omega)
  have h0 := main ((jj + cap - hashF k % cap) % cap) 0 (by omega)
  have hc0 : cap - 0 = cap := by omega
  rwa [hc0] at h0

end DictRH

namespace DictRH

variable {K V : Type} [DecidableEq K] [DecidableEq V] [Inhabited K] [Inhabited V]

theorem psl_lt_cap (cap : Nat) (es : List (Entry K V)) (hsent : SentA cap es)
    (i : Nat) (hi : i < cap) (ho : 0 ≤ pslOf es i) : pslOf es i < (cap : Int) := by
  have h1 := (hsent i hi).1 ho
  rw [h1]
  have h2 : (i + cap - (eAt es i).hash % cap) % cap < cap := Nat.mod_lt _ (by omega)
  exact_mod_cast h2

theorem mod_sub_one (cap X p : Nat) (hcap : 0 < cap)
    (hp : X % cap = p) (hp1 : 1 ≤ p) : (X - 1) % cap = p - 1 := by
  have hdm := Nat.div_add_mod X cap
  have hplt : p < cap := by
    rw [← hp]
    exact Nat.mod_lt _ hcap
  have hX1 : X - 1 = cap * (X / cap) + (p - 1) := by omega
  rw [hX1, Nat.mul_add_mod]
  exact Nat.mod_eq_of_lt (by omega)

theorem sent_shift (cap b nxt p : Nat) (hcap : 0 < cap) (hb : b < cap)
    (hnxt : nxt < cap) (hp : (nxt + cap - b) % cap = p) (hp1 : 1 ≤ p) :
    ((nxt + cap - 1) % cap + cap - b) % cap = p - 1 := by
  have h1 : (nxt + cap - 1) % cap + cap - b = (nxt + cap - 1) % cap + (cap - b) := by
    omega
  rw [h1, Nat.mod_add_mod]
  have h2 : nxt + cap - 1 + (cap - b) = (nxt + cap - b - 1) + cap := by omega
  rw [h2, Nat.add_mod_right]
  exact mod_sub_one cap (nxt + cap - b) p hcap hp hp1

theorem pred_formula (cap emp : Nat) (hcap : 0 < cap) (hemp : emp < cap) :
    (emp + cap - 1) % cap = if emp = 0 then cap - 1 else emp - 1 := by
  by_cases h : emp = 0
  · subst h
    rw [if_pos rfl]
    simp only [Nat.zero_add]
    exact Nat.mod_eq_of_lt (by omega)
  · rw [if_neg h]
    have h2 : emp + cap - 1 = (emp - 1) + cap := by omega
    rw [h2, Nat.add_mod_right]
    exact Nat.mod_eq_of_lt (by omega)

theorem succ_formula (cap emp : Nat) (hcap : 0 < cap) (hemp : emp < cap) :
    (emp + 1) % cap = if emp = cap - 1 then 0 else emp + 1 := by
  by_cases h : emp = cap - 1
  · rw [if_pos h, h, show cap - 1 + 1 = cap from by omega, Nat.mod_self]
  · rw [if_neg h]
    exact Nat.mod_eq_of_lt (by omega)

theorem pred_ne_succ (cap emp : Nat) (hcap : 3 ≤ cap) (hemp : emp < cap) :
    (emp + cap - 1) % cap ≠ (emp + 1) % cap := by
  rw [pred_formula cap emp (by omega) hemp, succ_formula cap emp (by omega) hemp]
  split_ifs <;> omega

theorem pred_ne_self (cap emp : Nat) (hcap : 2 ≤ cap) (hemp : emp < cap) :
    (emp + cap - 1) % cap ≠ emp := by
  rw [pred_formula cap emp (by omega) hemp]
  split_ifs <;> omega

theorem succ_ne_self (cap emp : Nat) (hcap : 2 ≤ cap) (hemp : emp < cap) :
    (emp + 1) % cap ≠ emp := by
  rw [succ_formula cap emp (by omega) hemp]
  split_ifs <;> omega

/-- What the backward-shift loop of `remove` guarantees. -/
structure ShiftOut (hashF : K → Nat) (cap : Nat) (M : Multiset (K × V))
    (out : List (Entry K V)) : Prop where
  hlen : out.length = cap
  hsent : SentA cap out
  hb : Bprev cap out
  hhok : HashOK hashF cap out
  hpairs : (occPairsL out : Multiset (K × V)) = M

end DictRH

namespace DictRH

variable {K V : Type} [DecidableEq K] [DecidableEq V] [Inhabited K] [Inhabited V]

/-- The backward-shift loop of `remove`: started just after vacating a
slot, with the continuity invariant holding everywhere except across the
vacancy, it restores all table invariants while keeping the stored pairs
unchanged. -/
theorem shift_spec (hashF : K → Nat) (cap probe : Nat) (hprobe : probe < cap) :
    ∀ (fuel j : Nat) (es : List (Entry K V)) (emp : Nat),
      j + fuel = cap → 1 ≤ j → emp = (probe + (j - 1)) % cap →
      es.length = cap → SentA cap es → HashOK hashF cap es →
      pslOf es emp < 0 →
      (∀ i, i < cap → i ≠ (emp + 1) % cap → 1 ≤ pslOf es i →
        0 ≤ pslOf es ((i + cap - 1) % cap) ∧
        pslOf es i - 1 ≤ pslOf es ((i + cap - 1) % cap)) →
      (2 ≤ pslOf es ((emp + 1) % cap) →
        0 ≤ pslOf es ((emp + cap - 1) % cap) ∧
        pslOf es ((emp + 1) % cap) - 2 ≤ pslOf es ((emp + cap - 1) % cap)) →
      (∃ t, j ≤ t ∧ t < cap ∧ pslOf es ((probe + t) % cap) ≤ 0) →
      ShiftOut hashF cap (occPairsL es) (shiftFrom cap probe emp j fuel es) := by
  intro fuel
  induction fuel with
  | zero =>
    intro j es emp hsum hj1 _ _ _ _ _ _ _ hx
    obtain ⟨t, ht1, ht2, _⟩ := hx
    omega
  | succ fuel ih =>
    intro j es emp hsum hj1 hempeq hlen hsent hhok hempty hBex hh hx
    have hcap : 0 < cap := by omega
    have hcap2 : 2 ≤ cap := by omega
    have hemplt : emp < cap := by
      rw [hempeq]
      exact probe_lt cap probe (j-1) hcap
    have hnxtlt : (probe + j) % cap < cap := probe_lt cap probe j hcap
    have hnxt_eq : (probe + j) % cap = (emp + 1) % cap := by
      rw [hempeq, Nat.mod_add_mod]
      congr 1
      omega
    simp only [shiftFrom]
    by_cases hstop : (eAt es ((probe + j) % cap)).psl ≤ 0
    · rw [if_pos hstop]
      refine ⟨hlen, hsent, ?_, hhok, rfl⟩
      intro i hi h1
      by_cases hin : i = (emp + 1) % cap
      · exfalso
        subst hin
        rw [pslOf, ← hnxt_eq] at h1
        omega
      · exact hBex i hi hin h1
    · rw [if_neg hstop]
      have hr1 : 1 ≤ (eAt es ((probe + j) % cap)).psl := by omega
      have hr0 : 0 ≤ pslOf es ((probe + j) % cap) := by
        rw [pslOf]
        omega
      have hnel : (probe + j) % cap < es.length := by omega
      have hempel : emp < es.length := by omega
      have hempne : emp ≠ (probe + j) % cap := by
        rw [hnxt_eq]
        exact fun hh2 => succ_ne_self cap emp hcap2 hemplt hh2.symm
      have hplt : pslOf es ((probe + j) % cap) < (cap : Int) :=
        psl_lt_cap cap es hsent ((probe + j) % cap) hnxtlt hr0
      have hlen1 : (es.set emp { eAt es ((probe + j) % cap) with
          psl := (eAt es ((probe + j) % cap)).psl - 1 }).length = cap := by
        rw [List.length_set]
        exact hlen
      -- reads in the modified array
      have hat_nxt : eAt ((es.set emp { eAt es ((probe + j) % cap) with
          psl := (eAt es ((probe + j) % cap)).psl - 1 }).set ((probe + j) % cap)
          { eAt es ((probe + j) % cap) with psl := -1 }) ((probe + j) % cap) =
          { eAt es ((probe + j) % cap) with psl := -1 } := by
        apply eAt_set_self
        rw [hlen1]
        exact hnxtlt
      have hat_emp : eAt ((es.set emp { eAt es ((probe + j) % cap) with
          psl := (eAt es ((probe + j) % cap)).psl - 1 }).set ((probe + j) % cap)
          { eAt es ((probe + j) % cap) with psl := -1 }) emp =
          { eAt es ((probe + j) % cap) with
            psl := (eAt es ((probe + j) % cap)).psl - 1 } := by
        rw [eAt_set_other _ _ _ _ (fun hh2 => hempne hh2.symm)]
        exact eAt_set_self es emp _ hempel
      have hat_other : ∀ i, i ≠ emp → i ≠ (probe + j) % cap →
          eAt ((es.set emp { eAt es ((probe + j) % cap) with
            psl := (eAt es ((probe + j) % cap)).psl - 1 }).set ((probe + j) % cap)
            { eAt es ((probe + j) % cap) with psl := -1 }) i = eAt es i := by
        intro i h1 h2
        rw [eAt_set_other _ _ _ _ (fun hh2 => h2 hh2.symm),
          eAt_set_other _ _ _ _ (fun hh2 => h1 hh2.symm)]
      have hpsl_nxt : pslOf ((es.set emp { eAt es ((probe + j) % cap) with
          psl := (eAt es ((probe + j) % cap)).psl - 1 }).set ((probe + j) % cap)
          { eAt es ((probe + j) % cap) with psl := -1 }) ((probe + j) % cap) = -1 := by
        rw [pslOf, hat_nxt]
      have hpsl_emp : pslOf ((es.set emp { eAt es ((probe + j) % cap) with
          psl := (eAt es ((probe + j) % cap)).psl - 1 }).set ((probe + j) % cap)
          { eAt es ((probe + j) % cap) with psl := -1 }) emp =
          (eAt es ((probe + j) % cap)).psl - 1 := by
        rw [pslOf, hat_emp]
      have hpsl_other : ∀ i, i ≠ emp → i ≠ (probe + j) % cap →
          pslOf ((es.set emp { eAt es ((probe + j) % cap) with
            psl := (eAt es ((probe + j) % cap)).psl - 1 }).set ((probe + j) % cap)
            { eAt es ((probe + j) % cap) with psl := -1 }) i = pslOf es i := by
        intro i h1 h2
        rw [pslOf, hat_other i h1 h2, pslOf]
      -- arithmetic facts about the moved entry
      have hpnat := (hsent ((probe + j) % cap) hnxtlt).1 hr0
      rw [pslOf] at hpnat
      have hpn1 : 1 ≤ ((probe + j) % cap + cap -
          (eAt es ((probe + j) % cap)).hash % cap) % cap := by
        omega
      have hpredn : ((probe + j) % cap + cap - 1) % cap = emp := by
        rw [hnxt_eq]
        exact pred_self cap emp hemplt
      have hsshift := sent_shift cap ((eAt es ((probe + j) % cap)).hash % cap)
        ((probe + j) % cap)
        (((probe + j) % cap + cap - (eAt es ((probe + j) % cap)).hash % cap) % cap)
        hcap (Nat.mod_lt _ hcap) hnxtlt rfl hpn1
      rw [hpredn] at hsshift
      -- the recursive call
      have hrec := ih (j+1) ((es.set emp { eAt es ((probe + j) % cap) with
          psl := (eAt es ((probe + j) % cap)).psl - 1 }).set ((probe + j) % cap)
          { eAt es ((probe + j) % cap) with psl := -1 }) ((probe + j) % cap)
        (by omega) (by omega) rfl ?_ ?_ ?_ ?_ ?_ ?_ ?_
      · -- assemble, rewriting the pair multiset back to the original
        refine ⟨hrec.hlen, hrec.hsent, hrec.hb, hrec.hhok, ?_⟩
        rw [hrec.hpairs]
        have hps1 := occPairs_set es emp { eAt es ((probe + j) % cap) with
          psl := (eAt es ((probe + j) % cap)).psl - 1 } hempel
        rw [pm_empty _ (by rw [pslOf] at hempty; exact hempty),
          pm_occ _ (by show (0:Int) ≤ (eAt es ((probe + j) % cap)).psl - 1; omega),
          add_zero] at hps1
        have hps2 := occPairs_set (es.set emp { eAt es ((probe + j) % cap) with
          psl := (eAt es ((probe + j) % cap)).psl - 1 }) ((probe + j) % cap)
          { eAt es ((probe + j) % cap) with psl := -1 } (by rw [hlen1]; exact hnxtlt)
        have hmid : eAt (es.set emp { eAt es ((probe + j) % cap) with
            psl := (eAt es ((probe + j) % cap)).psl - 1 }) ((probe + j) % cap) =
            eAt es ((probe + j) % cap) :=
          eAt_set_other es emp _ _ hempne
        rw [hmid, pm_occ _ (by omega),
          pm_empty _ (by show (-1 : Int) < 0; norm_num), add_zero] at hps2
        have hpairX : pairOf { eAt es ((probe + j) % cap) with
            psl := (eAt es ((probe + j) % cap)).psl - 1 } =
            pairOf (eAt es ((probe + j) % cap)) := rfl
        rw [hps1, hpairX] at hps2
        exact add_right_cancel hps2
      · simp only [List.length_set]
        exact hlen
      · -- the placement invariant survives the move
        intro i hi
        by_cases h1 : i = (probe + j) % cap
        · rw [h1, hpsl_nxt]
          refine ⟨fun hcontra => absurd hcontra (by norm_num), fun _ => ?_⟩
          rfl
        · by_cases h2 : i = emp
          · rw [h2, hpsl_emp, hat_emp]
            constructor
            · intro _
              show (eAt es ((probe + j) % cap)).psl - 1 =
                (((emp + cap - (eAt es ((probe + j) % cap)).hash % cap) % cap :
                  Nat) : Int)
              rw [hsshift, hpnat]
              omega
            · intro hcontra
              exfalso
              omega
          · rw [hpsl_other i h2 h1, hat_other i h2 h1]
            exact hsent i hi
      · -- cached hashes survive
        intro i hi hocc
        by_cases h1 : i = (probe + j) % cap
        · rw [h1, hpsl_nxt] at hocc
          exact absurd hocc (by norm_num)
        · by_cases h2 : i = emp
          · rw [h2, hat_emp]
            show (eAt es ((probe + j) % cap)).hash =
              hashF (eAt es ((probe + j) % cap)).key
            exact hhok ((probe + j) % cap) hnxtlt hr0
          · rw [hat_other i h2 h1]
            rw [hpsl_other i h2 h1] at hocc
            exact hhok i hi hocc
      · rw [hpsl_nxt]
        norm_num
      · -- continuity away from the new vacancy
        intro i hi hine h1
        by_cases hieq : i = (probe + j) % cap
        · exfalso
          rw [hieq, hpsl_nxt] at h1
          exact absurd h1 (by norm_num)
        · by_cases hiemp : i = emp
          · rw [hiemp, hpsl_emp] at h1
            have hge2 : 2 ≤ (eAt es ((probe + j) % cap)).psl := by omega
            by_cases hcap3 : 3 ≤ cap
            · have hpredne1 : (emp + cap - 1) % cap ≠ emp :=
                pred_ne_self cap emp hcap2 hemplt
              have hpredne2 : (emp + cap - 1) % cap ≠ (probe + j) % cap := by
                rw [hnxt_eq]
                exact pred_ne_succ cap emp hcap3 hemplt
              have hh2 := hh (by rw [← hnxt_eq]; exact hge2)
              rw [hiemp, hpsl_emp, hpsl_other _ hpredne1 hpredne2]
              rw [← hnxt_eq] at hh2
              refine ⟨hh2.1, ?_⟩
              have h3 := hh2.2
              rw [pslOf] at h3
              omega
            · exfalso
              rw [pslOf] at hplt
              omega
          · rw [hpsl_other i hiemp hieq] at h1
            have hpredne1 : (i + cap - 1) % cap ≠ emp := by
              intro hc
              have := succ_of_pred cap i emp hi hemplt hc
              rw [← hnxt_eq] at this
              exact hieq this
            have hpredne2 : (i + cap - 1) % cap ≠ (probe + j) % cap := by
              intro hc
              have := succ_of_pred cap i ((probe + j) % cap) hi hnxtlt hc
              exact hine this
            have hine2 : i ≠ (emp + 1) % cap := by
              rw [← hnxt_eq]
              exact hieq
            have hb1 := hBex i hi hine2 h1
            rw [hpsl_other i hiemp hieq, hpsl_other _ hpredne1 hpredne2]
            exact hb1
      · -- the carried bound across the new vacancy
        intro hq
        rw [hpredn]
        by_cases hsucceq : ((probe + j) % cap + 1) % cap = emp
        · exfalso
          have hs1 := succ_formula cap emp hcap hemplt
          have hs2 := succ_formula cap ((probe + j) % cap) hcap hnxtlt
          have hcap2eq : cap = 2 := by
            have h1 := hnxt_eq
            rw [hs1] at h1
            rw [hs2] at hsucceq
            split_ifs at h1 hsucceq <;> omega
          rw [hsucceq, hpsl_emp] at hq
          rw [pslOf] at hplt
          omega
        · have hsuccne2 : ((probe + j) % cap + 1) % cap ≠ (probe + j) % cap :=
            succ_ne_self cap ((probe + j) % cap) hcap2 hnxtlt
          rw [hpsl_other _ hsucceq hsuccne2] at hq
          rw [hpsl_other _ hsucceq hsuccne2, hpsl_emp]
          have hsonelt : ((probe + j) % cap + 1) % cap < cap :=
            Nat.mod_lt _ hcap
          have hsne : ((probe + j) % cap + 1) % cap ≠ (emp + 1) % cap := by
            rw [← hnxt_eq]
            exact hsuccne2
          have hb1 := hBex (((probe + j) % cap + 1) % cap) hsonelt hsne (by omega)
          rw [pred_self cap ((probe + j) % cap) hnxtlt] at hb1
          have hb2 := hb1.2
          simp only [pslOf] at hq hb2 ⊢
          constructor
          · omega
          · omega
      · -- the stopping slot still lies ahead
        obtain ⟨t, ht1, ht2, ht3⟩ := hx
        have htj : t ≠ j := by
          intro hc
          rw [hc, pslOf] at ht3
          omega
        refine ⟨t, by omega, ht2, ?_⟩
        have hne1 : (probe + t) % cap ≠ (probe + j) % cap := by
          intro hc
          exact htj (probe_inj cap probe t j ht2 (by omega) hc)
        have hne2 : (probe + t) % cap ≠ emp := by
          rw [hempeq]
          intro hc
          have := probe_inj cap probe t (j-1) ht2 (by omega) hc
          omega
        rw [hpsl_other _ hne2 hne1]
        exact ht3

/-- `remove` on a well-formed dictionary: the absent case returns `false`
with the state untouched; the present case returns `true`, keeps the
capacity, decrements `size` by one, removes exactly one stored pair for
the key, and leaves a well-formed table no longer containing the key. -/
theorem removeOpt_spec (hashF : K → Nat) (d : Dict K V) (k : K)
    (hcap : 0 < d.capacity) (hwf : WF hashF d) :
    ∃ d2 b, removeOpt hashF d k = some (d2, b) ∧ WF hashF d2 ∧
      d2.capacity = d.capacity ∧
      (b = true ↔ k ∈ occKeysL d.entries) ∧
      (b = false → d2 = d) ∧
      (b = true → d2.size + 1 = d.size ∧ k ∉ occKeysL d2.entries ∧
        ∃ vk, ((k, vk) : K × V) ∈ occPairsL d.entries ∧
          (occPairsL d2.entries : Multiset (K × V)) + {(k, vk)} =
            (occPairsL d.entries : Multiset (K × V))) := by
  by_cases hmem : k ∈ occKeysL d.entries
  · -- key present: locate its unique slot
    obtain ⟨jj, hjjlen, hjjo, hjjkey⟩ := occKey_slot d.entries k hmem
    have hjjlt : jj < d.capacity := by rw [← hwf.hlen]; exact hjjlen
    have huq : ∀ j, j < d.capacity → 0 ≤ pslOf d.entries j →
        (eAt d.entries j).key = k → j = jj := by
      intro j hj ho hk2
      exact nodup_unique_slot d.entries hwf.huniq j jj
        (by rw [hwf.hlen]; exact hj) hjjlen ho hjjo (by rw [hk2, hjjkey])
    have hfound := searchFrom_found hashF d.capacity d.entries k hcap hwf.hsent
      hwf.hb hwf.hhok jj hjjlt hjjo hjjkey huq
    -- the vacated array and its invariants
    have hlen1 : (d.entries.set jj { eAt d.entries jj with psl := -1 }).length
        = d.capacity := by
      rw [List.length_set]
      exact hwf.hlen
    have hat_jj : eAt (d.entries.set jj { eAt d.entries jj with psl := -1 }) jj =
        { eAt d.entries jj with psl := -1 } :=
      eAt_set_self d.entries jj _ hjjlen
    have hat_o : ∀ i, i ≠ jj →
        eAt (d.entries.set jj { eAt d.entries jj with psl := -1 }) i =
          eAt d.entries i := by
      intro i hi
      exact eAt_set_other _ _ _ _ (fun hh2 => hi hh2.symm)
    have hps1 : ∀ i, i ≠ jj →
        pslOf (d.entries.set jj { eAt d.entries jj with psl := -1 }) i =
          pslOf d.entries i := by
      intro i hi
      rw [pslOf, hat_o i hi, pslOf]
    have hempty1 : pslOf (d.entries.set jj { eAt d.entries jj with psl := -1 }) jj
        < 0 := by
      rw [pslOf, hat_jj]
      exact show (-1 : Int) < 0 by norm_num
    have hsent1 : SentA d.capacity
        (d.entries.set jj { eAt d.entries jj with psl := -1 }) := by
      intro i hi
      by_cases hij : i = jj
      · rw [hij]
        constructor
        · intro ho
          exfalso
          rw [pslOf, hat_jj] at ho
          exact absurd (show (0 : Int) ≤ -1 from ho) (by norm_num)
        · intro _
          rw [pslOf, hat_jj]
      · rw [hps1 i hij, hat_o i hij]
        exact hwf.hsent i hi
    have hhok1 : HashOK hashF d.capacity
        (d.entries.set jj { eAt d.entries jj with psl := -1 }) := by
      intro i hi ho
      by_cases hij : i = jj
      · exfalso
        rw [hij] at ho
        omega
      · rw [hat_o i hij]
        rw [hps1 i hij] at ho
        exact hwf.hhok i hi ho
    have hbex1 : ∀ i, i < d.capacity → i ≠ (jj + 1) % d.capacity →
        1 ≤ pslOf (d.entries.set jj { eAt d.entries jj with psl := -1 }) i →
        0 ≤ pslOf (d.entries.set jj { eAt d.entries jj with psl := -1 })
            ((i + d.capacity - 1) % d.capacity) ∧
        pslOf (d.entries.set jj { eAt d.entries jj with psl := -1 }) i - 1 ≤
          pslOf (d.entries.set jj { eAt d.entries jj with psl := -1 })
            ((i + d.capacity - 1) % d.capacity) := by
      intro i hi hine h1
      have hij : i ≠ jj := by
        intro hc
        rw [hc] at h1
        omega
      rw [hps1 i hij] at h1
      have hpred : (i + d.capacity - 1) % d.capacity ≠ jj := by
        intro hc
        exact hine (succ_of_pred d.capacity i jj hi hjjlt hc)
      rw [hps1 i hij, hps1 _ hpred]
      exact hwf.hb i hi h1
    have hh1 : 2 ≤ pslOf (d.entries.set jj { eAt d.entries jj with psl := -1 })
          ((jj + 1) % d.capacity) →
        0 ≤ pslOf (d.entries.set jj { eAt d.entries jj with psl := -1 })
            ((jj + d.capacity - 1) % d.capacity) ∧
        pslOf (d.entries.set jj { eAt d.entries jj with psl := -1 })
            ((jj + 1) % d.capacity) - 2 ≤
          pslOf (d.entries.set jj { eAt d.entries jj with psl := -1 })
            ((jj + d.capacity - 1) % d.capacity) := by
      intro hq
      by_cases hcap2 : 2 ≤ d.capacity
      · have hsne : (jj + 1) % d.capacity ≠ jj :=
          succ_ne_self d.capacity jj hcap2 hjjlt
        rw [hps1 _ hsne] at hq
        have hold := hwf.hb ((jj + 1) % d.capacity) (Nat.mod_lt _ hcap) (by omega)
        rw [pred_self d.capacity jj hjjlt] at hold
        have hjj1 : 1 ≤ pslOf d.entries jj := by
          have := hold.2
          omega
        have hold2 := hwf.hb jj hjjlt hjj1
        have hpne : (jj + d.capacity - 1) % d.capacity ≠ jj :=
          pred_ne_self d.capacity jj hcap2 hjjlt
        rw [hps1 _ hsne, hps1 _ hpne]
        refine ⟨hold2.1, ?_⟩
        have h3 := hold2.2
        have h4 := hold.2
        omega
      · exfalso
        have hcap1 : d.capacity = 1 := by omega
        have hjj0 : jj = 0 := by omega
        have hsj : (jj + 1) % d.capacity = jj := by rw [hjj0, hcap1]
        rw [hsj] at hq
        omega
    have hcnt : countOcc d.entries < d.capacity := by
      have h1 := hwf.hload
      have h2 := hwf.hsize
      omega
    obtain ⟨e, helt, hepsl⟩ := countOcc_lt_of_not_all d.capacity d.entries
      hwf.hlen hcnt
    have hejj : e ≠ jj := by
      intro hc
      rw [hc] at hepsl
      omega
    have hsi := sent_inv d.capacity jj e hcap helt
    rw [Nat.mod_eq_of_lt hjjlt] at hsi
    have hx1 : ∃ t, 1 ≤ t ∧ t < d.capacity ∧
        pslOf (d.entries.set jj { eAt d.entries jj with psl := -1 })
          ((jj + t) % d.capacity) ≤ 0 := by
      refine ⟨(e + d.capacity - jj) % d.capacity, ?_, Nat.mod_lt _ hcap, ?_⟩
      · by_contra hlt
        push_neg at hlt
        have ht0 : (e + d.capacity - jj) % d.capacity = 0 := by omega
        rw [ht0, Nat.add_zero, Nat.mod_eq_of_lt hjjlt] at hsi
        exact hejj hsi.symm
      · rw [hsi, hps1 e hejj]
        omega
    have hout := shift_spec hashF d.capacity jj hjjlt (d.capacity - 1) 1
      (d.entries.set jj { eAt d.entries jj with psl := -1 }) jj
      (by omega) (by omega) (by simp [Nat.mod_eq_of_lt hjjlt])
      hlen1 hsent1 hhok1 hempty1 hbex1 hh1 hx1
    -- multiset accounting of the vacated slot
    have hpq := occPairs_set d.entries jj
      { eAt d.entries jj with psl := -1 } hjjlen
    rw [pm_occ _ (by rw [pslOf] at hjjo; exact hjjo),
      pm_empty _ (by show (-1 : Int) < 0; norm_num), add_zero] at hpq
    have hpk : pairOf (eAt d.entries jj) = (k, (eAt d.entries jj).value) := by
      rw [pairOf, hjjkey]
    rw [hpk] at hpq
    have hpairs2 : (occPairsL (shiftFrom d.capacity jj jj 1 (d.capacity - 1)
          (d.entries.set jj { eAt d.entries jj with psl := -1 })) :
            Multiset (K × V)) + {(k, (eAt d.entries jj).value)} =
        (occPairsL d.entries : Multiset (K × V)) := by
      rw [hout.hpairs]
      exact hpq
    have hcard : countOcc (shiftFrom d.capacity jj jj 1 (d.capacity - 1)
          (d.entries.set jj { eAt d.entries jj with psl := -1 })) + 1 =
        countOcc d.entries := by
      have hc := congrArg Multiset.card hpairs2
      rw [Multiset.card_add, Multiset.card_singleton, countOcc_coe,
        countOcc_coe] at hc
      exact hc
    have hkeq : (occKeysL (shiftFrom d.capacity jj jj 1 (d.capacity - 1)
          (d.entries.set jj { eAt d.entries jj with psl := -1 })) :
            Multiset K) + {k} = (occKeysL d.entries : Multiset K) := by
      rw [occKeys_coe, occKeys_coe, ← hpairs2, Multiset.map_add]
      congr 1
    have hnd : (occKeysL d.entries : Multiset K).Nodup :=
      Multiset.coe_nodup.mpr hwf.huniq
    have hknotin : k ∉ occKeysL (shiftFrom d.capacity jj jj 1 (d.capacity - 1)
        (d.entries.set jj { eAt d.entries jj with psl := -1 })) := by
      intro hkin
      have hc1 : 1 ≤ Multiset.count k
          ((occKeysL (shiftFrom d.capacity jj jj 1 (d.capacity - 1)
            (d.entries.set jj { eAt d.entries jj with psl := -1 })) :
              Multiset K)) :=
        Multiset.one_le_count_iff_mem.mpr (Multiset.mem_coe.mpr hkin)
      have hc2 := Multiset.nodup_iff_count_le_one.mp hnd k
      have hc3 := congrArg (Multiset.count k) hkeq
      rw [Multiset.count_add, Multiset.count_singleton_self] at hc3
      have := hc2
      omega
    have hnd2 : (occKeysL (shiftFrom d.capacity jj jj 1 (d.capacity - 1)
        (d.entries.set jj { eAt d.entries jj with psl := -1 }))).Nodup := by
      rw [← Multiset.coe_nodup]
      exact Multiset.nodup_of_le
        (Multiset.le_iff_exists_add.mpr ⟨{k}, hkeq.symm⟩) hnd
    have hrun : removeOpt hashF d k = some
        (⟨shiftFrom d.capacity jj jj 1 (d.capacity - 1)
            (d.entries.set jj { eAt d.entries jj with psl := -1 }),
          d.capacity, d.size - 1⟩, true) := by
      simp only [removeOpt, modIdx, if_neg (show ¬ d.capacity = 0 by omega)]
      rw [hfound]
    refine ⟨⟨shiftFrom d.capacity jj jj 1 (d.capacity - 1)
        (d.entries.set jj { eAt d.entries jj with psl := -1 }),
      d.capacity, d.size - 1⟩, true, hrun, ?_, rfl, ?_, ?_, ?_⟩
    · refine ⟨hout.hlen, hout.hsent, hout.hb, hout.hhok, hnd2, ?_, ?_⟩
      · show d.size - 1 = countOcc (shiftFrom d.capacity jj jj 1 (d.capacity - 1)
          (d.entries.set jj { eAt d.entries jj with psl := -1 }))
        have hs := hwf.hsize
        omega
      · show 4 * (d.size - 1) ≤ 3 * d.capacity
        have := hwf.hload
        omega
    · exact ⟨fun _ => hmem, fun _ => rfl⟩
    · intro hcontra
      exact absurd hcontra (by simp)
    · intro _
      refine ⟨?_, hknotin, (eAt d.entries jj).value, ?_, hpairs2⟩
      · show (d.size - 1) + 1 = d.size
        have hs := hwf.hsize
        omega
      · have := pair_mem_occPairs d.entries jj hjjlen hjjo
        rwa [hpk] at this
  · -- key absent: the search fails and nothing changes
    have hnone := searchFrom_none d.capacity (hashF k % d.capacity) (hashF k) k
      d.entries hcap
      (fun j hj ho hk2 => hmem (hk2 ▸ key_mem_occKeys d.entries j
        (by rw [hwf.hlen]; exact hj) ho))
      d.capacity 0
    refine ⟨d, false, ?_, hwf, rfl, ?_, fun _ => rfl, ?_⟩
    · simp only [removeOpt, modIdx, if_neg (show ¬ d.capacity = 0 by omega)]
      rw [hnone]
    · simp [hmem]
    · intro hcontra
      exact absurd hcontra (by simp)

/-- Membership in the occupied pairs produces a witnessing slot. -/
theorem occPair_slot (es : List (Entry K V)) (p : K × V) (hp : p ∈ occPairsL es) :
    ∃ j, j < es.length ∧ 0 ≤ pslOf es j ∧ (eAt es j).key = p.1 ∧
      (eAt es j).value = p.2 := by
  obtain ⟨e, hef, hek⟩ := List.mem_map.mp hp
  obtain ⟨hee, heb⟩ := List.mem_filter.mp hef
  obtain ⟨i, hi⟩ := List.mem_iff_get.mp hee
  refine ⟨i.1, i.2, ?_, ?_, ?_⟩
  · rw [pslOf, eAt_eq_get es i.1 i.2, hi, ← occB_iff]
    exact heb
  · rw [eAt_eq_get es i.1 i.2, hi, ← hek]
    rfl
  · rw [eAt_eq_get es i.1 i.2, hi, ← hek]
    rfl

/-- `get` on a stored pair returns its value, for every default. -/
theorem getOpt_present (hashF : K → Nat) (d : Dict K V) (k : K) (vk dflt : V)
    (hcap : 0 < d.capacity) (hwf : WF hashF d)
    (hmem : ((k, vk) : K × V) ∈ occPairsL d.entries) :
    getOpt hashF d k dflt = some vk := by
  obtain ⟨jj, hjl, hjo, hjk, hjv⟩ := occPair_slot d.entries (k, vk) hmem
  have hjjlt : jj < d.capacity := by rw [← hwf.hlen]; exact hjl
  have huq : ∀ j, j < d.capacity → 0 ≤ pslOf d.entries j →
      (eAt d.entries j).key = k → j = jj := by
    intro j hj ho hk2
    exact nodup_unique_slot d.entries hwf.huniq j jj (by rw [hwf.hlen]; exact hj)
      hjl ho hjo (by rw [hk2, hjk])
  have hfound := searchFrom_found hashF d.capacity d.entries k hcap hwf.hsent
    hwf.hb hwf.hhok jj hjjlt hjo hjk huq
  simp only [getOpt, modIdx, if_neg (show ¬ d.capacity = 0 by omega)]
  rw [hfound]
  show some (eAt d.entries jj).value = some vk
  rw [hjv]

/-- `get` on an absent key returns the default. -/
theorem getOpt_absent (hashF : K → Nat) (d : Dict K V) (k : K) (dflt : V)
    (hcap : 0 < d.capacity) (hlen : d.entries.length = d.capacity)
    (hmem : k ∉ occKeysL d.entries) :
    getOpt hashF d k dflt = some dflt := by
  have hnone := searchFrom_none d.capacity (hashF k % d.capacity) (hashF k) k
    d.entries hcap (fun j hj ho hk2 => hmem (hk2 ▸ key_mem_occKeys d.entries j
      (by rw [hlen]; exact hj) ho)) d.capacity 0
  simp only [getOpt, modIdx, if_neg (show ¬ d.capacity = 0 by omega)]
  rw [hnone]

/-- `get_ptr` on a stored pair aliases its value. -/
theorem getPtrOpt_present (hashF : K → Nat) (d : Dict K V) (k : K) (vk : V)
    (hcap : 0 < d.capacity) (hwf : WF hashF d)
    (hmem : ((k, vk) : K × V) ∈ occPairsL d.entries) :
    getPtrOpt hashF d k = some (some vk) := by
  obtain ⟨jj, hjl, hjo, hjk, hjv⟩ := occPair_slot d.entries (k, vk) hmem
  have hjjlt : jj < d.capacity := by rw [← hwf.hlen]; exact hjl
  have huq : ∀ j, j < d.capacity → 0 ≤ pslOf d.entries j →
      (eAt d.entries j).key = k → j = jj := by
    intro j hj ho hk2
    exact nodup_unique_slot d.entries hwf.huniq j jj (by rw [hwf.hlen]; exact hj)
      hjl ho hjo (by rw [hk2, hjk])
  have hfound := searchFrom_found hashF d.capacity d.entries k hcap hwf.hsent
    hwf.hb hwf.hhok jj hjjlt hjo hjk huq
  simp only [getPtrOpt, modIdx, if_neg (show ¬ d.capacity = 0 by omega)]
  rw [hfound]
  show some (some (eAt d.entries jj).value) = some (some vk)
  rw [hjv]

/-- `get_ptr` on an absent key returns NULL. -/
theorem getPtrOpt_absent (hashF : K → Nat) (d : Dict K V) (k : K)
    (hcap : 0 < d.capacity) (hlen : d.entries.length = d.capacity)
    (hmem : k ∉ occKeysL d.entries) :
    getPtrOpt hashF d k = some none := by
  have hnone := searchFrom_none d.capacity (hashF k % d.capacity) (hashF k) k
    d.entries hcap (fun j hj ho hk2 => hmem (hk2 ▸ key_mem_occKeys d.entries j
      (by rw [hlen]; exact hj) ho)) d.capacity 0
  simp only [getPtrOpt, modIdx, if_neg (show ¬ d.capacity = 0 by omega)]
  rw [hnone]
  rfl

/-- `contains` on a stored key returns `true`. -/
theorem containsOpt_present (hashF : K → Nat) (d : Dict K V) (k : K)
    (hcap : 0 < d.capacity) (hwf : WF hashF d)
    (hmem : k ∈ occKeysL d.entries) :
    containsOpt hashF d k = some true := by
  obtain ⟨jj, hjl, hjo, hjk⟩ := occKey_slot d.entries k hmem
  have hjjlt : jj < d.capacity := by rw [← hwf.hlen]; exact hjl
  have huq : ∀ j, j < d.capacity → 0 ≤ pslOf d.entries j →
      (eAt d.entries j).key = k → j = jj := by
    intro j hj ho hk2
    exact nodup_unique_slot d.entries hwf.huniq j jj (by rw [hwf.hlen]; exact hj)
      hjl ho hjo (by rw [hk2, hjk])
  have hfound := searchFrom_found hashF d.capacity d.entries k hcap hwf.hsent
    hwf.hb hwf.hhok jj hjjlt hjo hjk huq
  simp only [containsOpt, modIdx, if_neg (show ¬ d.capacity = 0 by omega)]
  rw [hfound]
  rfl

/-- `contains` on an absent key returns `false`. -/
theorem containsOpt_absent (hashF : K → Nat) (d : Dict K V) (k : K)
    (hcap : 0 < d.capacity) (hlen : d.entries.length = d.capacity)
    (hmem : k ∉ occKeysL d.entries) :
    containsOpt hashF d k = some false := by
  have hnone := searchFrom_none d.capacity (hashF k % d.capacity) (hashF k) k
    d.entries hcap (fun j hj ho hk2 => hmem (hk2 ▸ key_mem_occKeys d.entries j
      (by rw [hlen]; exact hj) ho)) d.capacity 0
  simp only [containsOpt, modIdx, if_neg (show ¬ d.capacity = 0 by omega)]
  rw [hnone]
  rfl

theorem eAt_map (f : Entry K V → Entry K V) (es : List (Entry K V)) (i : Nat)
    (h : i < es.length) : eAt (es.map f) i = f (eAt es i) := by
  rw [eAt_eq_get _ i (by simpa using h), eAt_eq_get _ i h]
  simp

/-- `clear` keeps the capacity, empties every slot, and leaves a
well-formed table of size `0` with no stored pairs. -/
theorem clear_spec (hashF : K → Nat) (d : Dict K V)
    (hlen : d.entries.length = d.capacity) (hsent : SentA d.capacity d.entries) :
    WF hashF (clear d) ∧ (clear d).capacity = d.capacity ∧
      (clear d).size = 0 ∧ occPairsL (clear d).entries = [] := by
  have hnocc : ∀ e ∈ (clear d).entries, ¬ occB e = true := by
    intro e he
    obtain ⟨x, _, hxe⟩ := List.mem_map.mp he
    rw [← hxe, occB_iff]
    by_cases hx : x.psl < 0
    · rw [if_pos hx]
      omega
    · rw [if_neg hx]
      show ¬ (0 : Int) ≤ -1
      norm_num
  have hfilt : (clear d).entries.filter occB = [] := by
    rw [List.filter_eq_nil_iff]
    exact hnocc
  have hemp : ∀ i, i < d.capacity → pslOf (clear d).entries i = -1 := by
    intro i hi
    show pslOf (d.entries.map _) i = -1
    rw [pslOf, eAt_map _ _ i (by rw [hlen]; exact hi)]
    by_cases hx : (eAt d.entries i).psl < 0
    · rw [if_pos hx]
      exact (hsent i hi).2 (by rw [pslOf]; exact hx)
    · rw [if_neg hx]
  refine ⟨⟨?_, ?_, ?_, ?_, ?_, ?_, ?_⟩, rfl, rfl, ?_⟩
  · show (d.entries.map _).length = d.capacity
    rw [List.length_map]
    exact hlen
  · intro i hi
    rw [hemp i hi]
    refine ⟨fun hc => absurd hc (by norm_num), fun _ => rfl⟩
  · intro i hi h1
    rw [hemp i hi] at h1
    exact absurd h1 (by norm_num)
  · intro i hi ho
    rw [hemp i hi] at ho
    exact absurd ho (by norm_num)
  · show (occKeysL (clear d).entries).Nodup
    rw [occKeysL, hfilt]
    exact List.nodup_nil
  · show 0 = countOcc (clear d).entries
    rw [countOcc, hfilt]
    rfl
  · show 4 * 0 ≤ 3 * d.capacity
    omega
  · rw [occPairsL, hfilt]
    rfl

/-- The doubling loop of `reserve` terminates once the start is positive
and the fuel covers the gap, returning the first doubling at or above
the requirement. -/
theorem growCap_some : ∀ (f c r : Nat), 1 ≤ c → r ≤ c + f →
    ∃ nc, growCap f c r = some nc ∧ c ≤ nc ∧ r ≤ nc := by
  intro f
  induction f with
  | zero =>
    intro c r hc hr
    refine ⟨c, ?_, le_refl c, by omega⟩
    show (if c < r then none else some c) = some c
    rw [if_neg (by omega)]
  | succ f ih =>
    intro c r hc hr
    by_cases hlt : c < r
    · obtain ⟨nc, h1, h2, h3⟩ := ih (2 * c) r (by omega) (by omega)
      refine ⟨nc, ?_, by omega, h3⟩
      show (if c < r then growCap f (2 * c) r else some c) = some nc
      rw [if_pos hlt]
      exact h1
    · refine ⟨c, ?_, le_refl c, by omega⟩
      show (if c < r then growCap f (2 * c) r else some c) = some c
      rw [if_neg hlt]

/-- `reserve` on a well-formed positive-capacity dictionary succeeds,
preserves the contents and the size, never shrinks, and afterwards the
capacity is at least `4n/3 + 1` — a bound computed from the argument
alone, not from the current size. -/
theorem reserveOpt_spec (hashF : K → Nat) (d : Dict K V) (n : Nat)
    (hcap : 0 < d.capacity) (hwf : WF hashF d) :
    ∃ d2, reserveOpt d n = some d2 ∧ WF hashF d2 ∧ d2.size = d.size ∧
      (occPairsL d2.entries : Multiset (K × V)) = occPairsL d.entries ∧
      d.capacity ≤ d2.capacity ∧ n * 4 / 3 + 1 ≤ d2.capacity := by
  by_cases hlt : d.capacity < n * 4 / 3 + 1
  · obtain ⟨nc, hgrow, hc1, hc2⟩ := growCap_some (n * 4 / 3 + 1) d.capacity
      (n * 4 / 3 + 1) hcap (by omega)
    have hr := resize_WF hashF d nc (by omega) hwf
      (by have := hwf.hload; omega) (by have := hwf.hload; omega)
    refine ⟨resize d nc, ?_, hr.1, hr.2.2.1, hr.2.2.2, ?_, ?_⟩
    · show (if d.capacity < n * 4 / 3 + 1 then
          (growCap (n * 4 / 3 + 1) d.capacity (n * 4 / 3 + 1)).map
            (fun nc => resize d nc)
        else some d) = some (resize d nc)
      rw [if_pos hlt, hgrow]
      rfl
    · rw [hr.2.1]
      omega
    · rw [hr.2.1]
      omega
  · refine ⟨d, ?_, hwf, rfl, rfl, by omega, by omega⟩
    show (if d.capacity < n * 4 / 3 + 1 then
        (growCap (n * 4 / 3 + 1) d.capacity (n * 4 / 3 + 1)).map
          (fun nc => resize d nc)
      else some d) = some d
    rw [if_neg hlt]

/-- Driver folding `set` over a list of pairs, for the bulk-load
scenarios. -/
def setList (hashF : K → Nat) : Dict K V → List (K × V) → Option (Dict K V)
  | d, [] => some d
  | d, (k, v) :: rest =>
    match setOpt hashF d k v with
    | none => none
    | some (d2, _) => setList hashF d2 rest

/-- While the running total stays under the load threshold, a run of
`set` operations never changes the capacity. -/
theorem setList_no_resize (hashF : K → Nat) :
    ∀ (kvs : List (K × V)) (d : Dict K V), 0 < d.capacity → WF hashF d →
      4 * (d.size + kvs.length) ≤ 3 * d.capacity →
      ∃ d2, setList hashF d kvs = some d2 ∧ WF hashF d2 ∧
        d2.capacity = d.capacity ∧ d2.size ≤ d.size + kvs.length := by
  intro kvs
  induction kvs with
  | nil =>
    intro d hcap hwf hm
    exact ⟨d, rfl, hwf, rfl, by omega⟩
  | cons kv rest ih =>
    obtain ⟨k, v⟩ := kv
    intro d hcap hwf hm
    simp only [List.length_cons] at hm
    obtain ⟨d1, b, hset, hwf1, hcap1, hbiff, htrue, hfalse⟩ :=
      setOpt_spec hashF d k v hwf hcap
    have hnog : ¬ 3 * d.capacity < 4 * (d.size + 1) := by omega
    rw [if_neg hnog] at hcap1
    have hsz1 : d1.size ≤ d.size + 1 := by
      cases b with
      | true =>
        have := (htrue rfl).1
        omega
      | false =>
        have := (hfalse rfl).1
        omega
    obtain ⟨d2, hrun2, hwf2, hcap2, hsz2⟩ := ih d1 (by omega) hwf1 (by omega)
    refine ⟨d2, ?_, hwf2, by omega, ?_⟩
    · show (match setOpt hashF d k v with
        | none => none
        | some (d2, _) => setList hashF d2 rest) = some d2
      rw [hset]
      exact hrun2
    · simp only [List.length_cons]
      omega

/-- One step of the iterator scan: it either reports exhaustion with no
occupied slot left, or yields the first occupied slot at or past the
cursor. -/
theorem nextFrom_eq (d : Dict K V) (hlen : d.entries.length = d.capacity) :
    ∀ (steps i : Nat), i + steps = d.capacity →
      (nextFrom d i steps = none ∧ occPairsL (d.entries.drop i) = []) ∨
      ∃ j, i ≤ j ∧ j + 1 ≤ d.capacity ∧
        nextFrom d i steps =
          some ((eAt d.entries j).key, (eAt d.entries j).value, j + 1) ∧
        occPairsL (d.entries.drop i) =
          pairOf (eAt d.entries j) :: occPairsL (d.entries.drop (j + 1)) := by
  intro steps
  induction steps with
  | zero =>
    intro i hi
    left
    refine ⟨rfl, ?_⟩
    rw [List.drop_eq_nil_of_le (by omega)]
    rfl
  | succ steps ih =>
    intro i hi
    have hilt : i < d.capacity := by omega
    have hile : i < d.entries.length := by omega
    have hdrop : d.entries.drop i = eAt d.entries i :: d.entries.drop (i + 1) := by
      rw [List.drop_eq_getElem_cons hile]
      congr 1
      rw [eAt_eq_get d.entries i hile]
      rfl
    by_cases hocc : 0 ≤ (eAt d.entries i).psl
    · right
      refine ⟨i, le_refl i, by omega, ?_, ?_⟩
      · show (if 0 ≤ (eAt d.entries i).psl then
            some ((eAt d.entries i).key, (eAt d.entries i).value, i + 1)
          else nextFrom d (i+1) steps) = _
        rw [if_pos hocc]
      · rw [hdrop, occPairsL_cons, if_pos (occB_iff _ |>.mpr hocc)]
        rfl
    · have hstep : nextFrom d i (steps + 1) = nextFrom d (i+1) steps := by
        show (if 0 ≤ (eAt d.entries i).psl then
            some ((eAt d.entries i).key, (eAt d.entries i).value, i + 1)
          else nextFrom d (i+1) steps) = _
        rw [if_neg hocc]
      have hsame : occPairsL (d.entries.drop i) =
          occPairsL (d.entries.drop (i + 1)) := by
        rw [hdrop, occPairsL_cons,
          if_neg (by rw [occB_iff]; exact fun hc => hocc hc)]
        rfl
      rcases ih (i+1) (by omega) with ⟨h1, h2⟩ | ⟨j, hj1, hj2, h1, h2⟩
      · left
        rw [hstep, hsame]
        exact ⟨h1, h2⟩
      · right
        exact ⟨j, by omega, hj2, by rw [hstep]; exact h1, by rw [hsame]; exact h2⟩

/-- Driving the cursor with enough fuel collects exactly the occupied
pairs from the cursor position on, in physical slot order. -/
theorem runIterFrom_eq (d : Dict K V) (hlen : d.entries.length = d.capacity) :
    ∀ (f i : Nat), i ≤ d.capacity → d.capacity ≤ i + f →
      runIterFrom d i f = occPairsL (d.entries.drop i) := by
  intro f
  induction f with
  | zero =>
    intro i h1 h2
    rw [List.drop_eq_nil_of_le (by omega)]
    rfl
  | succ f ih =>
    intro i h1 h2
    rcases nextFrom_eq d hlen (d.capacity - i) i (by omega) with
      ⟨hn, hp⟩ | ⟨j, hj1, hj2, hn, hp⟩
    · show (match nextFrom d i (d.capacity - i) with
        | none => []
        | some (k, v, i2) => (k, v) :: runIterFrom d i2 f) = _
      rw [hn, hp]
    · show (match nextFrom d i (d.capacity - i) with
        | none => []
        | some (k, v, i2) => (k, v) :: runIterFrom d i2 f) = _
      rw [hn, hp]
      show pairOf (eAt d.entries j) :: runIterFrom d (j + 1) f =
        pairOf (eAt d.entries j) :: occPairsL (d.entries.drop (j + 1))
      congr 1
      exact ih (j+1) (by omega) (by omega)

/-- A fresh `iter()` cursor driven by `next()` to exhaustion yields
exactly the occupied pairs, in physical slot order. -/
theorem runIter_eq (d : Dict K V) (hlen : d.entries.length = d.capacity) :
    runIter d = occPairsL d.entries := by
  rw [runIter, runIterFrom_eq d hlen d.capacity 0 (by omega) (by omega),
    List.drop_zero]

theorem sent_succ (cap b p t : Nat) (hcap : 0 < cap) (hb : b < cap)
    (hp : p < cap) (ht : (p + cap - b) % cap = t) (ht1 : t + 1 < cap) :
    ((p + 1) % cap + cap - b) % cap = t + 1 := by
  have h1 : (p + 1) % cap + cap - b = (p + 1) % cap + (cap - b) := by omega
  rw [h1, Nat.mod_add_mod]
  have h2 : p + 1 + (cap - b) = (p + cap - b) + 1 := by omega
  rw [h2]
  have hdm := Nat.div_add_mod (p + cap - b) cap
  have h3 : p + cap - b + 1 = cap * ((p + cap - b) / cap) + (t + 1) := by omega
  rw [h3, Nat.mul_add_mod]
  exact Nat.mod_eq_of_lt ht1

/-- Writing an entry that satisfies the placement formula preserves the
sentinel/placement invariant alone. -/
theorem sent_place (cap : Nat) (es : List (Entry K V)) (p : Nat) (a : Entry K V)
    (hlen : es.length = cap) (hsent : SentA cap es) (hp : p < cap)
    (ha : a.psl = (((p + cap - a.hash % cap) % cap : Nat) : Int)) :
    SentA cap (es.set p a) := by
  intro j hj
  by_cases hjp : j = p
  · rw [hjp, pslOf, eAt_set_self es p a (by omega)]
    constructor
    · intro _
      exact ha
    · intro hq
      rw [ha] at hq
      exfalso
      omega
  · rw [pslOf, eAt_set_other es p j a (fun hh2 => hjp hh2.symm)]
    have := hsent j hj
    rw [pslOf] at this
    exact this

/-- Writing a sentinel entry preserves the sentinel/placement invariant. -/
theorem sent_place_empty (cap : Nat) (es : List (Entry K V)) (p : Nat)
    (a : Entry K V) (hlen : es.length = cap) (hsent : SentA cap es)
    (hp : p < cap) (ha : a.psl = -1) : SentA cap (es.set p a) := by
  intro j hj
  by_cases hjp : j = p
  · rw [hjp, pslOf, eAt_set_self es p a (by omega), ha]
    refine ⟨fun hc => absurd hc (by norm_num), fun _ => rfl⟩
  · rw [pslOf, eAt_set_other es p j a (fun hh2 => hjp hh2.symm)]
    have := hsent j hj
    rw [pslOf] at this
    exact this

/-- The reinsertion loop preserves length and the sentinel/placement
invariant, with no load-factor assumption: this holds even when the
table is too small and the carried entry is eventually dropped. -/
theorem insFrom_A (cap idx : Nat) (hcap : 0 < cap) :
    ∀ (steps i : Nat) (es : List (Entry K V)) (e : Entry K V),
      i + steps = cap → es.length = cap → SentA cap es →
      e.psl ≤ (i : Int) →
      (i < cap → e.psl =
        ((((idx + i) % cap + cap - e.hash % cap) % cap : Nat) : Int)) →
      (insFrom cap idx i steps es e).1.length = cap ∧
        SentA cap (insFrom cap idx i steps es e).1 := by
  intro steps
  induction steps with
  | zero =>
    intro i es e _ hlen hsent _ _
    exact ⟨hlen, hsent⟩
  | succ steps ih =>
    intro i es e hic hlen hsent hei hcong
    have hilt : i < cap := by omega
    have hplt : (idx + i) % cap < cap := probe_lt cap idx i hcap
    have hfor := hcong hilt
    have hsprobe : (idx + (i + 1)) % cap = ((idx + i) % cap + 1) % cap := by
      rw [Nat.mod_add_mod]
      rfl
    simp only [insFrom]
    by_cases h1 : (eAt es ((idx + i) % cap)).psl < 0
    · rw [if_pos h1]
      exact ⟨by rw [List.length_set]; exact hlen,
        sent_place cap es _ e hlen hsent hplt hfor⟩
    · rw [if_neg h1]
      by_cases h2 : (eAt es ((idx + i) % cap)).psl < e.psl
      · rw [if_pos h2]
        have hrfor := (hsent _ hplt).1 (by rw [pslOf]; omega)
        rw [pslOf] at hrfor
        have hrlt : ((idx + i) % cap + cap -
            (eAt es ((idx + i) % cap)).hash % cap) % cap + 1 < cap := by
          have hcast : (((( idx + i) % cap + cap -
              (eAt es ((idx + i) % cap)).hash % cap) % cap : Nat) : Int) <
              (i : Int) := by
            rw [← hrfor]
            omega
          have := Int.ofNat_lt.mp hcast
          omega
        refine ih (i+1) (es.set ((idx + i) % cap) e)
          { eAt es ((idx + i) % cap) with
            psl := (eAt es ((idx + i) % cap)).psl + 1 }
          (by omega) (by rw [List.length_set]; exact hlen)
          (sent_place cap es _ e hlen hsent hplt hfor) ?_ ?_
        · show (eAt es ((idx + i) % cap)).psl + 1 ≤ ((i + 1 : Nat) : Int)
          push_cast
          omega
        · intro _
          show (eAt es ((idx + i) % cap)).psl + 1 =
            (((((idx + (i+1)) % cap) + cap -
              (eAt es ((idx + i) % cap)).hash % cap) % cap : Nat) : Int)
          rw [hsprobe, sent_succ cap ((eAt es ((idx + i) % cap)).hash % cap)
            ((idx + i) % cap) _ hcap (Nat.mod_lt _ hcap) hplt rfl hrlt]
          rw [hrfor]
          push_cast
          omega
      · rw [if_neg h2]
        have heNat : e.psl =
            (((((idx + i) % cap) + cap - e.hash % cap) % cap : Nat) : Int) := hfor
        refine ih (i+1) es { e with psl := e.psl + 1 } (by omega) hlen hsent ?_ ?_
        · show e.psl + 1 ≤ ((i + 1 : Nat) : Int)
          push_cast
          omega
        · intro hi1
          show e.psl + 1 =
            (((((idx + (i+1)) % cap) + cap - e.hash % cap) % cap : Nat) : Int)
          have helt : ((idx + i) % cap + cap - e.hash % cap) % cap + 1 < cap := by
            have hcast : (((((idx + i) % cap) + cap - e.hash % cap) % cap :
                Nat) : Int) ≤ (i : Int) := by
              rw [← heNat]
              exact hei
            have := Int.ofNat_le.mp hcast
            omega
          rw [hsprobe, sent_succ cap (e.hash % cap) ((idx + i) % cap) _ hcap
            (Nat.mod_lt _ hcap) hplt rfl helt]
          rw [heNat]
          push_cast
          omega

/-- The `set` probing loop preserves length and the sentinel/placement
invariant, with no load-factor assumption. -/
theorem setFrom_A (cap idx h : Nat) (k : K) (v : V) (hcap : 0 < cap) :
    ∀ (steps i : Nat) (es : List (Entry K V)) (e : Entry K V),
      i + steps = cap → es.length = cap → SentA cap es →
      e.psl ≤ (i : Int) →
      (i < cap → e.psl =
        ((((idx + i) % cap + cap - e.hash % cap) % cap : Nat) : Int)) →
      (setFrom cap idx h k v i steps es e).1.length = cap ∧
        SentA cap (setFrom cap idx h k v i steps es e).1 := by
  intro steps
  induction steps with
  | zero =>
    intro i es e _ hlen hsent _ _
    exact ⟨hlen, hsent⟩
  | succ steps ih =>
    intro i es e hic hlen hsent hei hcong
    have hilt : i < cap := by omega
    have hplt : (idx + i) % cap < cap := probe_lt cap idx i hcap
    have hfor := hcong hilt
    have hsprobe : (idx + (i + 1)) % cap = ((idx + i) % cap + 1) % cap := by
      rw [Nat.mod_add_mod]
      rfl
    simp only [setFrom]
    by_cases h1 : (eAt es ((idx + i) % cap)).psl < 0
    · rw [if_pos h1]
      exact ⟨by rw [List.length_set]; exact hlen,
        sent_place cap es _ e hlen hsent hplt hfor⟩
    · rw [if_neg h1]
      by_cases h2 : (eAt es ((idx + i) % cap)).hash = h ∧
          (eAt es ((idx + i) % cap)).key = k
      · rw [if_pos h2]
        refine ⟨by rw [List.length_set]; exact hlen, ?_⟩
        have hrfor := (hsent _ hplt).1 (by rw [pslOf]; omega)
        rw [pslOf] at hrfor
        exact sent_place cap es _ _ hlen hsent hplt hrfor
      · rw [if_neg h2]
        by_cases h3 : (eAt es ((idx + i) % cap)).psl < e.psl
        · rw [if_pos h3]
          have hrfor := (hsent _ hplt).1 (by rw [pslOf]; omega)
          rw [pslOf] at hrfor
          have hrlt : ((idx + i) % cap + cap -
              (eAt es ((idx + i) % cap)).hash % cap) % cap + 1 < cap := by
            have hcast : (((((idx + i) % cap) + cap -
                (eAt es ((idx + i) % cap)).hash % cap) % cap : Nat) : Int) <
                (i : Int) := by
              rw [← hrfor]
              omega
            have := Int.ofNat_lt.mp hcast
            omega
          refine ih (i+1) (es.set ((idx + i) % cap) e)
            { eAt es ((idx + i) % cap) with
              psl := (eAt es ((idx + i) % cap)).psl + 1 }
            (by omega) (by rw [List.length_set]; exact hlen)
            (sent_place cap es _ e hlen hsent hplt hfor) ?_ ?_
          · show (eAt es ((idx + i) % cap)).psl + 1 ≤ ((i + 1 : Nat) : Int)
            push_cast
            omega
          · intro _
            show (eAt es ((idx + i) % cap)).psl + 1 =
              (((((idx + (i+1)) % cap) + cap -
                (eAt es ((idx + i) % cap)).hash % cap) % cap : Nat) : Int)
            rw [hsprobe, sent_succ cap ((eAt es ((idx + i) % cap)).hash % cap)
              ((idx + i) % cap) _ hcap (Nat.mod_lt _ hcap) hplt rfl hrlt]
            rw [hrfor]
            push_cast
            omega
        · rw [if_neg h3]
          refine ih (i+1) es { e with psl := e.psl + 1 } (by omega) hlen hsent
            ?_ ?_
          · show e.psl + 1 ≤ ((i + 1 : Nat) : Int)
            push_cast
            omega
          · intro hi1
            show e.psl + 1 =
              (((((idx + (i+1)) % cap) + cap - e.hash % cap) % cap : Nat) : Int)
            have helt : ((idx + i) % cap + cap - e.hash % cap) % cap + 1 <
                cap := by
              have hcast : (((((idx + i) % cap) + cap - e.hash % cap) % cap :
                  Nat) : Int) ≤ (i : Int) := by
                rw [← hfor]
                exact hei
              have := Int.ofNat_le.mp hcast
              omega
            rw [hsprobe, sent_succ cap (e.hash % cap) ((idx + i) % cap) _ hcap
              (Nat.mod_lt _ hcap) hplt rfl helt]
            rw [hfor]
            push_cast
            omega

theorem self_dist_zero (cap h : Nat) (hcap : 0 < cap) :
    ((h % cap + 0) % cap + cap - h % cap) % cap = 0 := by
  rw [Nat.add_zero, Nat.mod_eq_of_lt (Nat.mod_lt _ hcap),
    show h % cap + cap - h % cap = cap from by omega, Nat.mod_self]

/-- The resize fold preserves the sentinel/placement invariant for any
positive target capacity, however small. -/
theorem resize_fold_A (n : Nat) (hn : 0 < n) :
    ∀ (olds : List (Entry K V)) (nd : Dict K V),
      nd.capacity = n → nd.entries.length = n → SentA n nd.entries →
      (olds.foldl (fun nd old =>
          if old.psl < 0 then nd
          else
            let idx := old.hash % nd.capacity
            let p := insFrom nd.capacity idx 0 nd.capacity nd.entries
              { old with psl := 0 }
            { entries := p.1, capacity := nd.capacity
              size := if p.2 then nd.size + 1 else nd.size }) nd).capacity = n ∧
      (olds.foldl (fun nd old =>
          if old.psl < 0 then nd
          else
            let idx := old.hash % nd.capacity
            let p := insFrom nd.capacity idx 0 nd.capacity nd.entries
              { old with psl := 0 }
            { entries := p.1, capacity := nd.capacity
              size := if p.2 then nd.size + 1 else nd.size }) nd).entries.length
        = n ∧
      SentA n ((olds.foldl (fun nd old =>
          if old.psl < 0 then nd
          else
            let idx := old.hash % nd.capacity
            let p := insFrom nd.capacity idx 0 nd.capacity nd.entries
              { old with psl := 0 }
            { entries := p.1, capacity := nd.capacity
              size := if p.2 then nd.size + 1 else nd.size }) nd).entries) := by
  intro olds
  induction olds with
  | nil =>
    intro nd h1 h2 h3
    exact ⟨h1, h2, h3⟩
  | cons old rest ih =>
    intro nd h1 h2 h3
    simp only [List.foldl_cons]
    by_cases ho : old.psl < 0
    · rw [if_pos ho]
      exact ih nd h1 h2 h3
    · rw [if_neg ho]
      have hcapn : 0 < nd.capacity := by omega
      have hins := insFrom_A nd.capacity (old.hash % nd.capacity) hcapn
        nd.capacity 0 nd.entries { old with psl := 0 } (by omega)
        (by rw [h2, h1]) (by rw [h1]; exact h3)
        (by show (0 : Int) ≤ ((0 : Nat) : Int); norm_num)
        (by
          intro _
          show (0 : Int) = ((((old.hash % nd.capacity + 0) % nd.capacity +
            nd.capacity - old.hash % nd.capacity) % nd.capacity : Nat) : Int)
          rw [self_dist_zero nd.capacity old.hash hcapn]
          norm_num)
      exact ih _ h1 (hins.1.trans h1) (by rw [← h1]; exact hins.2)

/-- `resize` to any positive capacity yields that capacity, a matching
array length, and the sentinel/placement invariant — even when the
target is too small to hold every entry. -/
theorem resize_A (d : Dict K V) (n : Nat) (hn : 0 < n) :
    (resize d n).capacity = n ∧ (resize d n).entries.length = n ∧
      SentA n (resize d n).entries := by
  rw [resize]
  exact resize_fold_A n hn d.entries _ rfl (by simp) (sent_replicate n)

/-- The backward-shift loop preserves length and the sentinel/placement
invariant, with no continuity assumption. -/
theorem shiftFrom_A (cap probe : Nat) (hprobe : probe < cap) :
    ∀ (fuel j : Nat) (es : List (Entry K V)) (emp : Nat),
      1 ≤ j → emp = (probe + (j - 1)) % cap → es.length = cap →
      SentA cap es →
      (shiftFrom cap probe emp j fuel es).length = cap ∧
        SentA cap (shiftFrom cap probe emp j fuel es) := by
  intro fuel
  induction fuel with
  | zero =>
    intro j es emp _ _ hlen hsent
    exact ⟨hlen, hsent⟩
  | succ fuel ih =>
    intro j es emp hj1 hempeq hlen hsent
    have hcap : 0 < cap := by omega
    have hemplt : emp < cap := by
      rw [hempeq]
      exact probe_lt cap probe (j-1) hcap
    have hnxtlt : (probe + j) % cap < cap := probe_lt cap probe j hcap
    simp only [shiftFrom]
    by_cases hstop : (eAt es ((probe + j) % cap)).psl ≤ 0
    · rw [if_pos hstop]
      exact ⟨hlen, hsent⟩
    · rw [if_neg hstop]
      have hr1 : 1 ≤ (eAt es ((probe + j) % cap)).psl := by omega
      have hr0 : 0 ≤ pslOf es ((probe + j) % cap) := by
        rw [pslOf]
        omega
      have hpnat := (hsent ((probe + j) % cap) hnxtlt).1 hr0
      rw [pslOf] at hpnat
      have hpn1 : 1 ≤ ((probe + j) % cap + cap -
          (eAt es ((probe + j) % cap)).hash % cap) % cap := by omega
      have hnxt_eq : (probe + j) % cap = (emp + 1) % cap := by
        rw [hempeq, Nat.mod_add_mod]
        congr 1
        omega
      have hpredn : ((probe + j) % cap + cap - 1) % cap = emp := by
        rw [hnxt_eq]
        exact pred_self cap emp hemplt
      have hsshift := sent_shift cap ((eAt es ((probe + j) % cap)).hash % cap)
        ((probe + j) % cap)
        (((probe + j) % cap + cap -
          (eAt es ((probe + j) % cap)).hash % cap) % cap)
        hcap (Nat.mod_lt _ hcap) hnxtlt rfl hpn1
      rw [hpredn] at hsshift
      have hs1 : SentA cap (es.set emp { eAt es ((probe + j) % cap) with
          psl := (eAt es ((probe + j) % cap)).psl - 1 }) :=
        sent_place cap es emp _ hlen hsent hemplt (by
          show (eAt es ((probe + j) % cap)).psl - 1 =
            (((emp + cap - (eAt es ((probe + j) % cap)).hash % cap) % cap :
              Nat) : Int)
          rw [hsshift, hpnat]
          omega)
      have hs2 : SentA cap ((es.set emp { eAt es ((probe + j) % cap) with
          psl := (eAt es ((probe + j) % cap)).psl - 1 }).set ((probe + j) % cap)
          { eAt es ((probe + j) % cap) with psl := -1 }) :=
        sent_place_empty cap _ ((probe + j) % cap) _
          (by rw [List.length_set]; exact hlen) hs1 hnxtlt rfl
      exact ih (j+1) _ ((probe + j) % cap) (by omega) rfl
        (by rw [List.length_set, List.length_set]; exact hlen) hs2

/-- A successful search reports an occupied in-range slot. -/
theorem searchFrom_occ (cap idx h : Nat) (k : K) (es : List (Entry K V))
    (hcap : 0 < cap) :
    ∀ (steps t p : Nat), searchFrom cap idx h k es t steps = some p →
      p < cap ∧ 0 ≤ pslOf es p := by
  intro steps
  induction steps with
  | zero =>
    intro t p hp
    exact absurd hp (by simp [searchFrom])
  | succ steps ih =>
    intro t p hp
    simp only [searchFrom] at hp
    by_cases h1 : (eAt es ((idx + t) % cap)).psl < 0 ∨
        (eAt es ((idx + t) % cap)).psl < (t : Int)
    · rw [if_pos h1] at hp
      exact absurd hp (by simp)
    · rw [if_neg h1] at hp
      by_cases h2 : (eAt es ((idx + t) % cap)).hash = h ∧
          (eAt es ((idx + t) % cap)).key = k
      · rw [if_pos h2] at hp
        have hpe : p = (idx + t) % cap := (Option.some.inj hp).symm
        push_neg at h1
        refine ⟨by rw [hpe]; exact probe_lt cap idx t hcap, ?_⟩
        rw [hpe, pslOf]
        exact h1.1
      · rw [if_neg h2] at hp
        exact ih (t+1) p hp

/-- `remove` preserves the sentinel/placement invariant on any state
satisfying it. -/
theorem removeOpt_A (hashF : K → Nat) (d : Dict K V) (k : K)
    (hcap : 0 < d.capacity) (hlen : d.entries.length = d.capacity)
    (hsent : SentA d.capacity d.entries) :
    ∃ d2 b, removeOpt hashF d k = some (d2, b) ∧ d2.capacity = d.capacity ∧
      d2.entries.length = d.capacity ∧ SentA d.capacity d2.entries := by
  cases hs : searchFrom d.capacity (hashF k % d.capacity) (hashF k) k d.entries
      0 d.capacity with
  | none =>
    refine ⟨d, false, ?_, rfl, hlen, hsent⟩
    simp only [removeOpt, modIdx, if_neg (show ¬ d.capacity = 0 by omega)]
    rw [hs]
  | some p =>
    obtain ⟨hplt, hpo⟩ := searchFrom_occ d.capacity (hashF k % d.capacity)
      (hashF k) k d.entries hcap d.capacity 0 p hs
    have hs1 : SentA d.capacity (d.entries.set p
        { eAt d.entries p with psl := -1 }) :=
      sent_place_empty d.capacity d.entries p _ hlen hsent hplt rfl
    have hsh := shiftFrom_A d.capacity p hplt (d.capacity - 1) 1
      (d.entries.set p { eAt d.entries p with psl := -1 }) p (by omega)
      (by simp [Nat.mod_eq_of_lt hplt])
      (by rw [List.length_set]; exact hlen) hs1
    refine ⟨⟨shiftFrom d.capacity p p 1 (d.capacity - 1)
        (d.entries.set p { eAt d.entries p with psl := -1 }),
      d.capacity, d.size - 1⟩, true, ?_, rfl, hsh.1, hsh.2⟩
    simp only [removeOpt, modIdx, if_neg (show ¬ d.capacity = 0 by omega)]
    rw [hs]

/-- `set` preserves the sentinel/placement invariant on any state
satisfying it. -/
theorem setOpt_A (hashF : K → Nat) (d : Dict K V) (k : K) (v : V)
    (hcap : 0 < d.capacity) (hlen : d.entries.length = d.capacity)
    (hsent : SentA d.capacity d.entries) :
    ∃ d2 b, setOpt hashF d k v = some (d2, b) ∧ 0 < d2.capacity ∧
      d2.entries.length = d2.capacity ∧ SentA d2.capacity d2.entries := by
  obtain ⟨d1, hd1eq, hcap1, hlen1, hsent1⟩ :
      ∃ d1 : Dict K V, (if 3 * d.capacity < 4 * (d.size + 1) then
          resize d (2 * d.capacity) else d) = d1 ∧ 0 < d1.capacity ∧
        d1.entries.length = d1.capacity ∧ SentA d1.capacity d1.entries := by
    by_cases hg : 3 * d.capacity < 4 * (d.size + 1)
    · obtain ⟨hc, hl, hsA⟩ := resize_A d (2 * d.capacity) (by omega)
      refine ⟨resize d (2 * d.capacity), if_pos hg, by omega,
        hl.trans hc.symm, by rw [hc]; exact hsA⟩
    · exact ⟨d, if_neg hg, hcap, hlen, hsent⟩
  have hset := setFrom_A d1.capacity (hashF k % d1.capacity) (hashF k) k v hcap1
    d1.capacity 0 d1.entries ⟨k, v, hashF k, 0⟩ (by omega) hlen1 hsent1
    (by show (0 : Int) ≤ ((0 : Nat) : Int); norm_num)
    (by
      intro _
      show (0 : Int) = ((((hashF k % d1.capacity + 0) % d1.capacity +
        d1.capacity - hashF k % d1.capacity) % d1.capacity : Nat) : Int)
      rw [self_dist_zero d1.capacity (hashF k) hcap1]
      norm_num)
  refine ⟨⟨(setFrom d1.capacity (hashF k % d1.capacity) (hashF k) k v 0
      d1.capacity d1.entries ⟨k, v, hashF k, 0⟩).1, d1.capacity,
    if (setFrom d1.capacity (hashF k % d1.capacity) (hashF k) k v 0
      d1.capacity d1.entries ⟨k, v, hashF k, 0⟩).2 then d1.size + 1
    else d1.size⟩,
    (setFrom d1.capacity (hashF k % d1.capacity) (hashF k) k v 0
      d1.capacity d1.entries ⟨k, v, hashF k, 0⟩).2, ?_, hcap1, hset.1, hset.2⟩
  simp only [setOpt, hd1eq, modIdx, if_neg (show ¬ d1.capacity = 0 by omega)]

/-- `create` yields a well-formed empty table of the requested capacity
(which may be `0`; well-formedness does not exclude it). -/
theorem create_WF (hashF : K → Nat) (cap : Nat) :
    WF hashF (create cap : Dict K V) ∧ (create cap : Dict K V).capacity = cap ∧
      (create cap : Dict K V).size = 0 := by
  have hfilt : (List.replicate cap (⟨default, default, 0, -1⟩ :
      Entry K V)).filter occB = [] := by
    rw [List.filter_eq_nil_iff]
    intro e he
    rw [List.eq_of_mem_replicate he]
    simp [occB]
  refine ⟨⟨?_, sent_replicate cap, bprev_replicate cap, hok_replicate hashF cap,
    ?_, ?_, ?_⟩, rfl, rfl⟩
  · show (List.replicate cap _).length = cap
    simp
  · show (occKeysL (List.replicate cap _)).Nodup
    rw [occKeysL, hfilt]
    exact List.nodup_nil
  · show 0 = countOcc (List.replicate cap _)
    rw [countOcc, hfilt]
    rfl
  · show 4 * 0 ≤ 3 * cap
    omega

/-- Executable well-formedness checker, used to establish `WF` on
concrete dictionaries by evaluation. -/
def WFB (hashF : K → Nat) (d : Dict K V) : Bool :=
  decide (d.entries.length = d.capacity) &&
  ((List.range d.capacity).all (fun i =>
    (if 0 ≤ pslOf d.entries i then
      decide (pslOf d.entries i =
        (((i + d.capacity - (eAt d.entries i).hash % d.capacity) % d.capacity :
          Nat) : Int)) &&
      decide ((eAt d.entries i).hash = hashF (eAt d.entries i).key)
    else decide (pslOf d.entries i = -1)) &&
    (if 1 ≤ pslOf d.entries i then
      decide (0 ≤ pslOf d.entries ((i + d.capacity - 1) % d.capacity)) &&
      decide (pslOf d.entries i - 1 ≤
        pslOf d.entries ((i + d.capacity - 1) % d.capacity))
    else true))) &&
  decide ((occKeysL d.entries).Nodup) &&
  decide (d.size = countOcc d.entries) &&
  decide (4 * d.size ≤ 3 * d.capacity)

theorem WF_of_WFB (hashF : K → Nat) (d : Dict K V) (h : WFB hashF d = true) :
    WF hashF d := by
  rw [WFB] at h
  simp only [Bool.and_eq_true, List.all_eq_true, decide_eq_true_eq] at h
  obtain ⟨⟨⟨⟨hlen, hall⟩, hnd⟩, hsz⟩, hload⟩ := h
  refine ⟨hlen, ?_, ?_, ?_, hnd, hsz, hload⟩
  · intro i hi
    have h2 := hall i (List.mem_range.mpr hi)
    have h3 := h2.1
    constructor
    · intro ho
      rw [if_pos ho, Bool.and_eq_true, decide_eq_true_eq,
        decide_eq_true_eq] at h3
      exact h3.1
    · intro ho
      rw [if_neg (by omega), decide_eq_true_eq] at h3
      exact h3
  · intro i hi h1
    have h2 := hall i (List.mem_range.mpr hi)
    have h3 := h2.2
    rw [if_pos h1, Bool.and_eq_true, decide_eq_true_eq, decide_eq_true_eq] at h3
    exact h3
  · intro i hi ho
    have h2 := hall i (List.mem_range.mpr hi)
    have h3 := h2.1
    rw [if_pos ho, Bool.and_eq_true, decide_eq_true_eq, decide_eq_true_eq] at h3
    exact h3.2

/-- States reachable through the public mutating surface from a
positive-capacity creation. -/
inductive Reachable (hashF : K → Nat) : Dict K V → Prop where
  | create (cap : Nat) (h : 0 < cap) : Reachable hashF (create cap)
  | set (d d2 : Dict K V) (k : K) (v : V) (b : Bool) (hd : Reachable hashF d)
      (h : setOpt hashF d k v = some (d2, b)) : Reachable hashF d2
  | remove (d d2 : Dict K V) (k : K) (b : Bool) (hd : Reachable hashF d)
      (h : removeOpt hashF d k = some (d2, b)) : Reachable hashF d2
  | clearStep (d : Dict K V) (hd : Reachable hashF d) : Reachable hashF (clear d)
  | reserve (d d2 : Dict K V) (n : Nat) (hd : Reachable hashF d)
      (h : reserveOpt d n = some d2) : Reachable hashF d2

/-- Every reachable state is well-formed with positive capacity; in
particular the load factor stays at most 3/4 after every mutating call. -/
theorem reachable_WF (hashF : K → Nat) (d : Dict K V)
    (h : Reachable hashF d) : WF hashF d ∧ 0 < d.capacity := by
  induction h with
  | create cap hc =>
    obtain ⟨hwf, hcap, _⟩ := create_WF (K := K) (V := V) hashF cap
    exact ⟨hwf, by rw [hcap]; exact hc⟩
  | set d d2 k v b hd h ih =>
    obtain ⟨d2x, bx, heq, hwf2, hcap2, _, _, _⟩ :=
      setOpt_spec hashF d k v ih.1 ih.2
    have hd2 : d2x = d2 :=
      congrArg Prod.fst (Option.some.inj (heq.symm.trans h))
    rw [← hd2]
    refine ⟨hwf2, ?_⟩
    rw [hcap2]
    have := ih.2
    split <;> omega
  | remove d d2 k b hd h ih =>
    obtain ⟨d2x, bx, heq, hwf2, hcap2, _, _, _⟩ :=
      removeOpt_spec hashF d k ih.2 ih.1
    have hd2 : d2x = d2 :=
      congrArg Prod.fst (Option.some.inj (heq.symm.trans h))
    rw [← hd2]
    exact ⟨hwf2, by rw [hcap2]; exact ih.2⟩
  | clearStep d hd ih =>
    obtain ⟨hwf2, hcap2, _, _⟩ := clear_spec hashF d ih.1.hlen ih.1.hsent
    exact ⟨hwf2, by rw [hcap2]; exact ih.2⟩
  | reserve d d2 n hd h ih =>
    obtain ⟨d2x, heq, hwf2, _, _, hge, _⟩ := reserveOpt_spec hashF d n ih.2 ih.1
    have hd2 : d2x = d2 := Option.some.inj (heq.symm.trans h)
    rw [← hd2]
    have := ih.2
    exact ⟨hwf2, by omega⟩

/-- States reachable through `set`, `remove`, `clear` and `resize` with
an arbitrary positive target capacity — the alphabet under which only
the sentinel/placement invariant is claimed. -/
inductive Reachable6 (hashF : K → Nat) : Dict K V → Prop where
  | create (cap : Nat) (h : 0 < cap) : Reachable6 hashF (create cap)
  | set (d d2 : Dict K V) (k : K) (v : V) (b : Bool) (hd : Reachable6 hashF d)
      (h : setOpt hashF d k v = some (d2, b)) : Reachable6 hashF d2
  | remove (d d2 : Dict K V) (k : K) (b : Bool) (hd : Reachable6 hashF d)
      (h : removeOpt hashF d k = some (d2, b)) : Reachable6 hashF d2
  | clearStep (d : Dict K V) (hd : Reachable6 hashF d) :
      Reachable6 hashF (clear d)
  | resizeStep (d : Dict K V) (n : Nat) (hn : 0 < n) (hd : Reachable6 hashF d) :
      Reachable6 hashF (resize d n)

theorem reachable6_A (hashF : K → Nat) (d : Dict K V) (h : Reachable6 hashF d) :
    0 < d.capacity ∧ d.entries.length = d.capacity ∧
      SentA d.capacity d.entries := by
  induction h with
  | create cap hc =>
    refine ⟨hc, ?_, sent_replicate cap⟩
    show (List.replicate cap _).length = cap
    simp
  | set d d2 k v b hd h ih =>
    obtain ⟨hc, hl, hs⟩ := ih
    obtain ⟨d2x, bx, heq, h1, h2, h3⟩ := setOpt_A hashF d k v hc hl hs
    have hd2 : d2x = d2 :=
      congrArg Prod.fst (Option.some.inj (heq.symm.trans h))
    rw [← hd2]
    exact ⟨h1, h2, h3⟩
  | remove d d2 k b hd h ih =>
    obtain ⟨hc, hl, hs⟩ := ih
    obtain ⟨d2x, bx, heq, h1, h2, h3⟩ := removeOpt_A hashF d k hc hl hs
    have hd2 : d2x = d2 :=
      congrArg Prod.fst (Option.some.inj (heq.symm.trans h))
    rw [← hd2]
    exact ⟨by rw [h1]; exact hc, by rw [h1]; exact h2, by rw [h1]; exact h3⟩
  | clearStep d hd ih =>
    obtain ⟨hc, hl, hs⟩ := ih
    obtain ⟨hwf2, hcap2, _, _⟩ := clear_spec hashF d hl hs
    exact ⟨by rw [hcap2]; exact hc, hwf2.hlen, hwf2.hsent⟩
  | resizeStep d n hn hd ih =>
    obtain ⟨hc, hl, hsA⟩ := resize_A d n hn
    exact ⟨by rw [hc]; exact hn, hl.trans hc.symm, by rw [hc]; exact hsA⟩

/-- `NAME##_set` of the generic header (part_000) with the
`COPY_KEY_FN` capability made explicit: the copy result is written into
the carried entry before the probing loop and is never checked against
NULL.  With `copyKeyF = id` this is exactly `setOpt`; a failed copy
(e.g. `none` over an `Option` key type, modelling a NULL `strdup`
result) is carried and inserted like any other key, while the
comparisons keep using the original `key` argument. -/
def setEagerCopy (hashF : K → Nat) (copyKeyF : K → K) (d : Dict K V) (k : K)
    (v : V) : Option (Dict K V × Bool) :=
  let d1 := if 3 * d.capacity < 4 * (d.size + 1) then resize d (2 * d.capacity)
    else d
  match modIdx (hashF k) d1.capacity with
  | none => none
  | some idx =>
    let h := hashF k
    let p := setFrom d1.capacity idx h k v 0 d1.capacity d1.entries
      ⟨copyKeyF k, v, h, 0⟩
    some ({ entries := p.1, capacity := d1.capacity
            size := if p.2 then d1.size + 1 else d1.size }, p.2)

/-- The probing loop of `dict_set` (part_001) with its lazy `strdup`
instrumented: `alloc` tells whether `strdup` succeeds, `haveKey` tracks
whether `entry.key` has already been allocated, and the returned number
counts the successful `strdup` calls.  A failed `strdup` is the C
`return false`, handing back the array as it stands at that point.
(The loop never reads the carried key, so the carried entry holds the
eventual key value; only the allocation *event* is tracked.) -/
def set01From (cap idx h : Nat) (k : K) (v : V) (alloc : Bool) :
    Nat → Nat → List (Entry K V) → Entry K V → Bool → Nat →
    List (Entry K V) × Bool × Nat
  | _, 0, es, _, _, cnt => (es, false, cnt)
  | i, steps+1, es, e, haveKey, cnt =>
    let probe := (idx + i) % cap
    let r := eAt es probe
    if r.psl < 0 then
      if haveKey ∨ alloc then
        (es.set probe e, true, if haveKey then cnt else cnt + 1)
      else (es, false, cnt)
    else if r.hash = h ∧ r.key = k then
      (es.set probe { r with value := v }, false, cnt)
    else if r.psl < e.psl then
      if haveKey ∨ alloc then
        set01From cap idx h k v alloc (i+1) steps (es.set probe e)
          { r with psl := r.psl + 1 } true (if haveKey then cnt else cnt + 1)
      else (es, false, cnt)
    else
      set01From cap idx h k v alloc (i+1) steps es { e with psl := e.psl + 1 }
        haveKey cnt

/-- `dict_set` (part_001) with the growth recursion fuelled and the
successful `strdup` calls counted; `alloc` is the allocation oracle and
`none` is fuel exhaustion of the `dict_set`/`dict_resize` mutual
recursion (which terminates in every real run).  The nested fold is the
body of `dict_resize`, inlined so the recursion is structural on the
fuel. -/
def set01Go (hashF : K → Nat) (alloc : Bool) :
    Nat → Dict K V → K → V → Option (Dict K V × Bool × Nat)
  | 0, _, _, _ => none
  | fuel+1, d, k, v =>
    match (if 3 * d.capacity < 4 * (d.size + 1) then
        d.entries.foldl
          (fun (acc : Option (Dict K V × Nat)) (old : Entry K V) =>
            match acc with
            | none => none
            | some (nd, c) =>
              if old.psl < 0 then some (nd, c)
              else
                match set01Go hashF alloc fuel nd old.key old.value with
                | none => none
                | some (nd2, _, c2) => some (nd2, c + c2))
          (some ({ entries := List.replicate (2 * d.capacity)
                     ⟨default, default, 0, -1⟩
                   capacity := 2 * d.capacity, size := 0 }, 0))
      else some (d, 0)) with
    | none => none
    | some (d1, c1) =>
      match modIdx (hashF k) d1.capacity with
      | none => none
      | some idx =>
        let p := set01From d1.capacity idx (hashF k) k v alloc 0 d1.capacity
          d1.entries ⟨k, v, hashF k, 0⟩ false 0
        some ({ entries := p.1, capacity := d1.capacity
                size := if p.2.1 then d1.size + 1 else d1.size }, p.2.1,
          c1 + p.2.2)

/-- `dict_set` (part_001) with allocation oracle, fuel and `strdup`
count: the entry point of `set01Go`. -/
def dict_set01 (hashF : K → Nat) (alloc : Bool) (fuel : Nat) (d : Dict K V)
    (k : K) (v : V) : Option (Dict K V × Bool × Nat) :=
  set01Go hashF alloc fuel d k v

/-- `dict_resize` (part_001): fresh sentinel array, then walk the old
array in physical order and re-insert every occupied entry through
`dict_set` — which `strdup`s the key again — before freeing the old
key.  The count accumulates every `strdup` performed. -/
def dict_resize01 (hashF : K → Nat) (alloc : Bool) (fuel : Nat)
    (d : Dict K V) (nc : Nat) : Option (Dict K V × Nat) :=
  d.entries.foldl
    (fun (acc : Option (Dict K V × Nat)) (old : Entry K V) =>
      match acc with
      | none => none
      | some (nd, c) =>
        if old.psl < 0 then some (nd, c)
        else
          match set01Go hashF alloc fuel nd old.key old.value with
          | none => none
          | some (nd2, _, c2) => some (nd2, c + c2))
    (some ({ entries := List.replicate nc ⟨default, default, 0, -1⟩
             capacity := nc, size := 0 }, 0))

/-- With a failing allocator and a key not already stored, the `dict_set`
probing loop performs no mutation at all before reporting failure. -/
theorem set01From_alloc_fail (cap idx h : Nat) (k : K) (v : V)
    (es : List (Entry K V)) (hlen : es.length = cap) (hcap : 0 < cap)
    (hmem : k ∉ occKeysL es) :
    ∀ (steps i : Nat) (e : Entry K V) (cnt : Nat),
      set01From cap idx h k v false i steps es e false cnt =
        (es, false, cnt) := by
  intro steps
  induction steps with
  | zero =>
    intro i e cnt
    rfl
  | succ steps ih =>
    intro i e cnt
    simp only [set01From]
    by_cases h1 : (eAt es ((idx + i) % cap)).psl < 0
    · rw [if_pos h1, if_neg (by simp)]
    · rw [if_neg h1]
      have h2 : ¬((eAt es ((idx + i) % cap)).hash = h ∧
          (eAt es ((idx + i) % cap)).key = k) := by
        rintro ⟨_, hk2⟩
        exact hmem (hk2 ▸ key_mem_occKeys es ((idx + i) % cap)
          (by rw [hlen]; exact probe_lt cap idx i hcap)
          (by rw [pslOf]; omega))
      rw [if_neg h2]
      by_cases h3 : (eAt es ((idx + i) % cap)).psl < e.psl
      · rw [if_pos h3, if_neg (by simp)]
      · rw [if_neg h3]
        exact ih (i+1) _ cnt

/-- `dict_set` (part_001) on a failed key-copy allocation with the
growth trigger not firing: the call returns `false` with the dictionary
untouched and no allocation performed.  (When the trigger fires first,
the resize — with its capacity change and key re-allocations — has
already happened and is not rolled back.) -/
theorem dict_set01_alloc_fail (hashF : K → Nat) (fuel : Nat) (d : Dict K V)
    (k : K) (v : V) (hcap : 0 < d.capacity)
    (hlen : d.entries.length = d.capacity)
    (hnog : ¬ 3 * d.capacity < 4 * (d.size + 1))
    (hmem : k ∉ occKeysL d.entries) :
    dict_set01 hashF false (fuel + 1) d k v = some (d, false, 0) := by
  simp only [dict_set01, set01Go]
  rw [if_neg hnog]
  show (match modIdx (hashF k) d.capacity with
    | none => none
    | some idx =>
      let p := set01From d.capacity idx (hashF k) k v false 0 d.capacity
        d.entries ⟨k, v, hashF k, 0⟩ false 0
      some ({ entries := p.1, capacity := d.capacity
              size := if p.2.1 then d.size + 1 else d.size }, p.2.1,
        0 + p.2.2)) = some (d, false, 0)
  simp only [modIdx, if_neg (show ¬ d.capacity = 0 by omega),
    set01From_alloc_fail d.capacity (hashF k % d.capacity) (hashF k) k v
      d.entries hlen hcap hmem]
  rfl

theorem resize_capacity_fold :
    ∀ (olds : List (Entry K V)) (nd : Dict K V),
      (olds.foldl (fun nd old =>
        if old.psl < 0 then nd
        else
          let idx := old.hash % nd.capacity
          let p := insFrom nd.capacity idx 0 nd.capacity nd.entries
            { old with psl := 0 }
          { entries := p.1, capacity := nd.capacity
            size := if p.2 then nd.size + 1 else nd.size }) nd).capacity =
        nd.capacity := by
  intro olds
  induction olds with
  | nil =>
    intro nd
    rfl
  | cons old rest ih =>
    intro nd
    simp only [List.foldl_cons]
    by_cases ho : old.psl < 0
    · rw [if_pos ho]
      exact ih nd
    · rw [if_neg ho]
      exact ih _

theorem resize_capacity (d : Dict K V) (n : Nat) : (resize d n).capacity = n := by
  rw [resize]
  exact resize_capacity_fold d.entries _

/-- One mutating operation that does not touch the key `k`: a `set` or
`remove` of a different key, or a `reserve`. -/
inductive OtherOp (hashF : K → Nat) (k : K) : Dict K V → Dict K V → Prop where
  | set (d d2 : Dict K V) (k2 : K) (v2 : V) (b : Bool) (hne : k2 ≠ k)
      (h : setOpt hashF d k2 v2 = some (d2, b)) : OtherOp hashF k d d2
  | remove (d d2 : Dict K V) (k2 : K) (b : Bool) (hne : k2 ≠ k)
      (h : removeOpt hashF d k2 = some (d2, b)) : OtherOp hashF k d d2
  | reserve (d d2 : Dict K V) (n : Nat) (h : reserveOpt d n = some d2) :
      OtherOp hashF k d d2

/-- A finite run of operations not touching `k`. -/
inductive OtherOps (hashF : K → Nat) (k : K) : Dict K V → Dict K V → Prop where
  | refl (d : Dict K V) : OtherOps hashF k d d
  | step (d1 d2 d3 : Dict K V) (h1 : OtherOps hashF k d1 d2)
      (h2 : OtherOp hashF k d2 d3) : OtherOps hashF k d1 d3

/-- Operations on other keys preserve well-formedness, positive capacity
and the stored pair `(k, v)`. -/
theorem otherOps_preserve (hashF : K → Nat) (k : K) (v : V) (d d2 : Dict K V)
    (hops : OtherOps hashF k d d2) (hwf : WF hashF d) (hcap : 0 < d.capacity)
    (hmem : ((k, v) : K × V) ∈ (occPairsL d.entries : Multiset (K × V))) :
    WF hashF d2 ∧ 0 < d2.capacity ∧
      ((k, v) : K × V) ∈ (occPairsL d2.entries : Multiset (K × V)) := by
  induction hops with
  | refl => exact ⟨hwf, hcap, hmem⟩
  | step dB dC h1 h2 ih =>
    obtain ⟨hwf2, hcap2, hmem2⟩ := ih
    cases h2 with
    | set k2 v2 b hne heq =>
      obtain ⟨d2x, bx, heq2, hwf3, hcap3, _, htrue, hfalse⟩ :=
        setOpt_spec hashF dB k2 v2 hwf2 hcap2
      have hbd : (d2x, bx) = (dC, b) := Option.some.inj (heq2.symm.trans heq)
      have hd2 : d2x = dC := congrArg Prod.fst hbd
      rw [← hd2]
      refine ⟨hwf3, ?_, ?_⟩
      · rw [hcap3]
        split <;> omega
      · cases bx with
        | true =>
          obtain ⟨_, hpr⟩ := htrue rfl
          rw [hpr]
          exact Multiset.mem_add.mpr (Or.inl hmem2)
        | false =>
          obtain ⟨_, vold, hvmem, hpr⟩ := hfalse rfl
          rw [hpr]
          refine Multiset.mem_add.mpr (Or.inl ?_)
          refine (Multiset.mem_erase_of_ne ?_).mpr hmem2
          intro hc
          exact hne (congrArg Prod.fst hc).symm
    | remove k2 b hne heq =>
      obtain ⟨d2x, bx, heq2, hwf3, hcap3, _, hbf, hbt⟩ :=
        removeOpt_spec hashF dB k2 hcap2 hwf2
      have hbd : (d2x, bx) = (dC, b) := Option.some.inj (heq2.symm.trans heq)
      have hd2 : d2x = dC := congrArg Prod.fst hbd
      rw [← hd2]
      refine ⟨hwf3, by rw [hcap3]; exact hcap2, ?_⟩
      cases bx with
      | false =>
        rw [hbf rfl]
        exact hmem2
      | true =>
        obtain ⟨_, _, vk, _, hpq⟩ := hbt rfl
        rw [← hpq] at hmem2
        rcases Multiset.mem_add.mp hmem2 with hin | hin
        · exact hin
        · exfalso
          rw [Multiset.mem_singleton] at hin
          exact hne (congrArg Prod.fst hin).symm
    | reserve n heq =>
      obtain ⟨d2x, heq2, hwf3, _, hpairs3, hge, _⟩ :=
        reserveOpt_spec hashF dB n hcap2 hwf2
      have hd2 : d2x = dC := Option.some.inj (heq2.symm.trans heq)
      rw [← hd2]
      refine ⟨hwf3, by omega, ?_⟩
      rw [hpairs3]
      exact hmem2

/-! ## The claims -/

/-- Claim C1: after `set(k, v)` succeeds, `get(k, default)` returns `v`
for every choice of default, and this continues to hold across any
further run of operations that neither removes `k` nor overwrites it
(sets and removes of other keys, and reserves). -/
theorem claim_C1 (hashF : K → Nat) (d : Dict K V) (k : K) (v : V) (dflt : V)
    (d1 d2 : Dict K V) (b : Bool) (hwf : WF hashF d) (hcap : 0 < d.capacity)
    (hset : setOpt hashF d k v = some (d1, b))
    (hops : OtherOps hashF k d1 d2) :
    getOpt hashF d2 k dflt = some v := by
  obtain ⟨d1x, bx, heq, hwf1, hcap1, _, htrue, hfalse⟩ :=
    setOpt_spec hashF d k v hwf hcap
  have hd1 : d1x = d1 :=
    congrArg Prod.fst (Option.some.inj (heq.symm.trans hset))
  have hmem1 : ((k, v) : K × V) ∈
      (occPairsL d1x.entries : Multiset (K × V)) := by
    cases bx with
    | true =>
      obtain ⟨_, hpr⟩ := htrue rfl
      rw [hpr]
      exact Multiset.mem_add.mpr (Or.inr (Multiset.mem_singleton_self _))
    | false =>
      obtain ⟨_, vold, _, hpr⟩ := hfalse rfl
      rw [hpr]
      exact Multiset.mem_add.mpr (Or.inr (Multiset.mem_singleton_self _))
  have hcap1p : 0 < d1x.capacity := by
    rw [hcap1]
    split <;> omega
  rw [hd1] at hwf1 hcap1p hmem1
  obtain ⟨hwf2, hcap2, hmem2⟩ := otherOps_preserve hashF k v d1 d2 hops hwf1
    hcap1p hmem1
  exact getOpt_present hashF d2 k v dflt hcap2 hwf2 (Multiset.mem_coe.mp hmem2)

theorem claim_C1_witness :
    getOpt (fun n => n)
      (⟨[⟨0, 0, 0, -1⟩, ⟨1, 10, 1, 0⟩, ⟨2, 20, 2, 0⟩, ⟨0, 0, 0, -1⟩], 4, 2⟩ :
        Dict Nat Nat) 1 0 = some 10 :=
  claim_C1 (fun n => n) (create 4) 1 10 0
    ⟨[⟨0, 0, 0, -1⟩, ⟨1, 10, 1, 0⟩, ⟨0, 0, 0, -1⟩, ⟨0, 0, 0, -1⟩], 4, 1⟩
    ⟨[⟨0, 0, 0, -1⟩, ⟨1, 10, 1, 0⟩, ⟨2, 20, 2, 0⟩, ⟨0, 0, 0, -1⟩], 4, 2⟩
    true ((create_WF (fun n => n) 4).1) (by decide) rfl
    (OtherOps.step _ _ _ (OtherOps.refl _)
      (OtherOp.set _ _ 2 20 true (by decide) rfl))

/-- Claim C2 (corrected): when the `strdup` key copy fails and the call
did not first trigger the growth resize, `dict_set` (part_001) aborts
with `false`, the dictionary untouched and no allocation performed.  The
unchecked copy of the generic header's `set`, and the untriggered
rollback of a preceding resize, are the refuted side — see the
counterexample. -/
theorem claim_C2 (hashF : K → Nat) (fuel : Nat) (d : Dict K V) (k : K) (v : V)
    (hcap : 0 < d.capacity) (hlen : d.entries.length = d.capacity)
    (hnog : ¬ 3 * d.capacity < 4 * (d.size + 1))
    (hmem : k ∉ occKeysL d.entries) :
    dict_set01 hashF false (fuel + 1) d k v = some (d, false, 0) :=
  dict_set01_alloc_fail hashF fuel d k v hcap hlen hnog hmem

theorem claim_C2_witness :
    dict_set01 (fun n => n) false 1 (create 4 : Dict Nat Nat) 5 7 =
      some (create 4, false, 0) :=
  claim_C2 (fun n => n) 0 (create 4) 5 7 (by decide) rfl (by decide) (by decide)

/-- Claim C2 counterexample: `NAME##_set` of the generic header copies
the key with no NULL check; with the copy failing (the stored key comes
back `none`), the call still reports Inserted and mutates the table —
`size` goes from 0 to 1 and a NULL-keyed entry is stored — instead of
aborting with no observable partial mutation. -/
theorem claim_C2_counterexample :
    setEagerCopy (fun o => o.getD 0) (fun _ => (none : Option Nat))
        (create 4 : Dict (Option Nat) Nat) (some 5) 7 =
      some (⟨[⟨none, 0, 0, -1⟩, ⟨none, 7, 5, 0⟩, ⟨none, 0, 0, -1⟩,
        ⟨none, 0, 0, -1⟩], 4, 1⟩, true) := rfl

/-- Claim C3 (corrected): `resize` of the generic header re-inserts the
occupied entries in physical order with `psl` reset to 0 and preserves
the stored pairs, so every key still maps to its original value; the
"no second key allocation" half fails for part_001, whose `dict_resize`
re-inserts through `dict_set` and `strdup`s every key again — see the
counterexample. -/
theorem claim_C3 (hashF : K → Nat) (d : Dict K V) (n : Nat) (hn : 0 < n)
    (hwf : WF hashF d) (hcnt : d.size ≤ n) (hload2 : 4 * d.size ≤ 3 * n) :
    (occPairsL (resize d n).entries : Multiset (K × V)) =
      occPairsL d.entries ∧
    ∀ (k : K) (vk dflt : V), ((k, vk) : K × V) ∈ occPairsL d.entries →
      getOpt hashF (resize d n) k dflt = some vk := by
  obtain ⟨hwf2, hcap2, _, hpairs2⟩ := resize_WF hashF d n hn hwf hcnt hload2
  refine ⟨hpairs2, ?_⟩
  intro k vk dflt hmem
  refine getOpt_present hashF (resize d n) k vk dflt
    (by rw [hcap2]; exact hn) hwf2 ?_
  have hmem2 : ((k, vk) : K × V) ∈
      (occPairsL (resize d n).entries : Multiset (K × V)) := by
    rw [hpairs2]
    exact Multiset.mem_coe.mpr hmem
  exact Multiset.mem_coe.mp hmem2

theorem claim_C3_witness :
    getOpt (fun n => n) (resize (⟨[⟨0, 0, 0, -1⟩, ⟨1, 10, 1, 0⟩,
        ⟨0, 0, 0, -1⟩, ⟨0, 0, 0, -1⟩], 4, 1⟩ : Dict Nat Nat) 8) 1 0 =
      some 10 :=
  (claim_C3 (fun n => n)
    ⟨[⟨0, 0, 0, -1⟩, ⟨1, 10, 1, 0⟩, ⟨0, 0, 0, -1⟩, ⟨0, 0, 0, -1⟩], 4, 1⟩ 8
    (by decide) (WF_of_WFB _ _ (by decide)) (by decide) (by decide)).2
    1 10 0 (by decide)

/-- Claim C3 counterexample: `dict_resize` (part_001) on a table holding
one entry performs one `strdup` — the key is re-copied through
`dict_set`, not moved, so "no second key allocation" fails. -/
theorem claim_C3_counterexample :
    dict_resize01 (fun n => n) true 1
        (⟨[⟨0, 5, 0, 0⟩, ⟨0, 0, 0, -1⟩], 2, 1⟩ : Dict Nat Nat) 4 =
      some (⟨[⟨0, 5, 0, 0⟩, ⟨0, 0, 0, -1⟩, ⟨0, 0, 0, -1⟩, ⟨0, 0, 0, -1⟩],
        4, 1⟩, 1) := rfl

/-- Claim C4: `remove` on an absent key returns `false` with the state
untouched; on a present key it returns `true`, decrements `size` by one,
afterwards `contains` answers `false`, and a second `remove` of the same
key returns `false` and changes nothing. -/
theorem claim_C4 (hashF : K → Nat) (d : Dict K V) (k : K)
    (hcap : 0 < d.capacity) (hwf : WF hashF d) :
    (k ∉ occKeysL d.entries → removeOpt hashF d k = some (d, false)) ∧
    (k ∈ occKeysL d.entries → ∃ d2, removeOpt hashF d k = some (d2, true) ∧
      d2.size + 1 = d.size ∧ containsOpt hashF d2 k = some false ∧
      removeOpt hashF d2 k = some (d2, false)) := by
  obtain ⟨d2, b, heq, hwf2, hcap2, hbiff, hbf, hbt⟩ :=
    removeOpt_spec hashF d k hcap hwf
  constructor
  · intro hnm
    have hb : b = false := by
      cases b with
      | false => rfl
      | true => exact absurd (hbiff.mp rfl) hnm
    rw [hb] at heq
    rw [hbf hb] at heq
    exact heq
  · intro hm
    have hb : b = true := by
      cases b with
      | true => rfl
      | false => exact absurd (hbiff.mpr hm) (by simp)
    subst hb
    obtain ⟨hsz, hknotin, vk, _, _⟩ := hbt rfl
    refine ⟨d2, heq, hsz, ?_, ?_⟩
    · exact containsOpt_absent hashF d2 k (by rw [hcap2]; exact hcap)
        hwf2.hlen hknotin
    · obtain ⟨d3, b3, heq3, _, _, hbiff3, hbf3, _⟩ :=
        removeOpt_spec hashF d2 k (by rw [hcap2]; exact hcap) hwf2
      have hb3 : b3 = false := by
        cases b3 with
        | false => rfl
        | true => exact absurd (hbiff3.mp rfl) hknotin
      rw [hb3, hbf3 hb3] at heq3
      exact heq3

theorem claim_C4_witness :
    removeOpt (fun n => n) (⟨[⟨0, 0, 0, -1⟩, ⟨1, 10, 1, 0⟩, ⟨0, 0, 0, -1⟩,
        ⟨0, 0, 0, -1⟩], 4, 1⟩ : Dict Nat Nat) 2 =
      some (⟨[⟨0, 0, 0, -1⟩, ⟨1, 10, 1, 0⟩, ⟨0, 0, 0, -1⟩, ⟨0, 0, 0, -1⟩],
        4, 1⟩, false) ∧
    ∃ d2, removeOpt (fun n => n) (⟨[⟨0, 0, 0, -1⟩, ⟨1, 10, 1, 0⟩,
        ⟨0, 0, 0, -1⟩, ⟨0, 0, 0, -1⟩], 4, 1⟩ : Dict Nat Nat) 1 =
      some (d2, true) ∧ d2.size + 1 = 1 ∧
      containsOpt (fun n => n) d2 1 = some false ∧
      removeOpt (fun n => n) d2 1 = some (d2, false) :=
  ⟨(claim_C4 (fun n => n)
      ⟨[⟨0, 0, 0, -1⟩, ⟨1, 10, 1, 0⟩, ⟨0, 0, 0, -1⟩, ⟨0, 0, 0, -1⟩], 4, 1⟩ 2
      (by decide) (WF_of_WFB _ _ (by decide))).1 (by decide),
   (claim_C4 (fun n => n)
      ⟨[⟨0, 0, 0, -1⟩, ⟨1, 10, 1, 0⟩, ⟨0, 0, 0, -1⟩, ⟨0, 0, 0, -1⟩], 4, 1⟩ 1
      (by decide) (WF_of_WFB _ _ (by decide))).2 (by decide)⟩

/-- Claim C5: `set` returns Inserted exactly when the key was absent, in
which case one new pair is stored and `size` grows by one; it returns
Updated exactly when the key was present, in which case the one stored
pair for that key has its value replaced and `size` is unchanged. -/
theorem claim_C5 (hashF : K → Nat) (d : Dict K V) (k : K) (v : V)
    (hwf : WF hashF d) (hcap : 0 < d.capacity) :
    ∃ d2 b, setOpt hashF d k v = some (d2, b) ∧
      (b = true ↔ k ∉ occKeysL d.entries) ∧
      (b = true → d2.size = d.size + 1 ∧
        (occPairsL d2.entries : Multiset (K × V)) =
          (occPairsL d.entries : Multiset (K × V)) + {(k, v)}) ∧
      (b = false → d2.size = d.size ∧
        ∃ vold, ((k, vold) : K × V) ∈ occPairsL d.entries ∧
          (occPairsL d2.entries : Multiset (K × V)) =
            ((occPairsL d.entries : Multiset (K × V)).erase (k, vold)) +
              {(k, v)}) := by
  obtain ⟨d2, b, h1, _, _, h4, h5, h6⟩ := setOpt_spec hashF d k v hwf hcap
  exact ⟨d2, b, h1, h4, h5, h6⟩

theorem claim_C5_witness :
    ∃ d2 b, setOpt (fun n => n) (create 4 : Dict Nat Nat) 1 10 =
        some (d2, b) ∧
      (b = true ↔ 1 ∉ occKeysL (create 4 : Dict Nat Nat).entries) ∧
      (b = true → d2.size = (create 4 : Dict Nat Nat).size + 1 ∧
        (occPairsL d2.entries : Multiset (Nat × Nat)) =
          (occPairsL (create 4 : Dict Nat Nat).entries :
            Multiset (Nat × Nat)) + {(1, 10)}) ∧
      (b = false → d2.size = (create 4 : Dict Nat Nat).size ∧
        ∃ vold, ((1, vold) : Nat × Nat) ∈
            occPairsL (create 4 : Dict Nat Nat).entries ∧
          (occPairsL d2.entries : Multiset (Nat × Nat)) =
            ((occPairsL (create 4 : Dict Nat Nat).entries :
              Multiset (Nat × Nat)).erase (1, vold)) + {(1, 10)}) :=
  claim_C5 (fun n => n) (create 4) 1 10 ((create_WF (fun n => n) 4).1)
    (by decide)

/-- Claim C6: in every state reachable by `set`, `remove`, `clear` and
`resize` (any positive capacity) from a positive-capacity creation,
every occupied slot at physical index `i` stores
`psl = (i - hash % capacity) mod capacity`, and every empty slot carries
the `-1` sentinel. -/
theorem claim_C6 (hashF : K → Nat) (d : Dict K V) (h : Reachable6 hashF d) :
    SentA d.capacity d.entries :=
  (reachable6_A hashF d h).2.2

theorem claim_C6_witness :
    SentA (resize (⟨[⟨0, 0, 0, -1⟩, ⟨1, 10, 1, 0⟩, ⟨0, 0, 0, -1⟩,
        ⟨0, 0, 0, -1⟩], 4, 1⟩ : Dict Nat Nat) 3).capacity
      (resize (⟨[⟨0, 0, 0, -1⟩, ⟨1, 10, 1, 0⟩, ⟨0, 0, 0, -1⟩,
        ⟨0, 0, 0, -1⟩], 4, 1⟩ : Dict Nat Nat) 3).entries :=
  claim_C6 (fun n => n) _
    (Reachable6.resizeStep
      ⟨[⟨0, 0, 0, -1⟩, ⟨1, 10, 1, 0⟩, ⟨0, 0, 0, -1⟩, ⟨0, 0, 0, -1⟩], 4, 1⟩ 3
      (by decide)
      (Reachable6.set (create 4)
        ⟨[⟨0, 0, 0, -1⟩, ⟨1, 10, 1, 0⟩, ⟨0, 0, 0, -1⟩, ⟨0, 0, 0, -1⟩], 4, 1⟩
        1 10 true (Reachable6.create 4 (by decide)) rfl))

/-- Claim C7: after every run of the mutating surface (`set`, `remove`,
`clear`, `reserve`) from a positive-capacity creation,
`size / capacity ≤ 3/4` holds — `set` doubles the capacity first
whenever the insertion would cross the threshold. -/
theorem claim_C7 (hashF : K → Nat) (d : Dict K V) (h : Reachable hashF d) :
    4 * sizeOf d ≤ 3 * capacityOf d :=
  (reachable_WF hashF d h).1.hload

theorem claim_C7_witness :
    4 * sizeOf (⟨[⟨0, 0, 0, -1⟩, ⟨1, 10, 1, 0⟩, ⟨0, 0, 0, -1⟩,
      ⟨0, 0, 0, -1⟩], 4, 1⟩ : Dict Nat Nat) ≤
    3 * capacityOf (⟨[⟨0, 0, 0, -1⟩, ⟨1, 10, 1, 0⟩, ⟨0, 0, 0, -1⟩,
      ⟨0, 0, 0, -1⟩], 4, 1⟩ : Dict Nat Nat) :=
  claim_C7 (fun n => n) _
    (Reachable.set (create 4)
      ⟨[⟨0, 0, 0, -1⟩, ⟨1, 10, 1, 0⟩, ⟨0, 0, 0, -1⟩, ⟨0, 0, 0, -1⟩], 4, 1⟩
      1 10 true (Reachable.create 4 (by decide)) rfl)

/-- Claim C8 (corrected): `reserve(n)` sizes the table from its argument
alone, guaranteeing `capacity ≥ 4n/3 + 1` afterwards, so a following run
of `set` calls triggers no resize as long as the total stays at most
`n`; inserting `m` additional keys without a resize therefore needs
`size() + m ≤ n`, and is not guaranteed for `m` additional keys on top
of an arbitrary current size — see the counterexample. -/
theorem claim_C8 (hashF : K → Nat) (d : Dict K V) (n : Nat)
    (kvs : List (K × V)) (d1 : Dict K V) (hcap : 0 < d.capacity)
    (hwf : WF hashF d) (hres : reserveOpt d n = some d1)
    (htot : d1.size + kvs.length ≤ n) :
    ∃ d2, setList hashF d1 kvs = some d2 ∧ d2.capacity = d1.capacity := by
  obtain ⟨d1x, heq, hwf1, hsz1, _, hgecap, hreq⟩ :=
    reserveOpt_spec hashF d n hcap hwf
  have hd1 : d1x = d1 := Option.some.inj (heq.symm.trans hres)
  rw [hd1] at hwf1 hgecap hreq
  have hcap1 : 0 < d1.capacity := by omega
  have h1 : 4 * n < 3 * (n * 4 / 3 + 1) := by omega
  have hload : 4 * (d1.size + kvs.length) ≤ 3 * d1.capacity := by omega
  obtain ⟨d2, hrun, _, hcapeq, _⟩ := setList_no_resize hashF kvs d1 hcap1
    hwf1 hload
  exact ⟨d2, hrun, hcapeq⟩

theorem claim_C8_witness :
    ∃ d2, setList (fun n => n)
        (⟨List.replicate 8 ⟨0, 0, 0, -1⟩, 8, 0⟩ : Dict Nat Nat)
        [(1, 10), (2, 20), (3, 30)] = some d2 ∧ d2.capacity = 8 :=
  claim_C8 (fun n => n) (create 4) 3 [(1, 10), (2, 20), (3, 30)]
    ⟨List.replicate 8 ⟨0, 0, 0, -1⟩, 8, 0⟩ (by decide)
    ((create_WF (fun n => n) 4).1) rfl (by decide)

set_option maxRecDepth 8000 in
/-- Claim C8 counterexample: on a table of capacity 16 holding 12
entries, `reserve(4)` computes `required = 4*4/3 + 1 = 6 ≤ 16` from its
argument alone and changes nothing; inserting the 4 additional distinct
keys then triggers the doubling resize to 32 — so `reserve(m)` does not
make `m` further insertions resize-free. -/
theorem claim_C8_counterexample :
    ((setList (fun n => n) (create 16 : Dict Nat Nat)
        ((List.range 12).map (fun i => (i, 10 * i)))).bind
      (fun d => (reserveOpt d 4).bind (fun d1 =>
        (setList (fun n => n) d1 [(12, 1), (13, 1), (14, 1), (15, 1)]).map
          (fun d2 => (d.capacity, d1.capacity, d2.capacity))))) =
      some (16, 16, 32) := rfl

/-- Claim C9: a fresh cursor driven by `next()` to exhaustion yields
exactly the occupied pairs in physical-slot order: `size()` pairs in
total, each stored key exactly once with its stored value. -/
theorem claim_C9 (hashF : K → Nat) (d : Dict K V) (hwf : WF hashF d) :
    runIter d = occPairsL d.entries ∧ (runIter d).length = d.size ∧
      ((runIter d).map Prod.fst).Nodup ∧
      ∀ p : K × V, p ∈ runIter d ↔ p ∈ occPairsL d.entries := by
  have h1 := runIter_eq d hwf.hlen
  refine ⟨h1, ?_, ?_, fun p => by rw [h1]⟩
  · rw [h1, ← countOcc_eq_length]
    exact hwf.hsize.symm
  · rw [h1, ← occKeysL_eq_map_fst]
    exact hwf.huniq

theorem claim_C9_witness :
    runIter (⟨[⟨0, 0, 0, 0⟩, ⟨1, 10, 1, 0⟩, ⟨2, 20, 2, 0⟩, ⟨3, 30, 3, 0⟩,
        ⟨4, 40, 4, 0⟩, ⟨0, 0, 0, -1⟩, ⟨0, 0, 0, -1⟩, ⟨0, 0, 0, -1⟩], 8, 5⟩ :
      Dict Nat Nat) = [(0, 0), (1, 10), (2, 20), (3, 30), (4, 40)] ∧
    (runIter (⟨[⟨0, 0, 0, 0⟩, ⟨1, 10, 1, 0⟩, ⟨2, 20, 2, 0⟩, ⟨3, 30, 3, 0⟩,
        ⟨4, 40, 4, 0⟩, ⟨0, 0, 0, -1⟩, ⟨0, 0, 0, -1⟩, ⟨0, 0, 0, -1⟩], 8, 5⟩ :
      Dict Nat Nat)).length = 5 :=
  have h := claim_C9 (fun n => n)
    (⟨[⟨0, 0, 0, 0⟩, ⟨1, 10, 1, 0⟩, ⟨2, 20, 2, 0⟩, ⟨3, 30, 3, 0⟩,
      ⟨4, 40, 4, 0⟩, ⟨0, 0, 0, -1⟩, ⟨0, 0, 0, -1⟩, ⟨0, 0, 0, -1⟩], 8, 5⟩ :
      Dict Nat Nat) (WF_of_WFB _ _ (by decide))
  ⟨h.1.trans rfl, h.2.1⟩

/-- Claim C10: `create_with_capacity` accepts capacity 0 without
validation and returns a dictionary whose capacity field is 0; on such a
dictionary every probing operation evaluates `hash % capacity` with a
zero divisor (modelled as `none`), so they are well-defined only under
the unchecked precondition `capacity ≥ 1`. -/
theorem claim_C10 (hashF : K → Nat) (d : Dict K V) (k : K) (v : V) (dflt : V) :
    (create 0 : Dict K V).capacity = 0 ∧
    (d.capacity = 0 → setOpt hashF d k v = none ∧
      getOpt hashF d k dflt = none ∧ getPtrOpt hashF d k = none ∧
      containsOpt hashF d k = none ∧ removeOpt hashF d k = none) := by
  refine ⟨rfl, ?_⟩
  intro hd
  have hm : modIdx (hashF k) d.capacity = none := by
    rw [hd]
    rfl
  refine ⟨?_, ?_, ?_, ?_, ?_⟩
  · simp only [setOpt]
    rw [if_pos (by omega)]
    have hm2 : modIdx (hashF k) (resize d (2 * d.capacity)).capacity =
        none := by
      rw [resize_capacity, hd]
      rfl
    rw [hm2]
  · simp only [getOpt]
    rw [hm]
  · simp only [getPtrOpt]
    rw [hm]
  · simp only [containsOpt]
    rw [hm]
  · simp only [removeOpt]
    rw [hm]

theorem claim_C10_witness :
    (create 0 : Dict Nat Nat).capacity = 0 ∧
    setOpt (fun n => n) (create 0 : Dict Nat Nat) 5 7 = none ∧
    getOpt (fun n => n) (create 0 : Dict Nat Nat) 5 0 = none ∧
    getPtrOpt (fun n => n) (create 0 : Dict Nat Nat) 5 = none ∧
    containsOpt (fun n => n) (create 0 : Dict Nat Nat) 5 = none ∧
    removeOpt (fun n => n) (create 0 : Dict Nat Nat) 5 = none :=
  have h := claim_C10 (fun n => n) (create 0 : Dict Nat Nat) 5 7 0
  ⟨h.1, (h.2 rfl).1, (h.2 rfl).2.1, (h.2 rfl).2.2.1, (h.2 rfl).2.2.2.1,
    (h.2 rfl).2.2.2.2⟩

end DictRH
